import Mathlib

/-!
A verification development for the debby package-resolution engine
(github.com/dpeckett/debby).  The Go sources are shallowly embedded:
pure Go functions become Lean functions, the btree-backed package
database becomes a list ordered by the package comparison function,
loops become folds or fuel-indexed recursion (with an explicit
out-of-fuel error so that every `ok` result of the model corresponds to
a real terminating execution of the Go code), and fallible Go code
returns `Except`.

The Version and Arch implementations are not part of the available
sources (only their callers and tests are); they are modelled from the
specification, as marked on each of those definitions.
-/

set_option maxHeartbeats 1000000

namespace Debby

/-! ## Version (component C1 of the spec)

Modelled from the spec: `internal/types/version/version.go` is not in
the sources.  The spec (§3, §4.1) describes the Debian comparison
algorithm: epochs compare numerically; upstream and revision compare in
alternating non-digit and digit segments, non-digit runs are compared
character-by-character with the order `~ < <empty> < letters <
non-letters`, digit runs are compared numerically with leading zeros
ignored; a missing revision equals `0`. -/

/-- Modelled from the spec: order of a single non-digit character,
with `~` below the end-of-string (0), letters at their code points, and
non-letters pushed above every letter. -/
def charOrder (c : Char) : Int :=
  if c = '~' then -1
  else if c.isAlpha then (c.toNat : Int)
  else (c.toNat : Int) + 256

/-- Modelled from the spec: compare the non-digit runs at the head of
the two character lists, character by character, stopping at the first
position where both sides are at a digit or at the end.  Returns the
verdict together with the remaining characters of both sides. -/
def alphaCmp : List Char → List Char → Ordering × List Char × List Char
  | [], [] => (.eq, [], [])
  | [], y :: ys =>
    if y.isDigit then (.eq, [], y :: ys)
    else (compare (0 : Int) (charOrder y), [], y :: ys)
  | x :: xs, [] =>
    if x.isDigit then (.eq, x :: xs, [])
    else (compare (charOrder x) (0 : Int), x :: xs, [])
  | x :: xs, y :: ys =>
    if x.isDigit && y.isDigit then (.eq, x :: xs, y :: ys)
    else if x = y then alphaCmp xs ys
    else
      compare (if x.isDigit then (0 : Int) else charOrder x)
              (if y.isDigit then (0 : Int) else charOrder y)
      |> (·, x :: xs, y :: ys)

/-- Digit run at the head of a character list. -/
def takeDigits (l : List Char) : List Char := l.takeWhile Char.isDigit

/-- Character list with its head digit run removed. -/
def dropDigits (l : List Char) : List Char := l.dropWhile Char.isDigit

/-- Numeric value of a digit run (empty run counts as 0, leading zeros
are ignored by construction). -/
def digitsToNat (l : List Char) : Nat :=
  l.foldl (fun n c => 10 * n + (c.toNat - 48)) 0

/-- Modelled from the spec: the Debian `verrevcmp` segment loop.  The
fuel argument only serves termination; `a.length + b.length + 1` always
suffices because every recursive step consumes at least one character. -/
def verrevcmp : Nat → List Char → List Char → Ordering
  | 0, _, _ => .eq
  | fuel + 1, a, b =>
    match alphaCmp a b with
    | (.lt, _, _) => .lt
    | (.gt, _, _) => .gt
    | (.eq, a', b') =>
      if a'.isEmpty && b'.isEmpty then .eq
      else
        let da := digitsToNat (takeDigits a')
        let db := digitsToNat (takeDigits b')
        if da < db then .lt
        else if db < da then .gt
        else verrevcmp fuel (dropDigits a') (dropDigits b')

/-- Modelled from the spec: a version is a triple (epoch, upstream,
revision) with rendered form `[E:]U[-R]`. -/
structure Version where
  epoch : Nat
  upstream : String
  revision : String
deriving DecidableEq, Repr

/-- Modelled from the spec: the total comparison of two versions:
epochs numerically, then upstream by `verrevcmp`, then revision by
`verrevcmp` (a missing revision compares like `0`, which `verrevcmp`
already yields for the empty string against `"0"`). -/
def Version.Compare (a b : Version) : Ordering :=
  match compare a.epoch b.epoch with
  | .eq =>
    let ua := a.upstream.toList
    let ub := b.upstream.toList
    match verrevcmp (ua.length + ub.length + 1) ua ub with
    | .eq =>
      let ra := a.revision.toList
      let rb := b.revision.toList
      verrevcmp (ra.length + rb.length + 1) ra rb
    | o => o
  | o => o

/-- Characters the spec allows in a version: alphanumerics plus
`.+-~:`. -/
def versionChar (c : Char) : Bool :=
  c.isAlphanum || c = '.' || c = '+' || c = '-' || c = '~' || c = ':'

/-- Modelled from the spec: parse `[E:]U[-R]`; errors on the empty
string, a non-numeric epoch, and disallowed characters. -/
def Version.Parse (s : String) : Except String Version :=
  if s.isEmpty then .error "empty version string"
  else
    let l := s.toList
    let (epochStr, rest) :=
      match l.findIdx? (fun c => c = ':') with
      | some i => (l.take i, l.drop (i + 1))
      | none => ([], l)
    if !(epochStr.all Char.isDigit) then .error "invalid epoch"
    else
      let epoch := digitsToNat epochStr
      let (upstream, revision) :=
        match (rest.reverse.findIdx? (fun c => c = '-')) with
        | some ri =>
          let i := rest.length - 1 - ri
          (rest.take i, rest.drop (i + 1))
        | none => (rest, [])
      if upstream.isEmpty then .error "empty upstream version"
      else if !(rest.all versionChar) then .error "invalid character in version"
      else .ok ⟨epoch, ⟨upstream⟩, ⟨revision⟩⟩

/-- Rendered form `[E:]U[-R]`. -/
def Version.toString (v : Version) : String :=
  (if v.epoch = 0 then "" else ToString.toString v.epoch ++ ":")
    ++ v.upstream
    ++ (if v.revision = "" then "" else "-" ++ v.revision)

/-- Zero value of `Version`, as produced by Go's `types.Package{...}`
literals that leave the version unset. -/
def Version.zero : Version := ⟨0, "", ""⟩

/-! ## Architecture (component C2 of the spec)

Modelled from the spec: `internal/types/arch/arch.go` is not in the
sources.  The spec (§3) describes an (os, cpu) pair whose match
predicate treats an `any` component as compatible with anything; the
repository's `TestSource` fixture (a real Debian release listing ten
architectures of which only `all` and `amd64` survive an `amd64`
target) pins down that `all` is an ordinary literal pair that matches
only itself. -/

structure Arch where
  os : String
  cpu : String
deriving DecidableEq, Repr

/-- Modelled from the spec: parse an architecture string.  `all` and
`any` are their own pairs; a bare cpu implies the `linux` os; an
`os-cpu` string splits at the first dash. -/
def Arch.Parse (s : String) : Arch :=
  if s = "all" then ⟨"all", "all"⟩
  else if s = "any" then ⟨"any", "any"⟩
  else
    let l := s.toList
    match l.findIdx? (fun c => c = '-') with
    | some i => ⟨⟨l.take i⟩, ⟨l.drop (i + 1)⟩⟩
    | none => ⟨"linux", s⟩

/-- Inverse of `Arch.Parse` on its range. -/
def Arch.toString (a : Arch) : String :=
  if a.os = "all" && a.cpu = "all" then "all"
  else if a.os = "any" && a.cpu = "any" then "any"
  else if a.os = "linux" then a.cpu
  else a.os ++ "-" ++ a.cpu

/-- Single component match: equal, or a wildcard on either side. -/
def archComponentMatch (a b : String) : Bool :=
  a == b || a == "any" || b == "any"

/-- Modelled from the spec: the symmetric architecture match
predicate, component-wise. -/
def Arch.Is (a b : Arch) : Bool :=
  archComponentMatch a.os b.os && archComponentMatch a.cpu b.cpu

/-- Zero value of `Arch`, used for the database search keys that Go
builds as `types.Package{Package: name, Version: v}`. -/
def Arch.zero : Arch := ⟨"", ""⟩

/-! ## Dependency relation AST (component C3 of the spec)

Embedded from the declarations used by `resolver.go` and
`database.go`: a Dependency is a conjunction of Relations, a Relation a
disjunction of Possibilities, and a Possibility names a package with an
optional version constraint.  The architecture and build-profile
adornments of a possibility are not read by any of the embedded code
and are omitted from the record. -/

structure VersionRelation where
  operator : String
  version : Version
deriving DecidableEq, Repr

structure Possibility where
  name : String
  version : Option VersionRelation
deriving DecidableEq, Repr

structure Relation where
  possibilities : List Possibility
deriving DecidableEq, Repr

structure Dependency where
  relations : List Relation
deriving DecidableEq, Repr

/-- Empty dependency list, the zero value of `Dependency`. -/
def Dependency.empty : Dependency := ⟨[]⟩

/-! ## Package (from `internal/types/package.go`, embedded alongside
`release_test.go`)

The record is recursive through `providers`, so it is an inductive.
Fields of the Go struct that none of the embedded code reads
(maintainer, description, sizes, hashes, …) are omitted. -/

inductive Package where
  | mk (package : String) (ver : Version) (architecture : Arch)
       (priority : String) (filename : String)
       (preDepends : Dependency) (depends : Dependency) (provides : Dependency)
       (urls : List String) (isVirtual : Bool) (providers : List Package)
deriving Repr

mutual

def Package.decEq : (a b : Package) → Decidable (a = b)
  | .mk n1 v1 a1 p1 f1 pd1 d1 pr1 u1 iv1 ps1, .mk n2 v2 a2 p2 f2 pd2 d2 pr2 u2 iv2 ps2 =>
    match Package.decEqList ps1 ps2 with
    | isTrue hps => by
      subst hps
      exact decidable_of_iff
        (n1 = n2 ∧ v1 = v2 ∧ a1 = a2 ∧ p1 = p2 ∧ f1 = f2 ∧ pd1 = pd2 ∧ d1 = d2 ∧
          pr1 = pr2 ∧ u1 = u2 ∧ iv1 = iv2) (by simp)
    | isFalse hps => isFalse (by intro he; cases he; exact hps rfl)

def Package.decEqList : (as bs : List Package) → Decidable (as = bs)
  | [], [] => isTrue rfl
  | [], _ :: _ => isFalse (by intro h; cases h)
  | _ :: _, [] => isFalse (by intro h; cases h)
  | a :: as, b :: bs =>
    match Package.decEq a b, Package.decEqList as bs with
    | isTrue h1, isTrue h2 => isTrue (by rw [h1, h2])
    | isFalse h1, _ => isFalse (by intro h; cases h; exact h1 rfl)
    | _, isFalse h2 => isFalse (by intro h; cases h; exact h2 rfl)

end

instance : DecidableEq Package := Package.decEq

def Package.package : Package → String | .mk n .. => n

def Package.ver : Package → Version | .mk _ v .. => v

def Package.architecture : Package → Arch | .mk _ _ a .. => a

def Package.priority : Package → String | .mk _ _ _ p .. => p

def Package.filename : Package → String | .mk _ _ _ _ f .. => f

def Package.preDepends : Package → Dependency | .mk _ _ _ _ _ d .. => d

def Package.depends : Package → Dependency | .mk _ _ _ _ _ _ d .. => d

def Package.provides : Package → Dependency | .mk _ _ _ _ _ _ _ p .. => p

def Package.urls : Package → List String | .mk _ _ _ _ _ _ _ _ u .. => u

def Package.isVirtual : Package → Bool | .mk _ _ _ _ _ _ _ _ _ v .. => v

def Package.providers : Package → List Package | .mk _ _ _ _ _ _ _ _ _ _ ps => ps

/-- Replace the providers list (used by the virtual-package fan-out). -/
def Package.setProviders : Package → List Package → Package
  | .mk n v a p f pd d pr u iv _, ps => .mk n v a p f pd d pr u iv ps

/-- Append a download URL (used by `Component.Packages`). -/
def Package.addUrl : Package → String → Package
  | .mk n v a p f pd d pr u iv ps, url => .mk n v a p f pd d pr (u ++ [url]) iv ps

/-- Package.ID from `package.go`: `name_version_arch`. -/
def Package.ID (p : Package) : String :=
  p.package ++ "_" ++ p.ver.toString ++ "_" ++ p.architecture.toString

/-- Package.Compare from `package.go`: name, then version, then
architecture, where matching architectures (`Is` in either direction)
collapse to equality before the architecture strings are compared. -/
def Package.Compare (a b : Package) : Ordering :=
  match compare a.package b.package with
  | .eq =>
    match a.ver.Compare b.ver with
    | .eq =>
      if a.architecture.Is b.architecture || b.architecture.Is a.architecture then .eq
      else compare a.architecture.toString b.architecture.toString
    | o => o
  | o => o

/-- Go zero value `types.Package{}` with selected fields, used to build
database search keys. -/
def Package.key (name : String) (v : Version) : Package :=
  .mk name v Arch.zero "" "" Dependency.empty Dependency.empty Dependency.empty [] false []

/-! ## PackageDB (from `internal/packages/database.go`)

The Go database is a `btree.BTreeG[types.Package]` ordered by
`Package.Compare`; it is embedded as the list of its items in ascending
tree order.  `ReplaceOrInsert`, `Delete` and `Get` become the
corresponding operations on the ordered list; the range queries
(`Ascend…`/`Descend…` with an early stop at the first name mismatch)
become name filters over the list, which is what the tree traversals
compute on the ordered tree. -/

/-- btree `ReplaceOrInsert`: place the item at its ordered position,
replacing a `Compare`-equal item when one is present. -/
def treeInsert (p : Package) : List Package → List Package
  | [] => [p]
  | q :: rest =>
    match p.Compare q with
    | .lt => p :: q :: rest
    | .eq => p :: rest
    | .gt => q :: treeInsert p rest

/-- btree `Delete`: remove the item `Compare`-equal to the key, if
any. -/
def treeDelete (p : Package) : List Package → List Package
  | [] => []
  | q :: rest => if p.Compare q = .eq then rest else q :: treeDelete p rest

/-- btree `Get`: the item `Compare`-equal to the key, if any. -/
def treeGet (key : Package) (t : List Package) : Option Package :=
  t.find? (fun q => key.Compare q = .eq)

structure PackageDB where
  tree : List Package
deriving DecidableEq, Repr

/-- NewPackageDB from `database.go`. -/
def NewPackageDB : PackageDB := ⟨[]⟩

/-- Len from `database.go`. -/
def PackageDB.Len (db : PackageDB) : Nat := db.tree.length

/-- The search key `types.Package{Package: possi.Name, IsVirtual: true}`
with the version of the possibility when it carries one, built by
`addPackage` and `Remove` for the virtual fan-out. -/
def virtualKeyOf (possi : Possibility) : Package :=
  let v := match possi.version with
    | some vr => vr.version
    | none => Version.zero
  .mk possi.name v Arch.zero "" "" Dependency.empty Dependency.empty Dependency.empty [] true []

/-- One step of the `addPackage` provides loop: look up (or create) the
virtual entry for one possibility and append the package to its
providers unless a `Compare`-equal provider is already listed. -/
def addPackageProvides (pkg : Package) (t : List Package) (possi : Possibility) : List Package :=
  let virtualPkg := match treeGet (virtualKeyOf possi) t with
    | some existing => existing
    | none => virtualKeyOf possi
  if virtualPkg.providers.any (fun provider => provider.Compare pkg = .eq) then t
  else treeInsert (virtualPkg.setProviders (virtualPkg.providers ++ [pkg])) t

/-- addPackage from `database.go`: insert the package, then fan out
over every possibility of its `Provides`. -/
def addPackage (t : List Package) (pkg : Package) : List Package :=
  let t1 := treeInsert pkg t
  pkg.provides.relations.foldl
    (fun acc rel => rel.possibilities.foldl (addPackageProvides pkg) acc) t1

/-- Add from `database.go`. -/
def PackageDB.Add (db : PackageDB) (pkg : Package) : PackageDB :=
  ⟨addPackage db.tree pkg⟩

/-- AddAll from `database.go`. -/
def PackageDB.AddAll (db : PackageDB) (packageList : List Package) : PackageDB :=
  ⟨packageList.foldl addPackage db.tree⟩

/-- One step of the `Remove` provides loop: rebuild the matching
virtual entry's providers without the removed package; delete the entry
when no provider remains. -/
def removePackageProvides (pkg : Package) (t : List Package) (possi : Possibility) : List Package :=
  match treeGet (virtualKeyOf possi) t with
  | none => t
  | some virtualPkg =>
    let updatedProviders := virtualPkg.providers.filter
      (fun provider => !(provider.Compare pkg = .eq : Bool))
    if updatedProviders.isEmpty then treeDelete virtualPkg t
    else treeInsert (virtualPkg.setProviders updatedProviders) t

/-- Remove from `database.go`. -/
def PackageDB.Remove (db : PackageDB) (pkg : Package) : PackageDB :=
  let t1 := treeDelete pkg db.tree
  ⟨pkg.provides.relations.foldl
    (fun acc rel => rel.possibilities.foldl (removePackageProvides pkg) acc) t1⟩

/-- Get from `database.go`: every entry whose name equals `name`, in
tree order. -/
def PackageDB.Get (db : PackageDB) (name : String) : List Package :=
  db.tree.filter (fun p => p.package == name)

/-- StrictlyEarlier from `database.go` (descending, as the Go
traversal descends from the key). -/
def PackageDB.StrictlyEarlier (db : PackageDB) (name : String) (v : Version) : List Package :=
  (db.tree.filter
    (fun p => p.package == name && p.ver.Compare v = .lt)).reverse

/-- EarlierOrEqual from `database.go` (descending). -/
def PackageDB.EarlierOrEqual (db : PackageDB) (name : String) (v : Version) : List Package :=
  (db.tree.filter
    (fun p => p.package == name && !(p.ver.Compare v = .gt : Bool))).reverse

/-- ExactlyEqual from `database.go`: the entry with the given name and
a version comparing equal, if present. -/
def PackageDB.ExactlyEqual (db : PackageDB) (name : String) (v : Version) : Option Package :=
  db.tree.find? (fun p => p.package == name && p.ver.Compare v = .eq)

/-- LaterOrEqual from `database.go` (ascending). -/
def PackageDB.LaterOrEqual (db : PackageDB) (name : String) (v : Version) : List Package :=
  db.tree.filter (fun p => p.package == name && !(p.ver.Compare v = .lt : Bool))

/-- StrictlyLater from `database.go` (ascending). -/
def PackageDB.StrictlyLater (db : PackageDB) (name : String) (v : Version) : List Package :=
  db.tree.filter (fun p => p.package == name && p.ver.Compare v = .gt)

/-! ## Resolver (from `internal/packages/resolver.go`)

The Go errors are `fmt.Errorf` values; the model keeps their payloads
structurally (the relation itself instead of its rendered string).  The
two unbounded loops — the breadth-first expansion and the prune loop —
are fuel-indexed; running out of fuel is a model-only error, and the
fuel passed by `Resolve` is large enough that it never occurs on runs
the Go code performs (every enqueued package is an entry of the pool or
of the initial candidate set, and every prune round that removes
nothing terminates the loop while any other round shrinks the
database). -/

inductive ResolveError where
  | invalidVersion (s : String)
  | unableToLocate (s : String)
  | unknownOperator (op : String)
  | unsatisfiable (rel : Relation)
  | virtualUnsatisfiable (name : String)
  | ambiguousVirtual (name : String)
  | getDependenciesFailed (name : String) (inner : ResolveError)
  | notSelected (name : String) (ver : Option Version)
  | outOfFuel
deriving DecidableEq, Repr

/-- The providers of a virtual entry that are exactly present (by name
and version) in the pool, as collected by `resolveVirtualPackage`. -/
def virtualProviders (packageDB : PackageDB) (virtualPkg : Package) : List Package :=
  virtualPkg.providers.filterMap
    (fun provider => packageDB.ExactlyEqual provider.package provider.ver)

/-- resolveVirtualPackage from `resolver.go`. -/
def resolveVirtualPackage (packageDB candidateDB : PackageDB) (virtualPkg : Package) :
    Except ResolveError Package :=
  match virtualProviders packageDB virtualPkg with
  | [] => .error (.virtualUnsatisfiable virtualPkg.package)
  | [p] => .ok p
  | _ =>
    match (virtualProviders packageDB virtualPkg).find?
        (fun pkg => (candidateDB.ExactlyEqual pkg.package pkg.ver).isSome) with
    | some pkg => .ok pkg
    | none =>
      match (virtualProviders packageDB virtualPkg).find?
          (fun pkg => pkg.priority == "required") with
      | some pkg => .ok pkg
      | none => .error (.ambiguousVirtual virtualPkg.package)

/-- The candidate list a single possibility draws from the pool,
per the operator table of `getDependencies` (`<<`/`<=` →
EarlierOrEqual, `=` → ExactlyEqual, `>=`/`>>` → LaterOrEqual,
unversioned → Get). -/
def possiPackages (packageDB : PackageDB) (possi : Possibility) :
    Except ResolveError (List Package) :=
  match possi.version with
  | some vr =>
    if vr.operator == "<<" then .ok (packageDB.EarlierOrEqual possi.name vr.version)
    else if vr.operator == "<=" then .ok (packageDB.EarlierOrEqual possi.name vr.version)
    else if vr.operator == "=" then .ok (packageDB.ExactlyEqual possi.name vr.version).toList
    else if vr.operator == ">=" then .ok (packageDB.LaterOrEqual possi.name vr.version)
    else if vr.operator == ">>" then .ok (packageDB.LaterOrEqual possi.name vr.version)
    else .error (.unknownOperator vr.operator)
  | none => .ok (packageDB.Get possi.name)

/-- The inner possibility loop of `getDependencies`: the first
possibility whose resolved candidate list (virtual entries replaced by
their chosen provider, failed virtual resolutions dropped) is non-empty
wins; `none` when no possibility yields candidates. -/
def resolveRelation (packageDB candidateDB : PackageDB) :
    List Possibility → Except ResolveError (Option (List Package))
  | [] => .ok none
  | possi :: rest =>
    match possiPackages packageDB possi with
    | .error e => .error e
    | .ok packageList =>
      let resolvedPackages := packageList.filterMap (fun pkg =>
        if pkg.isVirtual then (resolveVirtualPackage packageDB candidateDB pkg).toOption
        else some pkg)
      if resolvedPackages.isEmpty then resolveRelation packageDB candidateDB rest
      else .ok (some resolvedPackages)

/-- The relation loop of `getDependencies`, with the accumulated
dependency list. -/
def getDepsLoop (packageDB candidateDB : PackageDB) :
    List Relation → List Package → Except ResolveError (List Package)
  | [], acc => .ok acc
  | rel :: rels, acc =>
    match resolveRelation packageDB candidateDB rel.possibilities with
    | .error e => .error e
    | .ok none => .error (.unsatisfiable rel)
    | .ok (some resolved) => getDepsLoop packageDB candidateDB rels (acc ++ resolved)

/-- getDependencies from `resolver.go`: `PreDepends ⧺ Depends`, each
relation resolved by `resolveRelation`, results concatenated; an
unsatisfied relation is an error. -/
def getDependencies (packageDB candidateDB : PackageDB) (pkg : Package) :
    Except ResolveError (List Package) :=
  getDepsLoop packageDB candidateDB (pkg.preDepends.relations ++ pkg.depends.relations) []

/-- The scan of one prune round: every entry whose dependencies cannot
be resolved against the candidate set itself. -/
def pruneScan (db : PackageDB) : List Package :=
  db.tree.filter (fun pkg =>
    match getDependencies db db pkg with
    | .error _ => true
    | .ok _ => false)

/-- pruneUnsatisfied from `resolver.go`: repeat the scan-and-remove
round until a round removes nothing.  `db.Len + 1` fuel always
suffices: a round that removes anything strictly shrinks the tree. -/
def pruneUnsatisfied : Nat → PackageDB → Option PackageDB
  | 0, _ => none
  | fuel + 1, db =>
    let pruneList := pruneScan db
    if pruneList.isEmpty then some db
    else pruneUnsatisfied fuel (pruneList.foldl PackageDB.Remove db)

/-- Go `strings.SplitN(s, "=", 2)`: the part before the first `=` and,
when one occurs, everything after it. -/
def splitEq (s : String) : String × Option String :=
  let l := s.toList
  match l.findIdx? (fun c => c = '=') with
  | none => (s, none)
  | some i => (⟨l.take i⟩, some ⟨l.drop (i + 1)⟩)

/-- Go map assignment `requestedPackages[name] = v`: replace the
binding when the key is present, append it otherwise. -/
def mapSet (m : List (String × Option Version)) (k : String) (v : Option Version) :
    List (String × Option Version) :=
  if m.any (fun kv => kv.1 == k) then
    m.map (fun kv => if kv.1 == k then (k, v) else kv)
  else m ++ [(k, v)]

/-- Go map lookup `requestedPackages[pkg.Package]`. -/
def mapGet (m : List (String × Option Version)) (k : String) : Option (Option Version) :=
  (m.find? (fun kv => kv.1 == k)).map (·.2)

/-- The request loop of `Resolve`: parse each `name[=version]`, record
the (last-written) requested version, and seed the candidate database —
the exact match for a pinned request, every version of the name
otherwise; a missing package or an unparseable version is an error. -/
def seedLoop (r : PackageDB) :
    List String → List (String × Option Version) × PackageDB →
    Except ResolveError (List (String × Option Version) × PackageDB)
  | [], acc => .ok acc
  | packageNameVersion :: rest, (requested, candidateDB) =>
    let (name, verStr?) := splitEq packageNameVersion
    match verStr? with
    | some vs =>
      match Version.Parse vs with
      | .error _ => .error (.invalidVersion vs)
      | .ok v =>
        match r.ExactlyEqual name v with
        | some pkg =>
          seedLoop r rest (mapSet requested name (some v), candidateDB.Add pkg)
        | none => .error (.unableToLocate packageNameVersion)
    | none =>
      let packageList := r.Get name
      if packageList.isEmpty then .error (.unableToLocate packageNameVersion)
      else seedLoop r rest (mapSet requested name none, candidateDB.AddAll packageList)

/-- Number of dependency relations a package carries. -/
def relCount (p : Package) : Nat :=
  p.preDepends.relations.length + p.depends.relations.length

/-- Fuel for the breadth-first loop.  Every dequeue consumes one fuel;
the dequeues are bounded by the enqueues, which are the initial queue
plus, for each of the (ID-distinct) processed packages — all of them
entries of the pool or of the initial candidate set — at most one
pool entry per relation. -/
def bfsFuel (pool cand : PackageDB) : Nat :=
  cand.Len + ((pool.tree ++ cand.tree).map relCount).sum * pool.Len + 1

/-- The breadth-first expansion loop of `Resolve`: dequeue, skip if
visited, mark visited, fetch dependencies (an error aborts the resolve),
add and enqueue the not-yet-visited ones. -/
def bfsLoop (r : PackageDB) :
    Nat → List Package → List String → PackageDB → Except ResolveError PackageDB
  | 0, _, _, _ => .error .outOfFuel
  | _ + 1, [], _, candidateDB => .ok candidateDB
  | fuel + 1, pkg :: queue, visited, candidateDB =>
    if visited.contains pkg.ID then bfsLoop r fuel queue visited candidateDB
    else
      match getDependencies r candidateDB pkg with
      | .error e => .error (.getDependenciesFailed pkg.package e)
      | .ok deps =>
        let visited' := pkg.ID :: visited
        let newPkgs := deps.filter (fun d => !(visited'.contains d.ID))
        bfsLoop r fuel (queue ++ newPkgs) visited' (newPkgs.foldl PackageDB.Add candidateDB)

/-- One step of the version-collapse walk of `Resolve`: a pinned name
admits only version-matching candidates; otherwise the candidate
replaces the first already-selected entry of its name exactly when its
version is strictly higher, and enters directly when none is
selected. -/
def collapseStep (requested : List (String × Option Version)) (selectedDB : PackageDB)
    (pkg : Package) : PackageDB :=
  match mapGet requested pkg.package with
  | some (some packageVersion) =>
    if pkg.ver.Compare packageVersion = .eq then selectedDB.Add pkg else selectedDB
  | _ =>
    match selectedDB.Get pkg.package with
    | [] => selectedDB.Add pkg
    | existing0 :: _ =>
      if pkg.ver.Compare existing0.ver = .gt then (selectedDB.Remove existing0).Add pkg
      else selectedDB

/-- The version-collapse walk of `Resolve` over the candidate set in
tree order. -/
def collapse (requested : List (String × Option Version)) (candidateDB : PackageDB) :
    PackageDB :=
  candidateDB.tree.foldl (collapseStep requested) NewPackageDB

/-- The final confirmation loop of `Resolve`: every requested package —
at its pinned version when one was given — must survive in the
selection. -/
def confirmRequested (requested : List (String × Option Version)) (selectedDB : PackageDB) :
    Except ResolveError Unit :=
  requested.foldlM
    (fun _ kv =>
      match kv.2 with
      | some v =>
        if (selectedDB.ExactlyEqual kv.1 v).isSome then pure ()
        else Except.error (.notSelected kv.1 (some v))
      | none =>
        if (selectedDB.Get kv.1).isEmpty then Except.error (.notSelected kv.1 none)
        else pure ())
    ()

/-- Resolve from `resolver.go`: seed candidates from the requests,
expand breadth-first, prune, collapse versions, re-prune, confirm. -/
def Resolve (r : PackageDB) (packageNameVersions : List String) :
    Except ResolveError PackageDB := do
  let (requestedPackages, candidateDB) ← seedLoop r packageNameVersions ([], NewPackageDB)
  let candidateDB ← bfsLoop r (bfsFuel r candidateDB) candidateDB.tree [] candidateDB
  let candidateDB ←
    match pruneUnsatisfied (candidateDB.Len + 1) candidateDB with
    | some db => pure db
    | none => Except.error ResolveError.outOfFuel
  let selectedDB := collapse requestedPackages candidateDB
  let selectedDB ←
    match pruneUnsatisfied (selectedDB.Len + 1) selectedDB with
    | some db => pure db
    | none => Except.error ResolveError.outOfFuel
  let _u ← confirmRequested requestedPackages selectedDB
  return selectedDB

/-! ## Decompressor (from `internal/util/decompressor.go`)

Byte streams are lists of naturals (byte values).  The gzip and xz
reader constructors (`gzip.NewReader`, `xz.NewReader`) read their
stream headers eagerly and can fail; they are abstracted as oracle
functions of the stream, `none` meaning successful construction. -/

/-- Result of `Decompress`: which decoding reader wraps the stream. -/
inductive Reader where
  | gzip (stream : List Nat)
  | xz (stream : List Nat)
  | plain (stream : List Nat)
deriving DecidableEq, Repr

/-- Oracles for the two decoder constructors. -/
structure DecompressEnv where
  gzipNewError : List Nat → Option String
  xzNewError : List Nat → Option String

/-- Magic bytes `1F 8B` of gzip. -/
def gzipMagic : List Nat := [0x1F, 0x8B]

/-- Magic bytes `FD 37 7A 58 5A 00` of xz. -/
def xzMagic : List Nat := [0xFD, 0x37, 0x7A, 0x58, 0x5A, 0x00]

/-- Decompress from `decompressor.go`: peek eight bytes (an error when
fewer are available, as `bufio.Reader.Peek` reports a short read), then
dispatch on the gzip and xz magic bytes, falling back to a passthrough
reader. -/
def Decompress (env : DecompressEnv) (stream : List Nat) : Except String Reader :=
  if stream.length < 8 then .error "short read"
  else if stream.take 2 = gzipMagic then
    match env.gzipNewError stream with
    | none => .ok (.gzip stream)
    | some e => .error e
  else if stream.take 6 = xzMagic then
    match env.xzNewError stream with
    | none => .ok (.xz stream)
    | some e => .error e
  else .ok (.plain stream)

/-! ## Component.Packages (from `source/component.go`)

The HTTP fetch, the decompressor, the deb822 decoder and the hash
verification are effectful collaborators; they are abstracted as an
oracle giving, per candidate filename, the outcome of each stage.  URL
path joining is modelled as `/`-separated concatenation of the
non-empty segments, which is `path.Join` for the slash-free clean
segments the code builds. -/

/-- Go `path.Join` on already-clean slash-free segments. -/
def joinPath (parts : List String) : String :=
  "/".intercalate (parts.filter (fun s => !s.isEmpty))

/-- Per-candidate stage outcomes for one `Packages{.xz,.gz,}` fetch. -/
structure FetchResult where
  doError : Bool
  status : Nat
  decompressOk : Bool
  newDecoderOk : Bool
  decodeResult : Option (List Package)
  hashOk : Bool

/-- Cause of one failed candidate attempt. -/
inductive PackagesCause where
  | downloadFailed
  | badStatus (st : Nat)
  | decompressFailed
  | decoderCreateFailed
  | decodeFailed
  | hashMismatch
deriving DecidableEq, Repr

/-- One candidate attempt of `Component.Packages`, in the stage order
of the source: HTTP Do, status check, decompressor, decoder creation,
decode, hash verification. -/
def tryCandidate (env : String → FetchResult) (name : String) :
    Except PackagesCause (List Package) :=
  let r := env name
  if r.doError then .error .downloadFailed
  else if r.status ≠ 200 then .error (.badStatus r.status)
  else if !r.decompressOk then .error .decompressFailed
  else if !r.newDecoderOk then .error .decoderCreateFailed
  else
    match r.decodeResult with
    | none => .error .decodeFailed
    | some packageList =>
      if r.hashOk then .ok packageList else .error .hashMismatch

/-- The candidate filenames, in the order the source tries them. -/
def packagesCandidates : List String := ["Packages.xz", "Packages.gz", "Packages"]

/-- The candidate loop of `Component.Packages`: each failure is
recorded (with its filename, as the Go code wraps each error with the
filename) and the next candidate tried; the first success returns its
package list with the download URL `<sourceURL>/<Filename>` appended to
each package. -/
def packagesLoop (env : String → FetchResult) (sourceURLPath : String) :
    List String → List (String × PackagesCause) →
    Except (List (String × PackagesCause)) (List Package)
  | [], errs => .error errs
  | name :: rest, errs =>
    match tryCandidate env name with
    | .error c => packagesLoop env sourceURLPath rest (errs ++ [(name, c)])
    | .ok packageList =>
      .ok (packageList.map (fun p => p.addUrl (joinPath [sourceURLPath, p.filename])))

/-- Component.Packages from `source/component.go`. -/
def ComponentPackages (env : String → FetchResult) (sourceURLPath : String) :
    Except (List (String × PackagesCause)) (List Package) :=
  packagesLoop env sourceURLPath packagesCandidates []

/-! ## Source.Components (from `internal/source/source.go`)

The InRelease download, signature check and decode are abstracted: the
model starts from the decoded `Release` (architectures and components)
and its SHA-256 table, which is all the pure tail of `Components`
reads. -/

structure Release where
  architectures : List Arch
  components : List String
deriving DecidableEq, Repr

/-- defaultComponents from `source.go`. -/
def defaultComponents : List String := ["main"]

/-- Go `path.Base` on a clean path: the last slash-separated
segment. -/
def pathBase (s : String) : String :=
  match (s.splitOn "/").reverse with
  | [] => "."
  | last :: _ => if last.isEmpty then "." else last

/-- Go `strings.TrimPrefix`. -/
def trimPre (pre s : String) : String :=
  if s.startsWith pre then s.drop pre.length else s

structure Component where
  name : String
  arch : Arch
  urlPath : String
  sha256Sums : List (String × String)
deriving DecidableEq, Repr

/-- The component record built for one (component, architecture) pair
by `Source.Components`. -/
def mkComponent (sourceURLPath distribution : String) (sha256Sums : List (String × String))
    (component : String) (arch : Arch) : Component :=
  let componentDir := joinPath [pathBase component, "binary-" ++ arch.toString]
  { name := component
    arch := arch
    urlPath := joinPath [sourceURLPath, "dists", distribution, component,
      "binary-" ++ arch.toString]
    sha256Sums := (sha256Sums.filter (fun kv => kv.1.startsWith componentDir)).map
      (fun kv => (trimPre (componentDir ++ "/") kv.1, kv.2)) }

/-- Source.Components from `source.go`, from the decoded release on:
filter the release architectures by the target (or `all`), filter the
release components by the configured set united with the defaults, and
emit one component per pair; an empty filter result short-circuits to
the empty list (the Go code returns `nil, nil` with a warning). -/
def SourceComponents (sourceURLPath distribution : String) (confComponents : List String)
    (release : Release) (sha256Sums : List (String × String)) (targetArch : Arch) :
    List Component :=
  let allArch := Arch.Parse "all"
  let availableArchitectures := release.architectures.filter
    (fun releaseArch => releaseArch.Is allArch || releaseArch.Is targetArch)
  if availableArchitectures.isEmpty then []
  else
    let availableComponents := release.components.filter
      (fun component => (defaultComponents ++ confComponents).contains component)
    if availableComponents.isEmpty then []
    else
      availableComponents.flatMap (fun component =>
        availableArchitectures.map (mkComponent sourceURLPath distribution sha256Sums component))

/-! ## Spec-side definitions

Definitions that follow the wording of the specification's claims (not
the code), used on the specification side of refinement statements. -/

/-- Comparison of two version strings, `none` when either fails to
parse. -/
def vcmp (s t : String) : Option Ordering :=
  match Version.Parse s, Version.Parse t with
  | .ok a, .ok b => some (a.Compare b)
  | _, _ => none

/-- A version-constraint operator of the resolver's table holds of a
comparison outcome. -/
def opSat (op : String) (o : Ordering) : Prop :=
  if op = "<<" ∨ op = "<=" then o ≠ .gt
  else if op = "=" then o = .eq
  else if op = ">=" ∨ op = ">>" then o ≠ .lt
  else False

/-- A package satisfies a possibility: right name, and the version
constraint (when present) holds per the resolver's operator table. -/
def possiSat (possi : Possibility) (p : Package) : Prop :=
  p.package = possi.name ∧
    match possi.version with
    | none => True
    | some vr => opSat vr.operator (p.ver.Compare vr.version)

/-- Spec side of claim C6: the release architectures that match the
target architecture or equal `all`. -/
def specArchs (release : Release) (targetArch : Arch) : List Arch :=
  release.architectures.filter
    (fun a => a.Is targetArch || a == Arch.Parse "all")

/-- Spec side of claim C6: the release components lying in the
configured component set united with the default `[main]`. -/
def specComps (release : Release) (confComponents : List String) : List String :=
  release.components.filter
    (fun c => (confComponents ++ defaultComponents).contains c)

/-! ## Concrete fixtures

Small concrete packages and pools used by the witness and
counterexample theorems. -/

/-- A concrete package with no dependencies. -/
def plainPkg (n : String) (v : Version) : Package :=
  .mk n v (Arch.Parse "amd64") "" "" Dependency.empty Dependency.empty Dependency.empty [] false []

/-- A dependency consisting of one unversioned possibility. -/
def dep1 (n : String) : Dependency := ⟨[⟨[⟨n, none⟩]⟩]⟩

/-- Example: a library and a binary depending on it. -/
def exLib : Package := plainPkg "lib" ⟨0, "1.0", ""⟩

/-- Example binary with a `Depends: lib`. -/
def exBin : Package :=
  .mk "b" ⟨0, "5.0", ""⟩ (Arch.Parse "amd64") "" "" Dependency.empty (dep1 "lib")
    Dependency.empty [] false []

/-- Example pool holding `exLib` and `exBin`. -/
def exPool : PackageDB := NewPackageDB.AddAll [exLib, exBin]

/-- The selection `Resolve exPool ["b=5.0"]` produces. -/
def exSel : PackageDB := ⟨[exBin, exLib]⟩

/-- Counterexample fixture for C2: a package providing `v`. -/
def cexProvider : Package :=
  .mk "a" ⟨0, "1.0", ""⟩ (Arch.Parse "amd64") "" "" Dependency.empty Dependency.empty
    (dep1 "v") [] false []

/-- Counterexample fixture for C2: the same identity as `cexProvider`
(name, version and architecture equal) but with an empty Provides. -/
def cexReplacement : Package := plainPkg "a" ⟨0, "1.0", ""⟩

/-- Counterexample fixture for C3: the pinned concrete package `n`. -/
def cexPinned : Package := plainPkg "n" ⟨0, "1.0", ""⟩

/-- Counterexample fixture for C3: a package providing `n (= 2.0)`. -/
def cexZ : Package :=
  .mk "z" ⟨0, "1.0", ""⟩ (Arch.Parse "amd64") "" "" Dependency.empty Dependency.empty
    ⟨[⟨[⟨"n", some ⟨"=", ⟨0, "2.0", ""⟩⟩⟩]⟩]⟩ [] false []

/-- Counterexample pool for C3. -/
def cexPool : PackageDB := NewPackageDB.AddAll [cexPinned, cexZ]

/-- The virtual entry `(n, 2.0)` that the C3 counterexample run lets
into the selection despite the pin `n=1.0`. -/
def cexVirtualN : Package :=
  .mk "n" ⟨0, "2.0", ""⟩ Arch.zero "" "" Dependency.empty Dependency.empty Dependency.empty
    [] true [cexZ]

/-- A decompressor environment whose reader constructors always
succeed. -/
def decompressEnvOk : DecompressEnv := ⟨fun _ => none, fun _ => none⟩

/-- A fetch environment where only the `Packages.gz` candidate
succeeds (the others 404), serving one package. -/
def exFetchEnv : String → FetchResult := fun name =>
  if name = "Packages.gz" then
    ⟨false, 200, true, true, some [plainPkg "p" ⟨0, "1", ""⟩], true⟩
  else ⟨false, 404, true, true, none, true⟩

/-- Example release fixture for the C6 witness: four architectures and
three components, as a real Debian release lists them. -/
def exRelease : Release :=
  ⟨["all", "amd64", "arm64", "i386"].map Arch.Parse, ["main", "contrib", "non-free"]⟩

/-- Example SHA-256 table for the C6 witness. -/
def exSums : List (String × String) :=
  [("main/binary-amd64/Packages.gz", "h1"), ("main/binary-all/x", "h2"),
   ("contrib/binary-amd64/y", "h3")]

/-! ## Canonical keys for the segment comparison

To reason about the order properties of `verrevcmp` (symmetry,
transitivity, congruence of equal versions), each character list is
mapped to its canonical key: the list of its alternating (non-digit
run, digit-run value) tokens, non-digit runs rendered as their
`charOrder` key sequences.  `keyCmp` compares keys lexicographically,
padding a missing character with the end marker `0` and a missing token
with the empty token `([], 0)`; it is proved below to compute exactly
`verrevcmp`. -/

/-- Negation of the digit predicate, the run boundary of the
segmenting loop. -/
def notDigit (c : Char) : Bool := !c.isDigit

/-- Key sequence of a non-digit run. -/
def alphaKey (s : List Char) : List Int := s.map charOrder

/-- Padded lexicographic comparison of two key runs; the shorter run
is padded with the end marker `0` (every real key is non-zero). -/
def padLexCmp : List Int → List Int → Ordering
  | [], [] => .eq
  | [], y :: _ => compare (0 : Int) y
  | x :: _, [] => compare x (0 : Int)
  | x :: xs, y :: ys => (compare x y).then (padLexCmp xs ys)

/-- Comparison of one (non-digit run, digit-run value) token pair. -/
def padTok (x y : List Int × Nat) : Ordering :=
  (padLexCmp x.1 y.1).then (compare x.2 y.2)

/-- Lexicographic comparison of token lists; a missing token compares
as the empty token `([], 0)`. -/
def keyCmp : List (List Int × Nat) → List (List Int × Nat) → Ordering
  | [], [] => .eq
  | [], y :: ys => (padTok ([], 0) y).then (keyCmp [] ys)
  | x :: xs, [] => (padTok x ([], 0)).then (keyCmp xs [])
  | x :: xs, y :: ys => (padTok x y).then (keyCmp xs ys)

/-- The head token of a character list: its leading non-digit run and
the following digit-run value. -/
def tokOf (l : List Char) : List Int × Nat :=
  (alphaKey (l.takeWhile notDigit),
    digitsToNat (takeDigits (l.dropWhile notDigit)))

/-- The remainder of a character list after its head token. -/
def restOf (l : List Char) : List Char :=
  dropDigits (l.dropWhile notDigit)

/-- The canonical key of a character list. -/
def vkey : List Char → List (List Int × Nat)
  | [] => []
  | c :: rest =>
    tokOf (c :: rest) :: vkey (restOf (c :: rest))
termination_by l => l.length
decreasing_by
  simp only [restOf]
  calc (dropDigits ((c :: rest).dropWhile notDigit)).length
      < (c :: rest).length := by
        by_cases hc : c.isDigit
        · rw [List.dropWhile_cons_of_neg (by simp [notDigit, hc])]
          calc (dropDigits (c :: rest)).length
              = (dropDigits rest).length := by
                rw [dropDigits, List.dropWhile_cons_of_pos (by simp [hc])]
                rfl
            _ ≤ rest.length := by
                rw [dropDigits]; exact (List.dropWhile_suffix _).length_le
            _ < (c :: rest).length := by simp
        · rw [List.dropWhile_cons_of_pos (by simp [notDigit, hc])]
          calc (dropDigits (rest.dropWhile notDigit)).length
              ≤ (rest.dropWhile notDigit).length := by
                rw [dropDigits]; exact (List.dropWhile_suffix _).length_le
            _ ≤ rest.length := (List.dropWhile_suffix _).length_le
            _ < (c :: rest).length := by simp

/-! ## Store-threaded resolver mirror (for the frame property)

Go's `Resolve` works through three `*PackageDB` pointers: the pool the
resolver was constructed over, and the freshly created candidate and
selected databases.  To state which databases the call writes, the
resolver is mirrored over an explicit three-database store: every
database operation the Go code performs is threaded through the store,
reads returning the store unchanged and writes targeting the candidate
or selected field exactly where the Go statement targets that
database. -/

structure RStore where
  pool : PackageDB
  cand : PackageDB
  sel : PackageDB
deriving DecidableEq, Repr

/-- The request loop of `Resolve` over the store: the pool lookups
(`ExactlyEqual`, `Get`) read `st.pool`; the seeding writes (`Add`,
`AddAll`) target the candidate database. -/
def seedLoopSt : List String → List (String × Option Version) → RStore →
    Except ResolveError (List (String × Option Version)) × RStore
  | [], req, st => (.ok req, st)
  | packageNameVersion :: rest, req, st =>
    let (name, verStr?) := splitEq packageNameVersion
    match verStr? with
    | some vs =>
      match Version.Parse vs with
      | .error _ => (.error (.invalidVersion vs), st)
      | .ok v =>
        match st.pool.ExactlyEqual name v with
        | some pkg =>
          seedLoopSt rest (mapSet req name (some v)) ⟨st.pool, st.cand.Add pkg, st.sel⟩
        | none => (.error (.unableToLocate packageNameVersion), st)
    | none =>
      if (st.pool.Get name).isEmpty then (.error (.unableToLocate packageNameVersion), st)
      else seedLoopSt rest (mapSet req name none)
        ⟨st.pool, st.cand.AddAll (st.pool.Get name), st.sel⟩

/-- The breadth-first loop of `Resolve` over the store: the dependency
lookups read `st.pool` and `st.cand`; the expansion writes target the
candidate database. -/
def bfsLoopSt : Nat → List Package → List String → RStore →
    Except ResolveError Unit × RStore
  | 0, _, _, st => (.error .outOfFuel, st)
  | _ + 1, [], _, st => (.ok (), st)
  | fuel + 1, pkg :: queue, visited, st =>
    if visited.contains pkg.ID then bfsLoopSt fuel queue visited st
    else
      match getDependencies st.pool st.cand pkg with
      | .error e => (.error (.getDependenciesFailed pkg.package e), st)
      | .ok deps =>
        let visited2 := pkg.ID :: visited
        let newPkgs := deps.filter (fun d => !(visited2.contains d.ID))
        bfsLoopSt fuel (queue ++ newPkgs) visited2
          ⟨st.pool, newPkgs.foldl PackageDB.Add st.cand, st.sel⟩

/-- `Resolve` over the store: the six phases in order, every
intermediate store explicit.  The first component is the call's result,
the second the final state of the three databases. -/
def ResolveSt (pool : PackageDB) (packageNameVersions : List String) :
    Except ResolveError PackageDB × RStore :=
  match seedLoopSt packageNameVersions [] ⟨pool, NewPackageDB, NewPackageDB⟩ with
  | (.error e, st) => (.error e, st)
  | (.ok requested, st1) =>
    match bfsLoopSt (bfsFuel st1.pool st1.cand) st1.cand.tree [] st1 with
    | (.error e, st) => (.error e, st)
    | (.ok _, st2) =>
      match pruneUnsatisfied (st2.cand.Len + 1) st2.cand with
      | none => (.error .outOfFuel, st2)
      | some db =>
        let st4 : RStore := ⟨st2.pool, db, collapse requested db⟩
        match pruneUnsatisfied (st4.sel.Len + 1) st4.sel with
        | none => (.error .outOfFuel, st4)
        | some sel2 =>
          let st5 : RStore := ⟨st4.pool, st4.cand, sel2⟩
          match confirmRequested requested st5.sel with
          | .error e => (.error e, st5)
          | .ok _ => (.ok st5.sel, st5)

/-! ## Statement-side definitions for the request-list semantics

`lastConstraint` expresses, directly over the raw request list, the
constraint the *last* occurrence of a name imposes: a parsed pin for
`name=version` requests, an explicit no-pin marker for plain `name`
requests, nothing when the name never occurs. -/

def lastConstraint : List String → String → Option (Option Version)
  | [], _ => none
  | r :: rest, name =>
    match lastConstraint rest name with
    | some c => some c
    | none =>
      if (splitEq r).1 = name then
        match (splitEq r).2 with
        | some vs =>
          match Version.Parse vs with
          | .ok v => some (some v)
          | .error _ => none
        | none => some none
      else none

/-- A database tree holds an entry of the given name whose version
compares equal to `v`. -/
def hasNameVer (t : List Package) (name : String) (v : Version) : Prop :=
  ∃ p ∈ t, p.package = name ∧ p.ver.Compare v = .eq

/-- Fixture: two versions of one package, requested under two
conflicting pins. -/
def c10n1 : Package := plainPkg "n" ⟨0, "1.0", ""⟩

def c10n2 : Package := plainPkg "n" ⟨0, "2.0", ""⟩

def c10Pool : PackageDB := NewPackageDB.AddAll [c10n1, c10n2]

/-- A name the requested map does not pin to a version (no binding, or
an unpinned binding). -/
def NotPinned (requested : List (String × Option Version)) (name : String) : Prop :=
  ∀ v, mapGet requested name ≠ some (some v)

/-- Invariant of the version-collapse walk after the candidates in
`processed` have been handled: the selection holds only processed
candidates; pinned names hold only pin-matching versions; a non-pinned
entry is maximal among the processed candidates of its name, unique for
its name, and present for every processed non-pinned candidate. -/
def CollapseInv (requested : List (String × Option Version))
    (processed : List Package) (sel : PackageDB) : Prop :=
  (∀ p ∈ sel.tree, p ∈ processed) ∧
  (∀ p ∈ sel.tree, ∀ v, mapGet requested p.package = some (some v) →
    p.ver.Compare v = .eq) ∧
  (∀ p ∈ sel.tree, NotPinned requested p.package →
    ∀ q ∈ processed, q.package = p.package → ¬(q.ver.Compare p.ver = .gt)) ∧
  (∀ name, NotPinned requested name →
    sel.tree.countP (fun p => p.package == name) ≤ 1) ∧
  (∀ q ∈ processed, NotPinned requested q.package →
    ∃ p ∈ sel.tree, p.package = q.package)

/-! ## Statement-side definitions for the database invariant (claim C2) -/

/-- A database operation of the C2 claim: `Add` or `Remove` (AddAll is
the fold of `Add` over a list). -/
inductive DBOp where
  | add (p : Package)
  | remove (p : Package)
deriving DecidableEq, Repr

/-- Apply one operation. -/
def applyOp (db : PackageDB) : DBOp → PackageDB
  | .add p => db.Add p
  | .remove p => db.Remove p

/-- Apply a sequence of operations. -/
def applyOps (db : PackageDB) (ops : List DBOp) : PackageDB :=
  ops.foldl applyOp db

/-- The package an operation carries. -/
def opPkg : DBOp → Package
  | .add p => p
  | .remove p => p

/-- The amended claim's precondition on the packages a sequence
operates with: concrete, pairwise `Compare`-distinct, and never
`Compare`-equal to the virtual key of any provide possibility in
play. -/
def GoodUniverse (U : List Package) : Prop :=
  (∀ p ∈ U, p.isVirtual = false) ∧
  (∀ p ∈ U, ∀ q ∈ U, p.Compare q = .eq → p = q) ∧
  (∀ p ∈ U, ∀ q ∈ U, ∀ rel ∈ q.provides.relations, ∀ possi ∈ rel.possibilities,
    ¬(p.Compare (virtualKeyOf possi) = .eq))

/-- An element the restricted database can hold: a concrete package of
the operated universe, or a virtual entry of zero architecture keyed
(`Compare`-equal) to the virtual key of some provide possibility in
play. -/
def GoodElem (U : List Package) (x : Package) : Prop :=
  (x.isVirtual = false ∧ x ∈ U) ∨
  (x.isVirtual = true ∧ x.architecture = Arch.zero ∧
    ∃ q ∈ U, ∃ rel ∈ q.provides.relations, ∃ possi ∈ rel.possibilities,
      (virtualKeyOf possi).Compare x = .eq)

/-- The virtual-entry invariant of the package database: the tree is
strictly ordered by `Compare`; every entry is a good element; every
virtual entry has a non-empty, `Compare`-deduplicated providers list of
concrete entries still in the database, each providing a possibility
keyed to it; and every provide possibility of every concrete entry has
a virtual entry listing that entry as a provider. -/
def DBInv (U : List Package) (db : PackageDB) : Prop :=
  List.Pairwise (fun a b => a.Compare b = .lt) db.tree ∧
  (∀ x ∈ db.tree, GoodElem U x) ∧
  (∀ v ∈ db.tree, v.isVirtual = true →
    v.providers ≠ [] ∧
    (∀ q ∈ v.providers, q ∈ db.tree ∧ q.isVirtual = false ∧
      ∃ rel ∈ q.provides.relations, ∃ possi ∈ rel.possibilities,
        (virtualKeyOf possi).Compare v = .eq) ∧
    (∀ q1 ∈ v.providers, ∀ q2 ∈ v.providers, q1.Compare q2 = .eq → q1 = q2)) ∧
  (∀ p ∈ db.tree, p.isVirtual = false → ∀ rel ∈ p.provides.relations,
    ∀ possi ∈ rel.possibilities, ∃ v ∈ db.tree, v.isVirtual = true ∧
      (virtualKeyOf possi).Compare v = .eq ∧ p ∈ v.providers)

/-- A virtual entry for the given possibility lists the package as a
provider. -/
def EFact (pkg : Package) (possi : Possibility) (t : List Package) : Prop :=
  ∃ v ∈ t, v.isVirtual = true ∧ (virtualKeyOf possi).Compare v = .eq ∧ pkg ∈ v.providers

/-- Invariant carried through the provides fan-out of `addPackage`:
the full database invariant except that the forward clause is not yet
demanded for the package being added, which is already inserted. -/
def AddInv (U : List Package) (pkg : Package) (t : List Package) : Prop :=
  List.Pairwise (fun a b => a.Compare b = .lt) t ∧
  (∀ x ∈ t, GoodElem U x) ∧
  (∀ v ∈ t, v.isVirtual = true →
    v.providers ≠ [] ∧
    (∀ q ∈ v.providers, q ∈ t ∧ q.isVirtual = false ∧
      ∃ rel ∈ q.provides.relations, ∃ possi ∈ rel.possibilities,
        (virtualKeyOf possi).Compare v = .eq) ∧
    (∀ q1 ∈ v.providers, ∀ q2 ∈ v.providers, q1.Compare q2 = .eq → q1 = q2)) ∧
  (∀ p ∈ t, p.isVirtual = false → p ≠ pkg → ∀ rel ∈ p.provides.relations,
    ∀ possi ∈ rel.possibilities, EFact p possi t) ∧
  pkg ∈ t

/-- Invariant carried through the provides cleanup of `Remove`: the
full database invariant except that the removed package, already
deleted from the tree, may still appear as a provider of entries keyed
by one of the not-yet-processed possibilities. -/
def RemInv (U : List Package) (pkg : Package) (ps : List Possibility)
    (t : List Package) : Prop :=
  List.Pairwise (fun a b => a.Compare b = .lt) t ∧
  (∀ x ∈ t, GoodElem U x) ∧
  (∀ v ∈ t, v.isVirtual = true →
    v.providers ≠ [] ∧
    (∀ q ∈ v.providers,
      (q = pkg ∧ ∃ possi ∈ ps, (virtualKeyOf possi).Compare v = .eq) ∨
      (q ∈ t ∧ q.isVirtual = false ∧
        ∃ rel ∈ q.provides.relations, ∃ possi ∈ rel.possibilities,
          (virtualKeyOf possi).Compare v = .eq)) ∧
    (∀ q1 ∈ v.providers, ∀ q2 ∈ v.providers, q1.Compare q2 = .eq → q1 = q2)) ∧
  (∀ p ∈ t, p.isVirtual = false → ∀ rel ∈ p.provides.relations,
    ∀ possi ∈ rel.possibilities, EFact p possi t) ∧
  pkg ∉ t

/-- The stale virtual entry left by the C2 counterexample run. -/
def cexStaleV : Package :=
  .mk "v" Version.zero Arch.zero "" "" Dependency.empty Dependency.empty Dependency.empty
    [] true [cexProvider]

/-- Decidable equality of `Except` values, for evaluating the model on
concrete inputs. -/
instance exceptDecEq {ε α : Type} [DecidableEq ε] [DecidableEq α] :
    DecidableEq (Except ε α) := fun a b =>
  match a, b with
  | .ok x, .ok y =>
    match decEq x y with
    | isTrue h => isTrue (by rw [h])
    | isFalse h => isFalse (by intro he; cases he; exact h rfl)
  | .error x, .error y =>
    match decEq x y with
    | isTrue h => isTrue (by rw [h])
    | isFalse h => isFalse (by intro he; cases he; exact h rfl)
  | .ok _, .error _ => isFalse (by intro he; cases he)
  | .error _, .ok _ => isFalse (by intro he; cases he)

/-! ## Order theory of the segment comparison

`keyCmp ∘ vkey` is proved to compute `verrevcmp`; symmetry,
transitivity and congruence are then established on the canonical
side and transported. -/

/-- Ordering.then is `eq` exactly when both parts are. -/
theorem thenEqEq {o p : Ordering} : o.then p = .eq ↔ o = .eq ∧ p = .eq := by
  cases o <;> simp [Ordering.then]

/-- Ordering.then commutes with swap. -/
theorem thenSwap (o p : Ordering) : (o.then p).swap = o.swap.then p.swap := by
  cases o <;> rfl

/-- Swap of integer comparison. -/
theorem intCompareSwap (a b : Int) : compare b a = (compare a b).swap :=
  (Batteries.OrientedCmp.symm a b).symm

/-- Swap of natural comparison. -/
theorem natCompareSwap (a b : Nat) : compare b a = (compare a b).swap :=
  (Batteries.OrientedCmp.symm a b).symm

/-- Swap of the padded run comparison. -/
theorem padLexCmp_swap : ∀ xs ys : List Int, padLexCmp ys xs = (padLexCmp xs ys).swap
  | [], [] => rfl
  | [], _ :: _ => by simp only [padLexCmp]; rw [intCompareSwap]
  | _ :: _, [] => by simp only [padLexCmp]; rw [intCompareSwap]
  | x :: xs, y :: ys => by
    simp only [padLexCmp]
    rw [thenSwap, intCompareSwap, padLexCmp_swap xs ys]

/-- On non-zero keys, the padded run comparison is `eq` exactly on
equal runs. -/
theorem padLexCmp_eq_iff : ∀ xs ys : List Int, (∀ x ∈ xs, x ≠ 0) → (∀ y ∈ ys, y ≠ 0) →
    (padLexCmp xs ys = .eq ↔ xs = ys)
  | [], [] => fun _ _ => by simp [padLexCmp]
  | [], y :: ys => fun _ hy => by
    simp only [padLexCmp]
    have : (0 : Int) ≠ y := fun h => hy y (by simp) h.symm
    simp only [compare_eq_iff_eq]
    simp [this]
  | x :: xs, [] => fun hx _ => by
    simp only [padLexCmp]
    have : x ≠ (0 : Int) := hx x (by simp)
    simp only [compare_eq_iff_eq]
    simp [this]
  | x :: xs, y :: ys => fun hx hy => by
    simp only [padLexCmp]
    rw [thenEqEq, compare_eq_iff_eq,
      padLexCmp_eq_iff xs ys (fun a ha => hx a (by simp [ha]))
        (fun a ha => hy a (by simp [ha]))]
    simp

/-- Transitivity of strict padded run comparison. -/
theorem padLexCmp_lt_trans : ∀ xs ys zs : List Int,
    padLexCmp xs ys = .lt → padLexCmp ys zs = .lt → padLexCmp xs zs = .lt
  | [], [], _ => fun h1 _ => by simp [padLexCmp] at h1
  | _ :: _, [], [] => fun _ h2 => by simp [padLexCmp] at h2
  | [], y :: ys, [] => fun h1 h2 => by
    simp only [padLexCmp] at h1 h2
    rw [compare_lt_iff_lt] at h1 h2
    omega
  | [], y :: ys, z :: zs => fun h1 h2 => by
    simp only [padLexCmp] at h1 h2 ⊢
    rw [compare_lt_iff_lt] at h1
    have hz : (0 : Int) < z := by
      rcases hyz : compare y z with _ | _ | _ <;> rw [hyz] at h2
      · rw [compare_lt_iff_lt] at hyz; omega
      · rw [compare_eq_iff_eq] at hyz; omega
      · cases h2
    rw [show compare (0 : Int) z = .lt from compare_lt_iff_lt.mpr hz]
  | x :: xs, [], z :: zs => fun h1 h2 => by
    simp only [padLexCmp] at h1 h2 ⊢
    rw [compare_lt_iff_lt] at h1 h2
    rw [show compare x z = .lt from compare_lt_iff_lt.mpr (by omega)]
    rfl
  | x :: xs, y :: ys, [] => fun h1 h2 => by
    simp only [padLexCmp] at h1 h2 ⊢
    rw [compare_lt_iff_lt] at h2
    have hx : x < 0 := by
      rcases hxy : compare x y with _ | _ | _ <;> rw [hxy] at h1
      · rw [compare_lt_iff_lt] at hxy; omega
      · rw [compare_eq_iff_eq] at hxy; omega
      · cases h1
    rw [compare_lt_iff_lt]
    omega
  | x :: xs, y :: ys, z :: zs => fun h1 h2 => by
    simp only [padLexCmp] at h1 h2 ⊢
    rcases hxy : compare x y with _ | _ | _ <;> rw [hxy] at h1
    · rcases hyz : compare y z with _ | _ | _ <;> rw [hyz] at h2
      · rw [compare_lt_iff_lt] at hxy hyz
        rw [show compare x z = .lt from compare_lt_iff_lt.mpr (by omega)]
        rfl
      · rw [compare_eq_iff_eq] at hyz
        rw [← hyz, hxy]
        rfl
      · cases h2
    · rw [compare_eq_iff_eq] at hxy
      subst hxy
      rcases hyz : compare x z with _ | _ | _ <;> rw [hyz] at h2
      · rfl
      · have h1' : padLexCmp xs ys = .lt := h1
        have h2' : padLexCmp ys zs = .lt := h2
        exact padLexCmp_lt_trans xs ys zs h1' h2'
      · cases h2
    · cases h1

/-- Tokens with non-zero keys. -/
def TokNz (t : List Int × Nat) : Prop := ∀ i ∈ t.1, i ≠ 0

/-- Swap of the token comparison. -/
theorem padTok_swap (x y : List Int × Nat) : padTok y x = (padTok x y).swap := by
  rw [padTok, padTok, thenSwap, padLexCmp_swap, natCompareSwap]

/-- On non-zero tokens, the token comparison is `eq` exactly on equal
tokens. -/
theorem padTok_eq_iff {x y : List Int × Nat} (hx : TokNz x) (hy : TokNz y) :
    padTok x y = .eq ↔ x = y := by
  rw [padTok, thenEqEq, padLexCmp_eq_iff x.1 y.1 hx hy, compare_eq_iff_eq]
  constructor
  · rintro ⟨h1, h2⟩
    exact Prod.ext h1 h2
  · rintro rfl
    exact ⟨rfl, rfl⟩

/-- Transitivity of strict token comparison. -/
theorem padTok_lt_trans {x y z : List Int × Nat} (hx : TokNz x) (hy : TokNz y)
    (hz : TokNz z) (h1 : padTok x y = .lt) (h2 : padTok y z = .lt) :
    padTok x z = .lt := by
  rw [padTok] at h1 h2 ⊢
  rcases hab : padLexCmp x.1 y.1 with _ | _ | _ <;> rw [hab] at h1
  · rcases hbc : padLexCmp y.1 z.1 with _ | _ | _ <;> rw [hbc] at h2
    · rw [padLexCmp_lt_trans _ _ _ hab hbc]; rfl
    · have := (padLexCmp_eq_iff _ _ hy hz).mp hbc
      rw [← this, hab]; rfl
    · cases h2
  · have := (padLexCmp_eq_iff _ _ hx hy).mp hab
    rcases hbc : padLexCmp y.1 z.1 with _ | _ | _ <;> rw [hbc] at h2
    · rw [this, hbc]; rfl
    · have h2e := (padLexCmp_eq_iff _ _ hy hz).mp hbc
      rw [this, hbc]
      have ha : compare x.2 y.2 = .lt := h1
      have hb : compare y.2 z.2 = .lt := h2
      rw [compare_lt_iff_lt] at ha hb
      have : compare x.2 z.2 = .lt := by rw [compare_lt_iff_lt]; omega
      simpa [Ordering.then] using this
    · cases h2
  · cases h1

/-- Key lists with non-zero keys throughout. -/
def KeyNz (l : List (List Int × Nat)) : Prop := ∀ t ∈ l, TokNz t

/-- The uniform head/tail unfolding of `keyCmp`, padding a missing
head with the empty token. -/
theorem keyCmp_unfold : ∀ l m : List (List Int × Nat),
    keyCmp l m = (padTok (l.headD ([], 0)) (m.headD ([], 0))).then (keyCmp l.tail m.tail)
  | [], [] => by
    have h : compare (0 : Nat) (0 : Nat) = .eq := compare_eq_iff_eq.mpr rfl
    simp [keyCmp, padTok, padLexCmp, h, Ordering.then]
  | [], _ :: _ => by simp [keyCmp]
  | _ :: _, [] => by simp [keyCmp]
  | _ :: _, _ :: _ => by simp [keyCmp]

/-- The head of a non-zero key list (padded with the empty token) is a
non-zero token. -/
theorem KeyNz_headD {l : List (List Int × Nat)} (h : KeyNz l) :
    TokNz (l.headD ([], 0)) := by
  cases l with
  | nil => intro i hi; cases hi
  | cons x xs => exact h x (by simp)

/-- The tail of a non-zero key list is non-zero. -/
theorem KeyNz_tail {l : List (List Int × Nat)} (h : KeyNz l) : KeyNz l.tail := by
  cases l with
  | nil => exact h
  | cons x xs => intro t ht; exact h t (List.mem_cons_of_mem x (by simpa using ht))

/-- Swap of the key comparison. -/
theorem keyCmp_swap : ∀ l m : List (List Int × Nat), keyCmp m l = (keyCmp l m).swap
  | [], [] => by simp [keyCmp, Ordering.swap]
  | [], y :: ys => by
    simp only [keyCmp]
    rw [thenSwap, padTok_swap, keyCmp_swap [] ys]
  | x :: xs, [] => by
    simp only [keyCmp]
    rw [thenSwap, padTok_swap, keyCmp_swap xs []]
  | x :: xs, y :: ys => by
    simp only [keyCmp]
    rw [thenSwap, padTok_swap, keyCmp_swap xs ys]
termination_by l m => l.length + m.length

/-- Equal keys compare equally against any third key. -/
theorem keyCmp_eq_congr : ∀ (n : Nat) (xs ys zs : List (List Int × Nat)),
    xs.length + ys.length + zs.length ≤ n → KeyNz xs → KeyNz ys →
    keyCmp xs ys = .eq → keyCmp xs zs = keyCmp ys zs := by
  intro n
  induction n with
  | zero =>
    intro xs ys zs hn _ _ _
    have hx : xs = [] := by cases xs with | nil => rfl | cons _ _ => simp at hn
    have hy : ys = [] := by
      cases ys with
      | nil => rfl
      | cons _ _ => rw [hx] at hn; simp at hn
    rw [hx, hy]
  | succ n ih =>
    intro xs ys zs hn hxnz hynz heq
    by_cases hnil : xs = [] ∧ ys = []
    · rw [hnil.1, hnil.2]
    · rw [keyCmp_unfold xs ys] at heq
      obtain ⟨hhead, htail⟩ := thenEqEq.mp heq
      have hhe : xs.headD ([], 0) = ys.headD ([], 0) :=
        (padTok_eq_iff (KeyNz_headD hxnz) (KeyNz_headD hynz)).mp hhead
      rw [keyCmp_unfold xs zs, keyCmp_unfold ys zs, hhe]
      have hlen : xs.tail.length + ys.tail.length + zs.tail.length ≤ n := by
        have hx1 : xs.tail.length + 1 ≥ xs.length := by
          cases xs <;> simp
        have hy1 : ys.tail.length + 1 ≥ ys.length := by
          cases ys <;> simp
        have hz1 : zs.tail.length ≤ zs.length := by
          cases zs <;> simp
        have : xs.length + ys.length ≥ xs.tail.length + ys.tail.length + 1 := by
          rcases (not_and_or.mp hnil) with h | h
          · cases xs with
            | nil => exact absurd rfl h
            | cons _ t => simp; omega
          · cases ys with
            | nil => exact absurd rfl h
            | cons _ t =>
              cases xs <;> simp <;> omega
        omega
      rw [ih xs.tail ys.tail zs.tail hlen (KeyNz_tail hxnz) (KeyNz_tail hynz) htail]

/-- Transitivity of strict key comparison. -/
theorem keyCmp_lt_trans : ∀ (n : Nat) (xs ys zs : List (List Int × Nat)),
    xs.length + ys.length + zs.length ≤ n → KeyNz xs → KeyNz ys → KeyNz zs →
    keyCmp xs ys = .lt → keyCmp ys zs = .lt → keyCmp xs zs = .lt := by
  intro n
  induction n with
  | zero =>
    intro xs ys zs hn _ _ _ h1 _
    have hx : xs = [] := by cases xs with | nil => rfl | cons _ _ => simp at hn
    have hy : ys = [] := by
      cases ys with
      | nil => rfl
      | cons _ _ => rw [hx] at hn; simp at hn
    rw [hx, hy] at h1
    simp [keyCmp] at h1
  | succ n ih =>
    intro xs ys zs hn hxnz hynz hznz h1 h2
    by_cases hnil : xs = [] ∧ ys = []
    · rw [hnil.1, hnil.2] at h1; simp [keyCmp] at h1
    · rw [keyCmp_unfold xs ys] at h1
      rw [keyCmp_unfold ys zs] at h2
      rw [keyCmp_unfold xs zs]
      have hlen : xs.tail.length + ys.tail.length + zs.tail.length ≤ n := by
        have hz1 : zs.tail.length ≤ zs.length := by cases zs <;> simp
        have : xs.length + ys.length ≥ xs.tail.length + ys.tail.length + 1 := by
          rcases (not_and_or.mp hnil) with h | h
          · cases xs with
            | nil => exact absurd rfl h
            | cons _ t => simp; omega
          · cases ys with
            | nil => exact absurd rfl h
            | cons _ t =>
              cases xs <;> simp <;> omega
        omega
      rcases hab : padTok (xs.headD ([], 0)) (ys.headD ([], 0)) with _ | _ | _ <;>
        rw [hab] at h1
      · rcases hbc : padTok (ys.headD ([], 0)) (zs.headD ([], 0)) with _ | _ | _ <;>
          rw [hbc] at h2
        · rw [padTok_lt_trans (KeyNz_headD hxnz) (KeyNz_headD hynz)
            (KeyNz_headD hznz) hab hbc]
          rfl
        · have := (padTok_eq_iff (KeyNz_headD hynz) (KeyNz_headD hznz)).mp hbc
          rw [← this, hab]
          rfl
        · cases h2
      · have hhe := (padTok_eq_iff (KeyNz_headD hxnz) (KeyNz_headD hynz)).mp hab
        rcases hbc : padTok (ys.headD ([], 0)) (zs.headD ([], 0)) with _ | _ | _ <;>
          rw [hbc] at h2
        · rw [hhe, hbc]
          rfl
        · rw [hhe, hbc]
          have h1' : keyCmp xs.tail ys.tail = .lt := h1
          have h2' : keyCmp ys.tail zs.tail = .lt := h2
          have := ih xs.tail ys.tail zs.tail hlen (KeyNz_tail hxnz) (KeyNz_tail hynz)
            (KeyNz_tail hznz) h1' h2'
          simpa [Ordering.then] using this
        · cases h2
      · cases h1

/-- Alphabetic characters have code points between 65 and 122. -/
theorem isAlpha_bounds {c : Char} (h : c.isAlpha = true) :
    65 ≤ c.toNat ∧ c.toNat ≤ 122 := by
  rcases (by simpa [Char.isAlpha] using h : c.isUpper = true ∨ c.isLower = true) with hu | hl
  · simp [Char.isUpper] at hu
    exact ⟨hu.1, le_trans hu.2 (by norm_num)⟩
  · simp [Char.isLower] at hl
    exact ⟨le_trans (by norm_num) hl.1, hl.2⟩

/-- Character keys are never the end marker 0. -/
theorem charOrder_ne_zero (c : Char) : charOrder c ≠ 0 := by
  unfold charOrder
  by_cases h1 : c = '~'
  · simp [h1]
  · rw [if_neg h1]
    by_cases h2 : c.isAlpha
    · rw [if_pos h2]
      have := (isAlpha_bounds h2).1
      omega
    · rw [if_neg h2]
      omega

/-- The character-key function is injective. -/
theorem charOrder_inj {c d : Char} (h : charOrder c = charOrder d) : c = d := by
  have hchar : ∀ x y : Char, x.toNat = y.toNat → x = y := by
    intro x y hxy
    exact Char.ext (UInt32.ext hxy)
  unfold charOrder at h
  by_cases hc : c = '~' <;> by_cases hd : d = '~'
  · rw [hc, hd]
  · rw [if_pos hc, if_neg hd] at h
    by_cases hda : d.isAlpha
    · rw [if_pos hda] at h
      have := (isAlpha_bounds hda).1
      omega
    · rw [if_neg hda] at h
      omega
  · rw [if_neg hc, if_pos hd] at h
    by_cases hca : c.isAlpha
    · rw [if_pos hca] at h
      have := (isAlpha_bounds hca).1
      omega
    · rw [if_neg hca] at h
      omega
  · rw [if_neg hc, if_neg hd] at h
    by_cases hca : c.isAlpha <;> by_cases hda : d.isAlpha
    · rw [if_pos hca, if_pos hda] at h
      exact hchar c d (by omega)
    · rw [if_pos hca, if_neg hda] at h
      have := (isAlpha_bounds hca).2
      omega
    · rw [if_neg hca, if_pos hda] at h
      have := (isAlpha_bounds hda).2
      omega
    · rw [if_neg hca, if_neg hda] at h
      exact hchar c d (by omega)

/-- The head of a `dropWhile notDigit` remainder is a digit. -/
theorem dropWhile_notDigit_head : ∀ (l : List Char) (c : Char) (t : List Char),
    l.dropWhile notDigit = c :: t → c.isDigit = true
  | [], c, t => by intro h; cases h
  | x :: xs, c, t => by
    intro h
    by_cases hx : notDigit x
    · rw [List.dropWhile_cons_of_pos hx] at h
      exact dropWhile_notDigit_head xs c t h
    · rw [List.dropWhile_cons_of_neg hx] at h
      cases h
      simpa [notDigit] using hx

/-- The verdict of `alphaCmp` is the padded comparison of the leading
non-digit runs, and when that verdict is `eq` the remainders are the
`dropWhile` remainders of both sides. -/
theorem alphaCmp_spec : ∀ a b : List Char,
    (alphaCmp a b).1 =
      padLexCmp (alphaKey (a.takeWhile notDigit)) (alphaKey (b.takeWhile notDigit)) ∧
    ((alphaCmp a b).1 = .eq →
      (alphaCmp a b).2.1 = a.dropWhile notDigit ∧
      (alphaCmp a b).2.2 = b.dropWhile notDigit)
  | [], [] => by simp [alphaCmp, alphaKey, padLexCmp]
  | [], y :: ys => by
    by_cases hy : y.isDigit
    · have hny : notDigit y = false := by simp [notDigit, hy]
      rw [alphaCmp, if_pos hy, List.takeWhile_cons_of_neg (by simp [hny]),
        List.dropWhile_cons_of_neg (by simp [hny])]
      simp [alphaKey, padLexCmp]
    · have hny : notDigit y = true := by simp [notDigit, hy]
      rw [alphaCmp, if_neg hy, List.takeWhile_cons_of_pos (by simp [hny])]
      constructor
      · simp [alphaKey, padLexCmp]
      · intro he
        exfalso
        have : charOrder y = 0 := by
          have := compare_eq_iff_eq.mp he
          omega
        exact charOrder_ne_zero y this
  | x :: xs, [] => by
    by_cases hx : x.isDigit
    · have hnx : notDigit x = false := by simp [notDigit, hx]
      rw [alphaCmp, if_pos hx, List.takeWhile_cons_of_neg (by simp [hnx]),
        List.dropWhile_cons_of_neg (by simp [hnx])]
      simp [alphaKey, padLexCmp]
    · have hnx : notDigit x = true := by simp [notDigit, hx]
      rw [alphaCmp, if_neg hx, List.takeWhile_cons_of_pos (by simp [hnx])]
      constructor
      · simp [alphaKey, padLexCmp]
      · intro he
        exfalso
        have : charOrder x = 0 := by
          have := compare_eq_iff_eq.mp he
          omega
        exact charOrder_ne_zero x this
  | x :: xs, y :: ys => by
    by_cases hboth : x.isDigit && y.isDigit
    · rw [alphaCmp, if_pos hboth]
      obtain ⟨hx, hy⟩ : x.isDigit = true ∧ y.isDigit = true := by simpa using hboth
      rw [List.takeWhile_cons_of_neg (by simp [notDigit, hx]),
        List.takeWhile_cons_of_neg (by simp [notDigit, hy]),
        List.dropWhile_cons_of_neg (by simp [notDigit, hx]),
        List.dropWhile_cons_of_neg (by simp [notDigit, hy])]
      simp [alphaKey, padLexCmp]
    · by_cases hxy : x = y
      · subst hxy
        have hx : x.isDigit = false := by
          cases h : x.isDigit with
          | false => rfl
          | true => exact absurd (show (x.isDigit && x.isDigit) = true by rw [h]; rfl) hboth
        rw [alphaCmp, if_neg hboth, if_pos rfl,
          List.takeWhile_cons_of_pos (by simp [notDigit, hx]),
          List.takeWhile_cons_of_pos (by simp [notDigit, hx]),
          List.dropWhile_cons_of_pos (by simp [notDigit, hx]),
          List.dropWhile_cons_of_pos (by simp [notDigit, hx])]
        obtain ⟨ih1, ih2⟩ := alphaCmp_spec xs ys
        constructor
        · rw [ih1]
          simp only [alphaKey, List.map_cons, padLexCmp]
          rw [show compare (charOrder x) (charOrder x) = .eq from compare_eq_iff_eq.mpr rfl]
          rfl
        · exact ih2
      · rw [alphaCmp, if_neg hboth, if_neg hxy]
        by_cases hx : x.isDigit <;> by_cases hy : y.isDigit
        · exact absurd (show (x.isDigit && y.isDigit) = true by rw [hx, hy]; rfl) hboth
        · rw [List.takeWhile_cons_of_neg (by simp [notDigit, hx]),
            List.takeWhile_cons_of_pos (by simp [notDigit, hy]),
            if_pos hx, if_neg hy]
          constructor
          · simp [alphaKey, padLexCmp]
          · intro he
            exfalso
            have : charOrder y = 0 := by
              have := compare_eq_iff_eq.mp he
              omega
            exact charOrder_ne_zero y this
        · rw [List.takeWhile_cons_of_pos (by simp [notDigit, hx]),
            List.takeWhile_cons_of_neg (by simp [notDigit, hy]),
            if_neg hx, if_pos hy]
          constructor
          · simp [alphaKey, padLexCmp]
          · intro he
            exfalso
            have : charOrder x = 0 := by
              have := compare_eq_iff_eq.mp he
              omega
            exact charOrder_ne_zero x this
        · rw [List.takeWhile_cons_of_pos (by simp [notDigit, hx]),
            List.takeWhile_cons_of_pos (by simp [notDigit, hy]),
            if_neg hx, if_neg hy]
          constructor
          · simp only [alphaKey, List.map_cons, padLexCmp]
            rcases hc : compare (charOrder x) (charOrder y) with _ | _ | _
            · rfl
            · exfalso
              exact hxy (charOrder_inj (compare_eq_iff_eq.mp hc))
            · rfl
          · intro he
            exfalso
            have hc := compare_eq_iff_eq.mp he
            exact hxy (charOrder_inj hc)

/-- Unfolding of `vkey` on the empty list. -/
theorem vkey_nil : vkey [] = [] := by simp [vkey]

/-- The padded head of a canonical key is the head token. -/
theorem vkey_headD (l : List Char) : (vkey l).headD ([], 0) = tokOf l := by
  cases l with
  | nil =>
    rw [vkey_nil]
    rfl
  | cons c rest => simp [vkey]

/-- The tail of a canonical key is the key of the remainder. -/
theorem vkey_tail (l : List Char) : (vkey l).tail = vkey (restOf l) := by
  cases l with
  | nil =>
    rw [vkey_nil, show restOf [] = [] from rfl, vkey_nil]
    rfl
  | cons c rest => simp [vkey]

/-- `restOf` strictly shrinks a non-empty list. -/
theorem restOf_length_lt (c : Char) (rest : List Char) :
    (restOf (c :: rest)).length < (c :: rest).length := by
  simp only [restOf]
  by_cases hc : c.isDigit
  · rw [List.dropWhile_cons_of_neg (by simp [notDigit, hc])]
    calc (dropDigits (c :: rest)).length
        = (dropDigits rest).length := by
          rw [dropDigits, List.dropWhile_cons_of_pos (by simp [hc])]
          rfl
      _ ≤ rest.length := by
          rw [dropDigits]; exact (List.dropWhile_suffix _).length_le
      _ < (c :: rest).length := by simp
  · rw [List.dropWhile_cons_of_pos (by simp [notDigit, hc])]
    calc (dropDigits (rest.dropWhile notDigit)).length
        ≤ (rest.dropWhile notDigit).length := by
          rw [dropDigits]; exact (List.dropWhile_suffix _).length_le
      _ ≤ rest.length := (List.dropWhile_suffix _).length_le
      _ < (c :: rest).length := by simp

/-- Canonical keys carry no zero character keys. -/
theorem vkey_nz : ∀ (n : Nat) (l : List Char), l.length ≤ n → KeyNz (vkey l) := by
  intro n
  induction n with
  | zero =>
    intro l hl
    have : l = [] := by cases l with | nil => rfl | cons _ _ => simp at hl
    rw [this, vkey_nil]
    intro t ht
    cases ht
  | succ n ih =>
    intro l hl
    cases l with
    | nil =>
      rw [vkey_nil]; intro t ht; cases ht
    | cons c rest =>
      rw [show vkey (c :: rest) = tokOf (c :: rest) :: vkey (restOf (c :: rest)) from
        by simp [vkey]]
      intro t ht
      rcases List.mem_cons.mp ht with hh | hm
      · subst hh
        intro i hi
        simp only [tokOf, alphaKey] at hi
        obtain ⟨ch, _, hch⟩ := List.mem_map.mp hi
        rw [← hch]
        exact charOrder_ne_zero ch
      · have hlen : (restOf (c :: rest)).length ≤ n := by
          have h1 := restOf_length_lt c rest
          omega
        exact ih (restOf (c :: rest)) hlen t hm

/-- The segment comparison computes the lexicographic comparison of
canonical keys, for any adequate fuel. -/
theorem verrevcmp_keyCmp : ∀ (f : Nat) (a b : List Char), a.length + b.length < f →
    verrevcmp f a b = keyCmp (vkey a) (vkey b) := by
  intro f
  induction f with
  | zero => intro a b h; omega
  | succ f ih =>
    intro a b hf
    obtain ⟨ha1, ha2⟩ := alphaCmp_spec a b
    have hkey : keyCmp (vkey a) (vkey b) =
        (padTok (tokOf a) (tokOf b)).then
          (keyCmp (vkey (restOf a)) (vkey (restOf b))) := by
      rw [keyCmp_unfold, vkey_headD, vkey_headD, vkey_tail, vkey_tail]
    have hpt : padTok (tokOf a) (tokOf b) =
        (padLexCmp (alphaKey (a.takeWhile notDigit)) (alphaKey (b.takeWhile notDigit))).then
          (compare (digitsToNat (takeDigits (a.dropWhile notDigit)))
            (digitsToNat (takeDigits (b.dropWhile notDigit)))) := rfl
    rcases hac : alphaCmp a b with ⟨o, a', b'⟩
    rw [hac] at ha1 ha2
    simp only at ha1 ha2
    rw [verrevcmp, hac]
    cases o with
    | lt =>
      rw [hkey, hpt, ← ha1]
      rfl
    | gt =>
      rw [hkey, hpt, ← ha1]
      rfl
    | eq =>
      obtain ⟨he1, he2⟩ := ha2 rfl
      subst he1
      subst he2
      have hvr : (match (Ordering.eq, a.dropWhile notDigit, b.dropWhile notDigit) with
          | (.lt, _, _) => Ordering.lt
          | (.gt, _, _) => Ordering.gt
          | (.eq, a', b') =>
            if a'.isEmpty && b'.isEmpty then Ordering.eq
            else
              let da := digitsToNat (takeDigits a')
              let db := digitsToNat (takeDigits b')
              if da < db then Ordering.lt
              else if db < da then Ordering.gt
              else verrevcmp f (dropDigits a') (dropDigits b')) =
          (if ((a.dropWhile notDigit).isEmpty && (b.dropWhile notDigit).isEmpty) then
            Ordering.eq
          else
            if digitsToNat (takeDigits (a.dropWhile notDigit)) <
                digitsToNat (takeDigits (b.dropWhile notDigit)) then Ordering.lt
            else if digitsToNat (takeDigits (b.dropWhile notDigit)) <
                digitsToNat (takeDigits (a.dropWhile notDigit)) then Ordering.gt
            else verrevcmp f (dropDigits (a.dropWhile notDigit))
              (dropDigits (b.dropWhile notDigit))) := rfl
      rw [hvr, hkey, hpt, ← ha1]
      by_cases hemp : (a.dropWhile notDigit).isEmpty && (b.dropWhile notDigit).isEmpty
      · rw [if_pos hemp]
        obtain ⟨hea, heb⟩ : a.dropWhile notDigit = [] ∧ b.dropWhile notDigit = [] := by
          have h1 : (a.dropWhile notDigit).isEmpty = true ∧
              (b.dropWhile notDigit).isEmpty = true := by simpa using hemp
          exact ⟨List.isEmpty_iff.mp h1.1, List.isEmpty_iff.mp h1.2⟩
        rw [show restOf a = [] from by simp [restOf, hea, dropDigits]]
        rw [show restOf b = [] from by simp [restOf, heb, dropDigits]]
        rw [vkey_nil, hea, heb]
        have hc0 : compare (0 : Nat) 0 = .eq := compare_eq_iff_eq.mpr rfl
        simp [takeDigits, digitsToNat, hc0, keyCmp, Ordering.then]
      · rw [if_neg hemp]
        by_cases hlt : digitsToNat (takeDigits (a.dropWhile notDigit)) <
            digitsToNat (takeDigits (b.dropWhile notDigit))
        · rw [if_pos hlt, show compare (digitsToNat (takeDigits (a.dropWhile notDigit)))
              (digitsToNat (takeDigits (b.dropWhile notDigit))) = .lt from
            compare_lt_iff_lt.mpr hlt]
          rfl
        · rw [if_neg hlt]
          by_cases hgt : digitsToNat (takeDigits (b.dropWhile notDigit)) <
              digitsToNat (takeDigits (a.dropWhile notDigit))
          · rw [if_pos hgt, show compare (digitsToNat (takeDigits (a.dropWhile notDigit)))
                (digitsToNat (takeDigits (b.dropWhile notDigit))) = .gt from
              compare_gt_iff_gt.mpr hgt]
            rfl
          · rw [if_neg hgt]
            have heqn : digitsToNat (takeDigits (a.dropWhile notDigit)) =
                digitsToNat (takeDigits (b.dropWhile notDigit)) := by omega
            rw [show compare (digitsToNat (takeDigits (a.dropWhile notDigit)))
                (digitsToNat (takeDigits (b.dropWhile notDigit))) = .eq from
              compare_eq_iff_eq.mpr heqn]
            have hlen : (dropDigits (a.dropWhile notDigit)).length +
                (dropDigits (b.dropWhile notDigit)).length < f := by
              have hsub1 : (a.dropWhile notDigit).length ≤ a.length :=
                (List.dropWhile_suffix _).length_le
              have hsub2 : (b.dropWhile notDigit).length ≤ b.length :=
                (List.dropWhile_suffix _).length_le
              have hdd1 : (dropDigits (a.dropWhile notDigit)).length ≤
                  (a.dropWhile notDigit).length := by
                rw [dropDigits]; exact (List.dropWhile_suffix _).length_le
              have hdd2 : (dropDigits (b.dropWhile notDigit)).length ≤
                  (b.dropWhile notDigit).length := by
                rw [dropDigits]; exact (List.dropWhile_suffix _).length_le
              have hone : (dropDigits (a.dropWhile notDigit)).length <
                    (a.dropWhile notDigit).length ∨
                  (dropDigits (b.dropWhile notDigit)).length <
                    (b.dropWhile notDigit).length := by
                rcases hca : a.dropWhile notDigit with _ | ⟨ch, ct⟩
                · rcases hcb : b.dropWhile notDigit with _ | ⟨dh, dt⟩
                  · exact absurd (show ((a.dropWhile notDigit).isEmpty &&
                      (b.dropWhile notDigit).isEmpty) = true from
                        by rw [hca, hcb]; rfl) hemp
                  · right
                    have hd := dropWhile_notDigit_head b dh dt hcb
                    rw [dropDigits, List.dropWhile_cons_of_pos (by simp [hd])]
                    calc (dt.dropWhile Char.isDigit).length ≤ dt.length :=
                        (List.dropWhile_suffix _).length_le
                      _ < (dh :: dt).length := by simp
                · left
                  have hd := dropWhile_notDigit_head a ch ct hca
                  rw [dropDigits, List.dropWhile_cons_of_pos (by simp [hd])]
                  calc (ct.dropWhile Char.isDigit).length ≤ ct.length :=
                      (List.dropWhile_suffix _).length_le
                    _ < (ch :: ct).length := by simp
              omega
            have hrest := ih (dropDigits (a.dropWhile notDigit))
              (dropDigits (b.dropWhile notDigit)) hlen
            rw [show restOf a = dropDigits (a.dropWhile notDigit) from rfl,
              show restOf b = dropDigits (b.dropWhile notDigit) from rfl,
              ← hrest]
            rfl

/-! ## Order theory of `Version.Compare`

The canonical-key bridge turns the fuelled segment comparison into
`keyCmp` over `vkey`, from which symmetry, congruence and transitivity
of the version order follow. -/

/-- Every canonical key is non-zero throughout. -/
theorem vkey_keyNz (l : List Char) : KeyNz (vkey l) := vkey_nz l.length l le_rfl

/-- `Ordering.then` is `lt` exactly when the first part is, or ties
while the second is. -/
theorem thenLtIff {o p : Ordering} : o.then p = .lt ↔ o = .lt ∨ (o = .eq ∧ p = .lt) := by
  cases o <;> simp [Ordering.then]

/-- `Version.Compare` in canonical-key form: epochs, then the upstream
keys, then the revision keys. -/
theorem versionCompareCanon (a b : Version) :
    Version.Compare a b =
      (compare a.epoch b.epoch).then
        ((keyCmp (vkey a.upstream.toList) (vkey b.upstream.toList)).then
          (keyCmp (vkey a.revision.toList) (vkey b.revision.toList))) := by
  have h1 := verrevcmp_keyCmp (a.upstream.toList.length + b.upstream.toList.length + 1)
      a.upstream.toList b.upstream.toList (by omega)
  have h2 := verrevcmp_keyCmp (a.revision.toList.length + b.revision.toList.length + 1)
      a.revision.toList b.revision.toList (by omega)
  simp only [Version.Compare]
  rw [h1, h2]
  cases compare a.epoch b.epoch with
  | lt => rfl
  | gt => rfl
  | eq =>
    cases keyCmp (vkey a.upstream.toList) (vkey b.upstream.toList) with
    | lt => rfl
    | gt => rfl
    | eq => rfl

/-- Swapping the arguments swaps the version comparison. -/
theorem versionCompareSwap (a b : Version) :
    Version.Compare b a = (Version.Compare a b).swap := by
  rw [versionCompareCanon, versionCompareCanon, thenSwap, thenSwap,
    ← natCompareSwap, ← keyCmp_swap, ← keyCmp_swap]

/-- The version comparison is `eq` exactly when all three canonical
layers are. -/
theorem versionCompareEqIff {a b : Version} :
    Version.Compare a b = .eq ↔
      compare a.epoch b.epoch = .eq ∧
      keyCmp (vkey a.upstream.toList) (vkey b.upstream.toList) = .eq ∧
      keyCmp (vkey a.revision.toList) (vkey b.revision.toList) = .eq := by
  rw [versionCompareCanon, thenEqEq, thenEqEq]

/-- Left congruence of the key comparison, bound instantiated. -/
theorem keyCmp_congr_left {xs ys : List (List Int × Nat)} (zs : List (List Int × Nat))
    (hxs : KeyNz xs) (hys : KeyNz ys) (h : keyCmp xs ys = .eq) :
    keyCmp xs zs = keyCmp ys zs :=
  keyCmp_eq_congr (xs.length + ys.length + zs.length) xs ys zs le_rfl hxs hys h

/-- Right congruence of the key comparison, from left congruence and
swap. -/
theorem keyCmp_congr_right (xs : List (List Int × Nat)) {ys zs : List (List Int × Nat)}
    (hys : KeyNz ys) (hzs : KeyNz zs) (h : keyCmp ys zs = .eq) :
    keyCmp xs ys = keyCmp xs zs := by
  have h' : keyCmp zs ys = .eq := by rw [keyCmp_swap ys zs, h]; rfl
  have hc := keyCmp_eq_congr (zs.length + ys.length + xs.length) zs ys xs le_rfl hzs hys h'
  calc keyCmp xs ys = (keyCmp ys xs).swap := keyCmp_swap ys xs
    _ = (keyCmp zs xs).swap := by rw [← hc]
    _ = keyCmp xs zs := (keyCmp_swap zs xs).symm

/-- Transitivity of strict key comparison, bound instantiated. -/
theorem keyCmp_lt_trans3 {xs ys zs : List (List Int × Nat)} (hxs : KeyNz xs)
    (hys : KeyNz ys) (hzs : KeyNz zs) (h1 : keyCmp xs ys = .lt)
    (h2 : keyCmp ys zs = .lt) : keyCmp xs zs = .lt :=
  keyCmp_lt_trans (xs.length + ys.length + zs.length) xs ys zs le_rfl hxs hys hzs h1 h2

/-- Versions comparing equal compare equally against any third
version (left congruence). -/
theorem versionCompareEqCongrLeft {a b : Version} (c : Version)
    (h : Version.Compare a b = .eq) : Version.Compare a c = Version.Compare b c := by
  obtain ⟨he, hu, hr⟩ := versionCompareEqIff.mp h
  rw [versionCompareCanon, versionCompareCanon, compare_eq_iff_eq.mp he,
    keyCmp_congr_left (vkey c.upstream.toList) (vkey_keyNz _) (vkey_keyNz _) hu,
    keyCmp_congr_left (vkey c.revision.toList) (vkey_keyNz _) (vkey_keyNz _) hr]

/-- Versions comparing equal compare equally against any third
version (right congruence). -/
theorem versionCompareEqCongrRight (a : Version) {b c : Version}
    (h : Version.Compare b c = .eq) : Version.Compare a b = Version.Compare a c := by
  obtain ⟨he, hu, hr⟩ := versionCompareEqIff.mp h
  rw [versionCompareCanon, versionCompareCanon, compare_eq_iff_eq.mp he,
    keyCmp_congr_right (vkey a.upstream.toList) (vkey_keyNz _) (vkey_keyNz _) hu,
    keyCmp_congr_right (vkey a.revision.toList) (vkey_keyNz _) (vkey_keyNz _) hr]

/-- Transitivity of the strict version order. -/
theorem versionCompareLtTrans {a b c : Version} (hab : Version.Compare a b = .lt)
    (hbc : Version.Compare b c = .lt) : Version.Compare a c = .lt := by
  rw [versionCompareCanon] at hab hbc
  rw [versionCompareCanon]
  rw [thenLtIff] at hab hbc
  rw [thenLtIff]
  rcases hab with hab | ⟨heab, hab⟩
  · rcases hbc with hbc | ⟨hebc, hbc⟩
    · exact Or.inl (compare_lt_iff_lt.mpr
        (lt_trans (compare_lt_iff_lt.mp hab) (compare_lt_iff_lt.mp hbc)))
    · exact Or.inl (by rw [← compare_eq_iff_eq.mp hebc]; exact hab)
  · rcases hbc with hbc | ⟨hebc, hbc⟩
    · exact Or.inl (by rw [compare_eq_iff_eq.mp heab]; exact hbc)
    · refine Or.inr ⟨by rw [compare_eq_iff_eq.mp heab]; exact hebc, ?_⟩
      rw [thenLtIff] at hab hbc ⊢
      rcases hab with hab | ⟨huab, hab⟩
      · rcases hbc with hbc | ⟨hubc, hbc⟩
        · exact Or.inl (keyCmp_lt_trans3 (vkey_keyNz _) (vkey_keyNz _) (vkey_keyNz _) hab hbc)
        · exact Or.inl (by
            rw [← keyCmp_congr_right (vkey a.upstream.toList) (vkey_keyNz _) (vkey_keyNz _) hubc]
            exact hab)
      · rcases hbc with hbc | ⟨hubc, hbc⟩
        · exact Or.inl (by
            rw [keyCmp_congr_left (vkey c.upstream.toList) (vkey_keyNz _) (vkey_keyNz _) huab]
            exact hbc)
        · refine Or.inr ⟨?_, ?_⟩
          · rw [keyCmp_congr_left (vkey c.upstream.toList) (vkey_keyNz _) (vkey_keyNz _) huab]
            exact hubc
          · exact keyCmp_lt_trans3 (vkey_keyNz _) (vkey_keyNz _) (vkey_keyNz _) hab hbc

/-- `gt` is the swapped strict order. -/
theorem versionCompareGtIff {a b : Version} :
    Version.Compare a b = .gt ↔ Version.Compare b a = .lt := by
  constructor
  · intro h
    rw [versionCompareSwap, h]
    rfl
  · intro h
    have h2 := versionCompareSwap a b
    rw [h] at h2
    have h3 := congrArg Ordering.swap h2
    rw [Ordering.swap_swap] at h3
    exact h3.symm

/-- Transitivity of the reverse strict version order. -/
theorem versionCompareGtTrans {a b c : Version} (hab : Version.Compare a b = .gt)
    (hbc : Version.Compare b c = .gt) : Version.Compare a c = .gt :=
  versionCompareGtIff.mpr
    (versionCompareLtTrans (versionCompareGtIff.mp hbc) (versionCompareGtIff.mp hab))

/-- The padded run comparison is reflexive. -/
theorem padLexCmpRefl : ∀ xs : List Int, padLexCmp xs xs = .eq
  | [] => rfl
  | x :: xs => by
    simp only [padLexCmp]
    rw [show compare x x = Ordering.eq from compare_eq_iff_eq.mpr rfl, padLexCmpRefl xs]
    rfl

/-- The token comparison is reflexive. -/
theorem padTokRefl (x : List Int × Nat) : padTok x x = .eq := by
  rw [padTok, padLexCmpRefl,
    show compare x.2 x.2 = Ordering.eq from compare_eq_iff_eq.mpr rfl]
  rfl

/-- The key comparison is reflexive. -/
theorem keyCmpRefl : ∀ l : List (List Int × Nat), keyCmp l l = .eq
  | [] => by simp [keyCmp]
  | x :: xs => by
    rw [keyCmp_unfold]
    simp only [List.headD_cons, List.tail_cons]
    rw [padTokRefl, keyCmpRefl xs]
    rfl
termination_by l => l.length

/-- The version comparison is reflexive. -/
theorem versionCompareRefl (v : Version) : Version.Compare v v = .eq := by
  rw [versionCompareCanon, show compare v.epoch v.epoch = Ordering.eq from
    compare_eq_iff_eq.mpr rfl, keyCmpRefl, keyCmpRefl]
  rfl

/-- The architecture match predicate is reflexive. -/
theorem archIsRefl (a : Arch) : a.Is a = true := by
  simp [Arch.Is, archComponentMatch]

/-- The package comparison is reflexive. -/
theorem packageCompareRefl (p : Package) : p.Compare p = .eq := by
  rw [Package.Compare, show compare p.package p.package = Ordering.eq from
    compare_eq_iff_eq.mpr rfl, versionCompareRefl, archIsRefl]
  rfl

/-! ## Claim C5 — version comparison -/

/-- C5: version comparison implements the Debian order: epochs are
compared numerically first (a non-equal epoch comparison is the overall
result), `~` sorts before the empty string, digit runs compare
numerically with leading zeros ignored, and the four fixture
comparisons of the spec hold: `1.0 < 1.0-1`, `1.0~rc1 < 1.0`,
`2:1.0 > 1:999`, `1.0.0 > 1.0`. -/
theorem C5_version_compare_debian :
    (∀ a b : Version, compare a.epoch b.epoch ≠ .eq →
      a.Compare b = compare a.epoch b.epoch) ∧
    vcmp "1.0" "1.0-1" = some .lt ∧
    vcmp "1.0~rc1" "1.0" = some .lt ∧
    vcmp "2:1.0" "1:999" = some .gt ∧
    vcmp "1.0.0" "1.0" = some .gt ∧
    vcmp "1.01" "1.1" = some .eq := by
  refine ⟨?_, by decide, by decide, by decide, by decide, by decide⟩
  intro a b h
  unfold Version.Compare
  cases hc : compare a.epoch b.epoch <;> simp_all

/-- Witness for C5 at a concrete input with unequal epochs. -/
theorem C5_witness :
    compare (Version.mk 2 "1.0" "").epoch (Version.mk 1 "999" "").epoch ≠ .eq ∧
    (Version.mk 2 "1.0" "").Compare (Version.mk 1 "999" "") =
      compare (Version.mk 2 "1.0" "").epoch (Version.mk 1 "999" "").epoch :=
  ⟨by decide, C5_version_compare_debian.1 (Version.mk 2 "1.0" "") (Version.mk 1 "999" "")
    (by decide)⟩

/-! ## Claim C8 — decompressor sniffing -/

/-- C8 counterexample: the claim promises a passthrough reader for
every stream without a gzip or xz magic, but a stream of fewer than
eight bytes (here `"abc"`) makes the eight-byte peek fail and
`Decompress` returns an error instead of a passthrough reader. -/
theorem C8_counterexample :
    ([0x61, 0x62, 0x63] : List Nat).take 2 ≠ gzipMagic ∧
    ([0x61, 0x62, 0x63] : List Nat).take 6 ≠ xzMagic ∧
    Decompress decompressEnvOk [0x61, 0x62, 0x63] ≠
      .ok (.plain [0x61, 0x62, 0x63]) ∧
    Decompress decompressEnvOk [0x61, 0x62, 0x63] = .error "short read" := by
  decide

/-- C8 (amended): for every input stream of at least eight bytes,
`Decompress` returns the gzip reader construction when the stream
begins with `1F 8B`, the xz reader construction when it begins with
`FD 37 7A 58 5A 00`, and otherwise a reader passing the stream through
unchanged; a stream of fewer than eight bytes yields an error. -/
theorem C8_decompress_sniffing (env : DecompressEnv) (stream : List Nat)
    (h : 8 ≤ stream.length) :
    (stream.take 2 = gzipMagic →
      Decompress env stream =
        match env.gzipNewError stream with
        | none => .ok (.gzip stream)
        | some e => .error e) ∧
    (stream.take 2 ≠ gzipMagic → stream.take 6 = xzMagic →
      Decompress env stream =
        match env.xzNewError stream with
        | none => .ok (.xz stream)
        | some e => .error e) ∧
    (stream.take 2 ≠ gzipMagic → stream.take 6 ≠ xzMagic →
      Decompress env stream = .ok (.plain stream)) ∧
    (∀ s : List Nat, s.length < 8 → ∃ e, Decompress env s = .error e) := by
  have hlt : ¬stream.length < 8 := Nat.not_lt.mpr h
  refine ⟨?_, ?_, ?_, ?_⟩
  · intro hg
    simp [Decompress, hlt, hg]
  · intro hg hx
    simp [Decompress, hlt, hg, hx]
  · intro hg hx
    simp [Decompress, hlt, hg, hx]
  · intro s hs
    exact ⟨"short read", by simp [Decompress, hs]⟩

/-- Witness for C8 on a concrete eight-byte stream without either
magic. -/
theorem C8_witness :
    8 ≤ ([1, 2, 3, 4, 5, 6, 7, 8] : List Nat).length ∧
    ([1, 2, 3, 4, 5, 6, 7, 8] : List Nat).take 2 ≠ gzipMagic ∧
    ([1, 2, 3, 4, 5, 6, 7, 8] : List Nat).take 6 ≠ xzMagic ∧
    Decompress decompressEnvOk [1, 2, 3, 4, 5, 6, 7, 8] =
      .ok (.plain [1, 2, 3, 4, 5, 6, 7, 8]) :=
  ⟨by decide, by decide, by decide,
    (C8_decompress_sniffing decompressEnvOk [1, 2, 3, 4, 5, 6, 7, 8] (by decide)).2.2.1
      (by decide) (by decide)⟩

/-! ## Claim C7 — Component.Packages candidate protocol -/

/-- C7: `Component.Packages` tries `Packages.xz`, `Packages.gz`,
`Packages` in that order; a failing candidate is recorded and the next
tried; the first succeeding candidate yields the returned list with
each package's urls extended by `<sourceURL>/<Filename>`; when all
three fail the error aggregates every attempt's cause in order. -/
theorem C7_packages_protocol (env : String → FetchResult) (sourceURLPath : String) :
    (∀ l, tryCandidate env "Packages.xz" = .ok l →
      ComponentPackages env sourceURLPath =
        .ok (l.map (fun p => p.addUrl (joinPath [sourceURLPath, p.filename])))) ∧
    (∀ c1 l, tryCandidate env "Packages.xz" = .error c1 →
      tryCandidate env "Packages.gz" = .ok l →
      ComponentPackages env sourceURLPath =
        .ok (l.map (fun p => p.addUrl (joinPath [sourceURLPath, p.filename])))) ∧
    (∀ c1 c2 l, tryCandidate env "Packages.xz" = .error c1 →
      tryCandidate env "Packages.gz" = .error c2 →
      tryCandidate env "Packages" = .ok l →
      ComponentPackages env sourceURLPath =
        .ok (l.map (fun p => p.addUrl (joinPath [sourceURLPath, p.filename])))) ∧
    (∀ c1 c2 c3, tryCandidate env "Packages.xz" = .error c1 →
      tryCandidate env "Packages.gz" = .error c2 →
      tryCandidate env "Packages" = .error c3 →
      ComponentPackages env sourceURLPath =
        .error [("Packages.xz", c1), ("Packages.gz", c2), ("Packages", c3)]) := by
  refine ⟨?_, ?_, ?_, ?_⟩
  · intro l h1
    simp [ComponentPackages, packagesCandidates, packagesLoop, h1]
  · intro c1 l h1 h2
    simp [ComponentPackages, packagesCandidates, packagesLoop, h1, h2]
  · intro c1 c2 l h1 h2 h3
    simp [ComponentPackages, packagesCandidates, packagesLoop, h1, h2, h3]
  · intro c1 c2 c3 h1 h2 h3
    simp [ComponentPackages, packagesCandidates, packagesLoop, h1, h2, h3]

/-- Witness for C7: the xz candidate 404s, the gz candidate succeeds
with one package whose url gets populated. -/
theorem C7_witness :
    tryCandidate exFetchEnv "Packages.xz" = .error (.badStatus 404) ∧
    tryCandidate exFetchEnv "Packages.gz" = .ok [plainPkg "p" ⟨0, "1", ""⟩] ∧
    ComponentPackages exFetchEnv "/debian" =
      .ok [(plainPkg "p" ⟨0, "1", ""⟩).addUrl "/debian"] :=
  ⟨by decide, by decide,
    (C7_packages_protocol exFetchEnv "/debian").2.1 (.badStatus 404)
      [plainPkg "p" ⟨0, "1", ""⟩] (by decide) (by decide)⟩

/-! ## Claim C4 — resolveVirtualPackage -/

/-- C4: `resolveVirtualPackage` fails when no provider of the virtual
entry is exactly present in the pool; returns the sole present provider
when exactly one is; and with two or more present providers prefers one
already in the candidate set, then one with priority `required`, and
otherwise fails with the ambiguous-virtual error. -/
theorem C4_resolve_virtual (packageDB candidateDB : PackageDB) (virtualPkg : Package) :
    ((∀ provider ∈ virtualPkg.providers,
        packageDB.ExactlyEqual provider.package provider.ver = none) →
      resolveVirtualPackage packageDB candidateDB virtualPkg =
        .error (.virtualUnsatisfiable virtualPkg.package)) ∧
    (∀ p, virtualProviders packageDB virtualPkg = [p] →
      resolveVirtualPackage packageDB candidateDB virtualPkg = .ok p) ∧
    (2 ≤ (virtualProviders packageDB virtualPkg).length →
      ((∃ p ∈ virtualProviders packageDB virtualPkg,
          (candidateDB.ExactlyEqual p.package p.ver).isSome) →
        ∃ p, resolveVirtualPackage packageDB candidateDB virtualPkg = .ok p ∧
          p ∈ virtualProviders packageDB virtualPkg ∧
          (candidateDB.ExactlyEqual p.package p.ver).isSome) ∧
      ((∀ p ∈ virtualProviders packageDB virtualPkg,
          (candidateDB.ExactlyEqual p.package p.ver).isSome = false) →
        ((∃ p ∈ virtualProviders packageDB virtualPkg, p.priority = "required") →
          ∃ p, resolveVirtualPackage packageDB candidateDB virtualPkg = .ok p ∧
            p ∈ virtualProviders packageDB virtualPkg ∧ p.priority = "required") ∧
        ((∀ p ∈ virtualProviders packageDB virtualPkg, p.priority ≠ "required") →
          resolveVirtualPackage packageDB candidateDB virtualPkg =
            .error (.ambiguousVirtual virtualPkg.package)))) := by
  refine ⟨?_, ?_, ?_⟩
  · intro hnone
    have hvp : virtualProviders packageDB virtualPkg = [] := by
      simp only [virtualProviders, List.filterMap_eq_nil_iff]
      exact hnone
    simp [resolveVirtualPackage, hvp]
  · intro p hvp
    simp [resolveVirtualPackage, hvp]
  · intro hlen
    constructor
    · intro ⟨p, hp, hcand⟩
      rcases hvp : virtualProviders packageDB virtualPkg with _ | ⟨q, _ | ⟨q', rest⟩⟩
      · simp [hvp] at hp
      · rw [hvp] at hlen; simp at hlen
      · have hfind : ((q :: q' :: rest).find?
            (fun pkg => (candidateDB.ExactlyEqual pkg.package pkg.ver).isSome)).isSome := by
          apply List.find?_isSome.mpr
          exact ⟨p, by rw [← hvp]; exact hp, hcand⟩
        rcases hfs : (q :: q' :: rest).find?
            (fun pkg => (candidateDB.ExactlyEqual pkg.package pkg.ver).isSome) with _ | w
        · rw [hfs] at hfind; simp at hfind
        · have hmem : w ∈ q :: q' :: rest := List.mem_of_find?_eq_some hfs
          have hprop : (candidateDB.ExactlyEqual w.package w.ver).isSome = true := by
            simpa using List.find?_some hfs
          exact ⟨w, by simp [resolveVirtualPackage, hvp, hfs], hmem, hprop⟩
    · intro hnocand
      have hfn : (virtualProviders packageDB virtualPkg).find?
          (fun pkg => (candidateDB.ExactlyEqual pkg.package pkg.ver).isSome) = none := by
        apply List.find?_eq_none.mpr
        intro x hx
        simp [hnocand x hx]
      constructor
      · intro ⟨p, hp, hreq⟩
        rcases hvp : virtualProviders packageDB virtualPkg with _ | ⟨q, _ | ⟨q', rest⟩⟩
        · simp [hvp] at hp
        · rw [hvp] at hlen; simp at hlen
        · have hfind : ((q :: q' :: rest).find?
              (fun pkg => pkg.priority == "required")).isSome := by
            apply List.find?_isSome.mpr
            refine ⟨p, by rw [← hvp]; exact hp, by simp [hreq]⟩
          rcases hfs : (q :: q' :: rest).find? (fun pkg => pkg.priority == "required")
              with _ | w
          · rw [hfs] at hfind; simp at hfind
          · have hmem : w ∈ q :: q' :: rest := List.mem_of_find?_eq_some hfs
            have hprop : w.priority = "required" := by
              have := List.find?_some hfs
              simpa using this
            refine ⟨w, ?_, hmem, hprop⟩
            rw [hvp] at hfn
            simp [resolveVirtualPackage, hvp, hfn, hfs]
      · intro hnoreq
        have hfr : (virtualProviders packageDB virtualPkg).find?
            (fun pkg => pkg.priority == "required") = none := by
          apply List.find?_eq_none.mpr
          intro x hx
          simp [hnoreq x hx]
        rcases hvp : virtualProviders packageDB virtualPkg with _ | ⟨q, _ | ⟨q', rest⟩⟩
        · rw [hvp] at hlen; simp at hlen
        · rw [hvp] at hlen; simp at hlen
        · rw [hvp] at hfn hfr
          simp [resolveVirtualPackage, hvp, hfn, hfr]

/-- Witness for C4: a virtual entry with a sole present provider is
resolved to it. -/
theorem C4_witness :
    virtualProviders exPool (Package.mk "virt" Version.zero Arch.zero "" ""
      Dependency.empty Dependency.empty Dependency.empty [] true [exLib]) = [exLib] ∧
    resolveVirtualPackage exPool NewPackageDB
      (Package.mk "virt" Version.zero Arch.zero "" "" Dependency.empty Dependency.empty
        Dependency.empty [] true [exLib]) = .ok exLib :=
  ⟨by decide,
    (C4_resolve_virtual exPool NewPackageDB
      (Package.mk "virt" Version.zero Arch.zero "" "" Dependency.empty Dependency.empty
        Dependency.empty [] true [exLib])).2.1 exLib (by decide)⟩

/-! ## Claim C6 — Source.Components enumeration -/

/-- For an architecture without wildcard components, matching the
literal `all` pair is the same as equalling it. -/
theorem archIs_all_eq_beq (a : Arch) (h1 : a.os ≠ "any") (h2 : a.cpu ≠ "any") :
    a.Is ⟨"all", "all"⟩ = (a == (⟨"all", "all"⟩ : Arch)) := by
  cases a with
  | mk os cpu =>
    rw [Bool.eq_iff_iff]
    simp only [Arch.Is, archComponentMatch, Bool.and_eq_true, Bool.or_eq_true, beq_iff_eq]
    constructor
    · rintro ⟨hos, hcpu⟩
      have hos' : os = "all" := by
        rcases hos with (h | h) | h
        · exact h
        · exact absurd h h1
        · exact absurd h (by decide)
      have hcpu' : cpu = "all" := by
        rcases hcpu with (h | h) | h
        · exact h
        · exact absurd h h2
        · exact absurd h (by decide)
      rw [hos', hcpu']
    · intro h
      have hos : os = "all" := congrArg Arch.os h
      have hcpu : cpu = "all" := congrArg Arch.cpu h
      exact ⟨Or.inl (Or.inl hos), Or.inl (Or.inl hcpu)⟩

/-- Under a wildcard-free release, the architecture filter of
`Source.Components` coincides with the claim's set: architectures
matching the target or equal to `all`. -/
theorem sourceArchFilter_eq_specArchs (release : Release) (targetArch : Arch)
    (hw : ∀ a ∈ release.architectures, a.os ≠ "any" ∧ a.cpu ≠ "any") :
    release.architectures.filter
        (fun a => a.Is (Arch.Parse "all") || a.Is targetArch) =
      specArchs release targetArch := by
  unfold specArchs
  apply List.filter_congr
  intro a ha
  obtain ⟨h1, h2⟩ := hw a ha
  have hall : Arch.Parse "all" = ⟨"all", "all"⟩ := rfl
  rw [hall, archIs_all_eq_beq a h1 h2, Bool.or_comm]

/-- The component filter of `Source.Components` coincides with the
claim's set: components in the configured set united with the default
`[main]`. -/
theorem sourceCompFilter_eq_specComps (release : Release) (confComponents : List String) :
    release.components.filter
        (fun c => (defaultComponents ++ confComponents).contains c) =
      specComps release confComponents := by
  unfold specComps
  apply List.filter_congr
  intro c _
  rw [Bool.eq_iff_iff]
  simp only [List.elem_iff, List.mem_append]
  exact Or.comm

/-- C6: for every wildcard-free release with at least one matching
architecture and component, `Source.Components` emits exactly one
component per (component, architecture) pair, components ranging over
the release components inside configured ∪ [main] and architectures
over the release architectures matching the target or equal to `all`;
each emitted component carries the stated base URL and the SHA-256
table restricted to its subtree. -/
theorem C6_source_components (sourceURLPath distribution : String)
    (confComponents : List String) (release : Release) (sums : List (String × String))
    (targetArch : Arch)
    (hw : ∀ a ∈ release.architectures, a.os ≠ "any" ∧ a.cpu ≠ "any")
    (ha : specArchs release targetArch ≠ [])
    (hc : specComps release confComponents ≠ []) :
    (SourceComponents sourceURLPath distribution confComponents release sums
        targetArch).map (fun c => (c.name, c.arch)) =
      (specComps release confComponents).flatMap
        (fun comp => (specArchs release targetArch).map (fun a => (comp, a))) ∧
    ∀ c ∈ SourceComponents sourceURLPath distribution confComponents release sums
        targetArch,
      c.urlPath = joinPath [sourceURLPath, "dists", distribution, c.name,
          "binary-" ++ c.arch.toString] ∧
      c.sha256Sums =
        (sums.filter (fun kv => kv.1.startsWith
            (joinPath [pathBase c.name, "binary-" ++ c.arch.toString]))).map
          (fun kv => (trimPre
            (joinPath [pathBase c.name, "binary-" ++ c.arch.toString] ++ "/") kv.1,
            kv.2)) := by
  have harch := sourceArchFilter_eq_specArchs release targetArch hw
  have hcomp := sourceCompFilter_eq_specComps release confComponents
  have hsc : SourceComponents sourceURLPath distribution confComponents release sums
      targetArch = (specComps release confComponents).flatMap (fun component =>
        (specArchs release targetArch).map
          (mkComponent sourceURLPath distribution sums component)) := by
    unfold SourceComponents
    have ha' : (specArchs release targetArch).isEmpty = false := by
      simpa [List.isEmpty_iff] using ha
    have hc' : (specComps release confComponents).isEmpty = false := by
      simpa [List.isEmpty_iff] using hc
    simp only [harch, hcomp, ha', hc', Bool.false_eq_true, if_false]
  constructor
  · rw [hsc, List.map_flatMap]
    simp only [List.map_map]
    rfl
  · intro c hcmem
    rw [hsc] at hcmem
    obtain ⟨comp, _, hcm⟩ := List.mem_flatMap.mp hcmem
    obtain ⟨a, _, hca⟩ := List.mem_map.mp hcm
    subst hca
    exact ⟨rfl, rfl⟩

/-- Witness for C6 on the example release against an `amd64` target:
the emitted (component, architecture) pairs are exactly
`(main, all)` and `(main, amd64)`. -/
theorem C6_witness :
    (∀ a ∈ exRelease.architectures, a.os ≠ "any" ∧ a.cpu ≠ "any") ∧
    specArchs exRelease (Arch.Parse "amd64") ≠ [] ∧
    specComps exRelease [] ≠ [] ∧
    (SourceComponents "/debian" "stable" [] exRelease exSums (Arch.Parse "amd64")).map
        (fun c => (c.name, c.arch)) =
      (specComps exRelease []).flatMap
        (fun comp => (specArchs exRelease (Arch.Parse "amd64")).map (fun a => (comp, a))) :=
  ⟨by decide, by decide, by decide,
    (C6_source_components "/debian" "stable" [] exRelease exSums (Arch.Parse "amd64")
      (by decide) (by decide) (by decide)).1⟩

/-! ## Claim C1 — resolver closure

The chain: a returned selection is the output of the final prune, the
prune fixpoint makes `getDependencies` succeed over the selection
itself for every surviving entry, and a successful `getDependencies`
yields, for every relation, a possibility satisfied inside the pool it
queried. -/

/-- Membership in `Get` results. -/
theorem mem_Get {db : PackageDB} {name : String} {p : Package} (h : p ∈ db.Get name) :
    p ∈ db.tree ∧ p.package = name := by
  have := List.mem_filter.mp h
  simpa using this

/-- Membership in `EarlierOrEqual` results. -/
theorem mem_EarlierOrEqual {db : PackageDB} {name : String} {v : Version} {p : Package}
    (h : p ∈ db.EarlierOrEqual name v) :
    p ∈ db.tree ∧ p.package = name ∧ p.ver.Compare v ≠ .gt := by
  rw [PackageDB.EarlierOrEqual, List.mem_reverse] at h
  have := List.mem_filter.mp h
  simpa using this

/-- Membership in `LaterOrEqual` results. -/
theorem mem_LaterOrEqual {db : PackageDB} {name : String} {v : Version} {p : Package}
    (h : p ∈ db.LaterOrEqual name v) :
    p ∈ db.tree ∧ p.package = name ∧ p.ver.Compare v ≠ .lt := by
  have := List.mem_filter.mp h
  simpa using this

/-- An `ExactlyEqual` hit is a tree member with the right name and an
equal-comparing version. -/
theorem ExactlyEqual_some {db : PackageDB} {name : String} {v : Version} {p : Package}
    (h : db.ExactlyEqual name v = some p) :
    p ∈ db.tree ∧ p.package = name ∧ p.ver.Compare v = .eq := by
  refine ⟨List.mem_of_find?_eq_some h, ?_⟩
  have := List.find?_some h
  simpa using this

/-- Building `possiSat` from a version constraint that holds. -/
theorem possiSat_of {possi : Possibility} {p : Package} {vr : VersionRelation}
    (hv : possi.version = some vr) (hn : p.package = possi.name)
    (ho : opSat vr.operator (p.ver.Compare vr.version)) : possiSat possi p := by
  refine ⟨hn, ?_⟩
  rw [hv]
  exact ho

/-- The earlier-or-equal operators satisfy `opSat` on a non-`gt`
comparison. -/
theorem opSat_le {op : String} (h : op = "<<" ∨ op = "<=") {o : Ordering}
    (ho : o ≠ .gt) : opSat op o := by
  unfold opSat
  rw [if_pos h]
  exact ho

/-- The equality operator satisfies `opSat` on an `eq` comparison. -/
theorem opSat_eqop {op : String} (h : op = "=") {o : Ordering}
    (ho : o = .eq) : opSat op o := by
  subst h
  unfold opSat
  rw [if_neg (by decide), if_pos (by decide)]
  exact ho

/-- The later-or-equal operators satisfy `opSat` on a non-`lt`
comparison. -/
theorem opSat_ge {op : String} (h : op = ">=" ∨ op = ">>") {o : Ordering}
    (ho : o ≠ .lt) : opSat op o := by
  rcases h with h | h <;> subst h <;> unfold opSat <;>
    rw [if_neg (by decide), if_neg (by decide), if_pos (by decide)] <;> exact ho

/-- Every package a possibility draws from the pool is a pool entry
satisfying the possibility per the operator table. -/
theorem possiPackages_mem {db : PackageDB} {possi : Possibility} {l : List Package}
    (h : possiPackages db possi = .ok l) :
    ∀ p ∈ l, p ∈ db.tree ∧ possiSat possi p := by
  intro p hp
  rcases hv : possi.version with _ | vr <;> simp only [possiPackages, hv] at h
  · cases h
    obtain ⟨hm, hn⟩ := mem_Get hp
    refine ⟨hm, hn, ?_⟩
    rw [hv]
    trivial
  · by_cases h1 : vr.operator = "<<"
    · rw [if_pos (show (vr.operator == "<<") = true by rw [h1]; rfl)] at h
      cases h
      obtain ⟨hm, hn, hc⟩ := mem_EarlierOrEqual hp
      exact ⟨hm, possiSat_of hv hn (opSat_le (Or.inl h1) hc)⟩
    · rw [if_neg (show ¬(vr.operator == "<<") = true by
          simp only [beq_iff_eq]; exact h1)] at h
      by_cases h2 : vr.operator = "<="
      · rw [if_pos (show (vr.operator == "<=") = true by rw [h2]; rfl)] at h
        cases h
        obtain ⟨hm, hn, hc⟩ := mem_EarlierOrEqual hp
        exact ⟨hm, possiSat_of hv hn (opSat_le (Or.inr h2) hc)⟩
      · rw [if_neg (show ¬(vr.operator == "<=") = true by
            simp only [beq_iff_eq]; exact h2)] at h
        by_cases h3 : vr.operator = "="
        · rw [if_pos (show (vr.operator == "=") = true by rw [h3]; rfl)] at h
          cases h
          rcases he : db.ExactlyEqual possi.name vr.version with _ | q <;>
            rw [he] at hp
          · simp [Option.toList] at hp
          · simp only [Option.toList, List.mem_singleton] at hp
            subst hp
            obtain ⟨hm, hn, hc⟩ := ExactlyEqual_some he
            exact ⟨hm, possiSat_of hv hn (opSat_eqop h3 hc)⟩
        · rw [if_neg (show ¬(vr.operator == "=") = true by
              simp only [beq_iff_eq]; exact h3)] at h
          by_cases h4 : vr.operator = ">="
          · rw [if_pos (show (vr.operator == ">=") = true by rw [h4]; rfl)] at h
            cases h
            obtain ⟨hm, hn, hc⟩ := mem_LaterOrEqual hp
            exact ⟨hm, possiSat_of hv hn (opSat_ge (Or.inl h4) hc)⟩
          · rw [if_neg (show ¬(vr.operator == ">=") = true by
                simp only [beq_iff_eq]; exact h4)] at h
            by_cases h5 : vr.operator = ">>"
            · rw [if_pos (show (vr.operator == ">>") = true by rw [h5]; rfl)] at h
              cases h
              obtain ⟨hm, hn, hc⟩ := mem_LaterOrEqual hp
              exact ⟨hm, possiSat_of hv hn (opSat_ge (Or.inr h5) hc)⟩
            · rw [if_neg (show ¬(vr.operator == ">>") = true by
                  simp only [beq_iff_eq]; exact h5)] at h
              cases h

/-- Every provider collected by `virtualProviders` is a pool entry. -/
theorem virtualProviders_mem {pool : PackageDB} {virt : Package} {p : Package}
    (h : p ∈ virtualProviders pool virt) : p ∈ pool.tree := by
  obtain ⟨provider, _, hf⟩ := List.mem_filterMap.mp h
  exact (ExactlyEqual_some hf).1

/-- A successful virtual resolution returns a pool entry (one of the
present providers). -/
theorem resolveVirtual_mem {pool cand : PackageDB} {virt : Package} {p : Package}
    (h : resolveVirtualPackage pool cand virt = .ok p) : p ∈ pool.tree := by
  unfold resolveVirtualPackage at h
  rcases hvp : virtualProviders pool virt with _ | ⟨q, _ | ⟨q', rest⟩⟩ <;> rw [hvp] at h
  · cases h
  · cases h
    exact virtualProviders_mem (by rw [hvp]; exact List.mem_singleton.mpr rfl)
  · rcases hf1 : (q :: q' :: rest).find?
        (fun pkg => (cand.ExactlyEqual pkg.package pkg.ver).isSome) with _ | w
    · rw [hf1] at h
      rcases hf2 : (q :: q' :: rest).find? (fun pkg => pkg.priority == "required")
          with _ | w2
      · rw [hf2] at h; cases h
      · rw [hf2] at h
        cases h
        exact virtualProviders_mem
          (by rw [hvp]; exact List.mem_of_find?_eq_some hf2)
    · rw [hf1] at h
      cases h
      exact virtualProviders_mem (by rw [hvp]; exact List.mem_of_find?_eq_some hf1)

/-- A relation resolved to a non-empty candidate list has a possibility
satisfied by a pool entry — directly, or via a successfully chosen
virtual provider that is itself a pool entry. -/
theorem resolveRelation_some {pool cand : PackageDB} {possis : List Possibility}
    {l : List Package} (h : resolveRelation pool cand possis = .ok (some l)) :
    ∃ possi ∈ possis, ∃ q ∈ pool.tree, possiSat possi q ∧
      (q.isVirtual = false ∨
        ∃ prov, resolveVirtualPackage pool cand q = .ok prov ∧ prov ∈ pool.tree) := by
  induction possis with
  | nil => simp [resolveRelation] at h
  | cons possi rest ih =>
    rw [resolveRelation] at h
    rcases hpp : possiPackages pool possi with e | pl <;> rw [hpp] at h
    · cases h
    · simp only at h
      by_cases hemp : (pl.filterMap (fun pkg =>
          if pkg.isVirtual then (resolveVirtualPackage pool cand pkg).toOption
          else some pkg)).isEmpty
      · rw [if_pos hemp] at h
        obtain ⟨possi', hmem, rest'⟩ := ih h
        exact ⟨possi', List.mem_cons_of_mem _ hmem, rest'⟩
      · rw [if_neg hemp] at h
        cases h
        have hx : ∃ x, x ∈ pl.filterMap (fun pkg =>
            if pkg.isVirtual then (resolveVirtualPackage pool cand pkg).toOption
            else some pkg) := by
          rcases hfm : pl.filterMap (fun pkg =>
              if pkg.isVirtual then (resolveVirtualPackage pool cand pkg).toOption
              else some pkg) with _ | ⟨x, xs⟩
          · rw [hfm] at hemp; simp at hemp
          · exact ⟨x, by rw [hfm]; exact List.mem_cons_self x xs⟩
        obtain ⟨x, hx⟩ := hx
        obtain ⟨q, hq, hfq⟩ := List.mem_filterMap.mp hx
        obtain ⟨hqmem, hqsat⟩ := possiPackages_mem hpp q hq
        refine ⟨possi, List.mem_cons_self possi rest, q, hqmem, hqsat, ?_⟩
        by_cases hv : q.isVirtual
        · rw [if_pos hv] at hfq
          rcases hr : resolveVirtualPackage pool cand q with e | prov <;> rw [hr] at hfq
          · cases hfq
          · exact Or.inr ⟨prov, rfl, resolveVirtual_mem hr⟩
        · exact Or.inl (by simpa using hv)

/-- A successful `getDependencies` resolves every relation of the
package to a non-empty candidate list. -/
theorem getDepsLoop_ok {pool cand : PackageDB} {rels : List Relation}
    {acc deps : List Package} (h : getDepsLoop pool cand rels acc = .ok deps) :
    ∀ rel ∈ rels, ∃ l, resolveRelation pool cand rel.possibilities = .ok (some l) := by
  induction rels generalizing acc with
  | nil => intro rel hrel; cases hrel
  | cons rel rels ih =>
    intro r hr
    rw [getDepsLoop] at h
    rcases hrr : resolveRelation pool cand rel.possibilities with e | o <;> rw [hrr] at h
    · cases h
    · rcases o with _ | resolved
      · cases h
      · rcases List.mem_cons.mp hr with hre | hrm
        · exact ⟨resolved, hre ▸ hrr⟩
        · exact ih h r hrm

/-- The prune fixpoint: every entry surviving `pruneUnsatisfied` has
its dependencies resolvable against the surviving set itself. -/
theorem pruneUnsatisfied_fixpoint : ∀ (fuel : Nat) (db out : PackageDB),
    pruneUnsatisfied fuel db = some out →
    ∀ p ∈ out.tree, ∃ deps, getDependencies out out p = .ok deps := by
  intro fuel
  induction fuel with
  | zero => intro db out h; cases h
  | succ fuel ih =>
    intro db out h
    rw [pruneUnsatisfied] at h
    by_cases hemp : (pruneScan db).isEmpty
    · rw [if_pos hemp] at h
      cases h
      intro p hp
      have hnil : pruneScan db = [] := List.isEmpty_iff.mp hemp
      rw [pruneScan] at hnil
      have hnp := List.filter_eq_nil_iff.mp hnil p hp
      rcases hgd : getDependencies db db p with e | deps
      · exfalso
        apply hnp
        show (match getDependencies db db p with
          | .error _ => true
          | .ok _ => false) = true
        rw [hgd]
      · exact ⟨deps, rfl⟩
    · rw [if_neg hemp] at h
      exact ih _ _ h

/-- A selection returned by `Resolve` is the output of the final
prune. -/
theorem Resolve_ok_pruned {pool : PackageDB} {reqs : List String} {sel : PackageDB}
    (h : Resolve pool reqs = .ok sel) :
    ∃ fuel db, pruneUnsatisfied fuel db = some sel := by
  unfold Resolve at h
  rcases h1 : seedLoop pool reqs ([], NewPackageDB) with e | rc <;> rw [h1] at h
  · simp [Bind.bind, Except.bind] at h
  · obtain ⟨requested, cand⟩ := rc
    simp only [Bind.bind, Except.bind] at h
    rcases h2 : bfsLoop pool (bfsFuel pool cand) cand.tree [] cand with e | c2 <;>
      rw [h2] at h
    · simp at h
    · simp only at h
      rcases h3 : pruneUnsatisfied (c2.Len + 1) c2 with _ | c3 <;> rw [h3] at h
      · simp at h
      · simp only [pure, Except.pure, Except.bind] at h
        rcases h4 : pruneUnsatisfied ((collapse requested c3).Len + 1)
            (collapse requested c3) with _ | c4 <;> rw [h4] at h
        · simp at h
        · simp only [pure, Except.pure, Except.bind] at h
          rcases h5 : confirmRequested requested c4 with e | u <;> rw [h5] at h
          · simp at h
          · simp only [pure, Except.pure] at h
            cases h
            exact ⟨_, _, h4⟩

/-- C1: in every selection returned by `Resolve`, every non-virtual
package has, for each of its `Pre-Depends` and `Depends` relations, at
least one possibility satisfied by an entry of the selection — directly
by a concrete entry, or through a virtual entry whose chosen provider
(resolved over the selection itself) is in the selection. -/
theorem C1_resolver_closure {pool : PackageDB} {reqs : List String} {sel : PackageDB}
    (h : Resolve pool reqs = .ok sel) :
    ∀ p ∈ sel.tree, p.isVirtual = false →
      ∀ rel ∈ p.preDepends.relations ++ p.depends.relations,
        ∃ possi ∈ rel.possibilities, ∃ q ∈ sel.tree, possiSat possi q ∧
          (q.isVirtual = false ∨
            ∃ prov, resolveVirtualPackage sel sel q = .ok prov ∧ prov ∈ sel.tree) := by
  obtain ⟨fuel, db, hpr⟩ := Resolve_ok_pruned h
  intro p hp _ rel hrel
  obtain ⟨deps, hgd⟩ := pruneUnsatisfied_fixpoint fuel db sel hpr p hp
  obtain ⟨l, hrr⟩ := getDepsLoop_ok hgd rel hrel
  exact resolveRelation_some hrr

/-- Witness for C1: the example pool resolves `b=5.0` to `{b, lib}`
and the closure property holds of that selection. -/
theorem C1_witness :
    Resolve exPool ["b=5.0"] = .ok exSel ∧
    (∀ p ∈ exSel.tree, p.isVirtual = false →
      ∀ rel ∈ p.preDepends.relations ++ p.depends.relations,
        ∃ possi ∈ rel.possibilities, ∃ q ∈ exSel.tree, possiSat possi q ∧
          (q.isVirtual = false ∨
            ∃ prov, resolveVirtualPackage exSel exSel q = .ok prov ∧
              prov ∈ exSel.tree)) :=
  ⟨by decide, @C1_resolver_closure exPool ["b=5.0"] exSel (by decide)⟩



/-! ## Claim C9 — the pool database is never mutated -/

/-- The request loop writes only the candidate database. -/
theorem seedLoopSt_frame : ∀ (reqs : List String) (req : List (String × Option Version))
    (st : RStore), (seedLoopSt reqs req st).2.pool = st.pool ∧
      (seedLoopSt reqs req st).2.sel = st.sel := by
  intro reqs
  induction reqs with
  | nil => intro req st; exact ⟨rfl, rfl⟩
  | cons pnv rest ih =>
    intro req st
    rcases hsp : splitEq pnv with ⟨name, vs?⟩
    cases vs? with
    | some vs =>
      cases hv : Version.Parse vs with
      | error e => simp [seedLoopSt, hsp, hv]
      | ok v =>
        cases he : st.pool.ExactlyEqual name v with
        | some pkg =>
          simpa [seedLoopSt, hsp, hv, he] using
            ih (mapSet req name (some v)) ⟨st.pool, st.cand.Add pkg, st.sel⟩
        | none => simp [seedLoopSt, hsp, hv, he]
    | none =>
      by_cases hpl : (st.pool.Get name).isEmpty
      · simp [seedLoopSt, hsp, hpl]
      · simpa [seedLoopSt, hsp, hpl] using
          ih (mapSet req name none) ⟨st.pool, st.cand.AddAll (st.pool.Get name), st.sel⟩

/-- The request loop computes `seedLoop` on the candidate database. -/
theorem seedLoopSt_spec : ∀ (reqs : List String) (req : List (String × Option Version))
    (st : RStore),
    (seedLoopSt reqs req st).1.map (fun r => (r, (seedLoopSt reqs req st).2.cand)) =
      seedLoop st.pool reqs (req, st.cand) := by
  intro reqs
  induction reqs with
  | nil => intro req st; rfl
  | cons pnv rest ih =>
    intro req st
    rcases hsp : splitEq pnv with ⟨name, vs?⟩
    cases vs? with
    | some vs =>
      cases hv : Version.Parse vs with
      | error e => simp [seedLoopSt, seedLoop, hsp, hv, Except.map]
      | ok v =>
        cases he : st.pool.ExactlyEqual name v with
        | some pkg =>
          simpa [seedLoopSt, seedLoop, hsp, hv, he] using
            ih (mapSet req name (some v)) ⟨st.pool, st.cand.Add pkg, st.sel⟩
        | none => simp [seedLoopSt, seedLoop, hsp, hv, he, Except.map]
    | none =>
      by_cases hpl : (st.pool.Get name).isEmpty
      · simp [seedLoopSt, seedLoop, hsp, hpl, Except.map]
      · simpa [seedLoopSt, seedLoop, hsp, hpl] using
          ih (mapSet req name none) ⟨st.pool, st.cand.AddAll (st.pool.Get name), st.sel⟩

/-- The breadth-first loop writes only the candidate database. -/
theorem bfsLoopSt_frame : ∀ (fuel : Nat) (queue : List Package) (visited : List String)
    (st : RStore), (bfsLoopSt fuel queue visited st).2.pool = st.pool ∧
      (bfsLoopSt fuel queue visited st).2.sel = st.sel := by
  intro fuel
  induction fuel with
  | zero => intro queue visited st; exact ⟨rfl, rfl⟩
  | succ fuel ih =>
    intro queue visited st
    cases queue with
    | nil => exact ⟨rfl, rfl⟩
    | cons pkg rest =>
      simp only [bfsLoopSt]
      by_cases hv : visited.contains pkg.ID
      · rw [if_pos hv]
        exact ih rest visited st
      · rw [if_neg hv]
        cases hd : getDependencies st.pool st.cand pkg with
        | error e => exact ⟨rfl, rfl⟩
        | ok deps =>
          exact ih (rest ++ deps.filter (fun d => !((pkg.ID :: visited).contains d.ID)))
            (pkg.ID :: visited)
            ⟨st.pool,
              (deps.filter (fun d => !((pkg.ID :: visited).contains d.ID))).foldl
                PackageDB.Add st.cand, st.sel⟩

/-- The breadth-first loop computes `bfsLoop` on the candidate
database. -/
theorem bfsLoopSt_spec : ∀ (fuel : Nat) (queue : List Package) (visited : List String)
    (st : RStore),
    (bfsLoopSt fuel queue visited st).1.map
        (fun _ => (bfsLoopSt fuel queue visited st).2.cand) =
      bfsLoop st.pool fuel queue visited st.cand := by
  intro fuel
  induction fuel with
  | zero => intro queue visited st; rfl
  | succ fuel ih =>
    intro queue visited st
    cases queue with
    | nil => rfl
    | cons pkg rest =>
      simp only [bfsLoopSt, bfsLoop]
      by_cases hv : visited.contains pkg.ID
      · rw [if_pos hv, if_pos hv]
        exact ih rest visited st
      · rw [if_neg hv, if_neg hv]
        cases hd : getDependencies st.pool st.cand pkg with
        | error e => rfl
        | ok deps =>
          exact ih (rest ++ deps.filter (fun d => !((pkg.ID :: visited).contains d.ID)))
            (pkg.ID :: visited)
            ⟨st.pool,
              (deps.filter (fun d => !((pkg.ID :: visited).contains d.ID))).foldl
                PackageDB.Add st.cand, st.sel⟩

/-- C9: `Resolve` never mutates the pool database it was constructed
over — in the store-threaded mirror of the resolver, whose writes land
exactly where the Go statements direct them, the pool field of the
final store equals the initial pool whether the call succeeds or fails,
and the mirrored call returns exactly what `Resolve` returns. -/
theorem C9_pool_frame (pool : PackageDB) (reqs : List String) :
    (ResolveSt pool reqs).2.pool = pool ∧
      (ResolveSt pool reqs).1 = Resolve pool reqs := by
  have hsp := seedLoopSt_spec reqs [] ⟨pool, NewPackageDB, NewPackageDB⟩
  have hfr := seedLoopSt_frame reqs [] ⟨pool, NewPackageDB, NewPackageDB⟩
  rcases hS : seedLoopSt reqs [] ⟨pool, NewPackageDB, NewPackageDB⟩ with ⟨res, st1⟩
  rw [hS] at hsp hfr
  obtain ⟨hfp, hfs⟩ := hfr
  simp only at hsp hfp hfs
  cases res with
  | error e =>
    have hseed : seedLoop pool reqs ([], NewPackageDB) = .error e := by
      rw [← hsp]; rfl
    constructor
    · simp only [ResolveSt, hS]
      exact hfp
    · simp only [ResolveSt, hS]
      unfold Resolve
      rw [hseed]
      rfl
  | ok requested =>
    have hseed : seedLoop pool reqs ([], NewPackageDB) = .ok (requested, st1.cand) := by
      rw [← hsp]; rfl
    have hbsp := bfsLoopSt_spec (bfsFuel st1.pool st1.cand) st1.cand.tree [] st1
    have hbfr := bfsLoopSt_frame (bfsFuel st1.pool st1.cand) st1.cand.tree [] st1
    rcases hB : bfsLoopSt (bfsFuel st1.pool st1.cand) st1.cand.tree [] st1 with ⟨bres, st2⟩
    rw [hB] at hbsp hbfr
    obtain ⟨hbp, hbs⟩ := hbfr
    simp only at hbsp hbp hbs
    cases bres with
    | error e =>
      have hbfs : bfsLoop pool (bfsFuel pool st1.cand) st1.cand.tree [] st1.cand =
          .error e := by
        rw [hfp] at hbsp
        rw [← hbsp]
        rfl
      constructor
      · simp only [ResolveSt, hS, hB]
        rw [hbp, hfp]
      · simp only [ResolveSt, hS, hB]
        unfold Resolve
        rw [hseed]
        simp only [Bind.bind, Except.bind]
        rw [hbfs]
    | ok u =>
      cases u
      have hbfs : bfsLoop pool (bfsFuel pool st1.cand) st1.cand.tree [] st1.cand =
          .ok st2.cand := by
        rw [hfp] at hbsp
        rw [← hbsp]
        rfl
      cases hP1 : pruneUnsatisfied (st2.cand.Len + 1) st2.cand with
      | none =>
        constructor
        · simp only [ResolveSt, hS, hB, hP1]
          rw [hbp, hfp]
        · simp only [ResolveSt, hS, hB, hP1]
          unfold Resolve
          rw [hseed]
          simp only [Bind.bind, Except.bind]
          rw [hbfs]
          simp only
          rw [hP1]
      | some db =>
        cases hP2 : pruneUnsatisfied ((collapse requested db).Len + 1)
            (collapse requested db) with
        | none =>
          constructor
          · simp only [ResolveSt, hS, hB, hP1, hP2]
            rw [hbp, hfp]
          · simp only [ResolveSt, hS, hB, hP1, hP2]
            unfold Resolve
            rw [hseed]
            simp only [Bind.bind, Except.bind]
            rw [hbfs]
            simp only
            rw [hP1]
            simp only [pure, Except.pure, Except.bind]
            rw [hP2]
        | some sel2 =>
          cases hC : confirmRequested requested sel2 with
          | error e =>
            constructor
            · simp only [ResolveSt, hS, hB, hP1, hP2, hC]
              rw [hbp, hfp]
            · simp only [ResolveSt, hS, hB, hP1, hP2, hC]
              unfold Resolve
              rw [hseed]
              simp only [Bind.bind, Except.bind]
              rw [hbfs]
              simp only
              rw [hP1]
              simp only [pure, Except.pure, Except.bind]
              rw [hP2]
              simp only [pure, Except.pure, Except.bind]
              rw [hC]
          | ok u2 =>
            cases u2
            constructor
            · simp only [ResolveSt, hS, hB, hP1, hP2, hC]
              rw [hbp, hfp]
            · simp only [ResolveSt, hS, hB, hP1, hP2, hC]
              unfold Resolve
              rw [hseed]
              simp only [Bind.bind, Except.bind]
              rw [hbfs]
              simp only
              rw [hP1]
              simp only [pure, Except.pure, Except.bind]
              rw [hP2]
              simp only [pure, Except.pure, Except.bind]
              rw [hC]

/-! ## Claim C10 — duplicate requests: last pin wins, all occurrences seed -/

/-- A `Package.Compare`-equal pair has equal names. -/
theorem packageCompareEqName {p q : Package} (h : p.Compare q = .eq) :
    p.package = q.package := by
  rw [Package.Compare] at h
  rcases hc : compare p.package q.package with _ | _ | _ <;> rw [hc] at h
  · exact Ordering.noConfusion h
  · exact compare_eq_iff_eq.mp hc
  · exact Ordering.noConfusion h

/-- A `Package.Compare`-equal pair has `Version.Compare`-equal
versions. -/
theorem packageCompareEqVer {p q : Package} (h : p.Compare q = .eq) :
    p.ver.Compare q.ver = .eq := by
  rw [Package.Compare] at h
  rcases hc : compare p.package q.package with _ | _ | _ <;> rw [hc] at h
  · exact Ordering.noConfusion h
  · simp only [] at h
    rcases hv : p.ver.Compare q.ver with _ | _ | _
    · rw [hv] at h
      simp only [] at h
      exact Ordering.noConfusion h
    · rfl
    · rw [hv] at h
      simp only [] at h
      exact Ordering.noConfusion h
  · exact Ordering.noConfusion h

/-- The inserted item is always a member after `treeInsert`. -/
theorem treeInsert_mem_self (q : Package) : ∀ t : List Package, q ∈ treeInsert q t := by
  intro t
  induction t with
  | nil => simp [treeInsert]
  | cons r rest ih =>
    rw [treeInsert]
    rcases hc : q.Compare r with _ | _ | _
    · simp
    · simp
    · simp [ih]

/-- A member of the tree survives `treeInsert` unless it is the
`Compare`-equal item being replaced. -/
theorem treeInsert_mem {p : Package} (q : Package) :
    ∀ t : List Package, p ∈ t → p ∈ treeInsert q t ∨ q.Compare p = .eq := by
  intro t
  induction t with
  | nil => intro h; cases h
  | cons r rest ih =>
    intro hp
    rw [treeInsert]
    rcases hc : q.Compare r with _ | _ | _
    · exact Or.inl (List.mem_cons_of_mem q hp)
    · rcases List.mem_cons.mp hp with rfl | hm
      · exact Or.inr hc
      · exact Or.inl (List.mem_cons_of_mem q hm)
    · rcases List.mem_cons.mp hp with rfl | hm
      · exact Or.inl (List.mem_cons_self p _)
      · rcases ih hm with h1 | h2
        · exact Or.inl (List.mem_cons_of_mem r h1)
        · exact Or.inr h2

/-- `treeInsert` preserves the presence of a name at a version: the
replaced item, if any, is `Compare`-equal to the inserted one, which
then carries the same name and an equal version. -/
theorem hasNameVer_treeInsert {t : List Package} {name : String} {v : Version}
    (q : Package) (h : hasNameVer t name v) : hasNameVer (treeInsert q t) name v := by
  obtain ⟨p, hp, hn, hv⟩ := h
  rcases treeInsert_mem q t hp with h1 | h2
  · exact ⟨p, h1, hn, hv⟩
  · refine ⟨q, treeInsert_mem_self q t, ?_, ?_⟩
    · rw [packageCompareEqName h2, hn]
    · rw [versionCompareEqCongrLeft v (packageCompareEqVer h2), hv]

/-- A fold preserves any invariant its steps preserve. -/
theorem foldlPreserve {α β : Type} (P : α → Prop) (f : α → β → α)
    (h : ∀ a b, P a → P (f a b)) : ∀ (l : List β) (a : α), P a → P (l.foldl f a) := by
  intro l
  induction l with
  | nil => intro a ha; exact ha
  | cons b rest ih => intro a ha; exact ih (f a b) (h a b ha)

/-- The provides fan-out preserves the presence of a name at a
version. -/
theorem hasNameVer_addPackageProvides {t : List Package} {name : String} {v : Version}
    (pkg : Package) (possi : Possibility) (h : hasNameVer t name v) :
    hasNameVer (addPackageProvides pkg t possi) name v := by
  simp only [addPackageProvides]
  split
  · exact h
  · exact hasNameVer_treeInsert _ h

/-- `addPackage` preserves the presence of a name at a version. -/
theorem hasNameVer_addPackage {t : List Package} {name : String} {v : Version}
    (pkg : Package) (h : hasNameVer t name v) : hasNameVer (addPackage t pkg) name v := by
  rw [addPackage]
  exact foldlPreserve (fun t2 => hasNameVer t2 name v) _
    (fun acc rel ha => foldlPreserve (fun t2 => hasNameVer t2 name v) _
      (fun acc2 possi ha2 => hasNameVer_addPackageProvides pkg possi ha2)
      rel.possibilities acc ha)
    pkg.provides.relations _ (hasNameVer_treeInsert pkg h)

/-- `addPackage` establishes the presence of the added package's name
at its version. -/
theorem hasNameVer_addPackage_self {t : List Package} {name : String} {v : Version}
    (pkg : Package) (hn : pkg.package = name) (hv : pkg.ver.Compare v = .eq) :
    hasNameVer (addPackage t pkg) name v := by
  rw [addPackage]
  exact foldlPreserve (fun t2 => hasNameVer t2 name v) _
    (fun acc rel ha => foldlPreserve (fun t2 => hasNameVer t2 name v) _
      (fun acc2 possi ha2 => hasNameVer_addPackageProvides pkg possi ha2)
      rel.possibilities acc ha)
    pkg.provides.relations _ ⟨pkg, treeInsert_mem_self pkg t, hn, hv⟩

/-- A fold of `addPackage` establishes the presence of each folded
package's name at its version. -/
theorem hasNameVer_foldl_addPackage :
    ∀ (pl : List Package) (t : List Package) {name : String} {v : Version},
      (∃ p ∈ pl, p.package = name ∧ p.ver.Compare v = .eq) →
      hasNameVer (pl.foldl addPackage t) name v := by
  intro pl
  induction pl with
  | nil =>
    intro t name v h
    obtain ⟨p, hp, _⟩ := h
    cases hp
  | cons q rest ih =>
    intro t name v h
    obtain ⟨p, hp, hn, hv⟩ := h
    simp only [List.foldl_cons]
    rcases List.mem_cons.mp hp with rfl | hm
    · exact foldlPreserve (fun t2 => hasNameVer t2 name v) _
        (fun a b pa => hasNameVer_addPackage b pa) rest _
        (hasNameVer_addPackage_self p hn hv)
    · exact ih (addPackage t q) ⟨p, hm, hn, hv⟩

/-- A successful request loop only grows the candidate database: the
presence of a name at a version persists. -/
theorem seedLoop_preserves {pool : PackageDB} {name : String} {v : Version} :
    ∀ (reqs : List String) (req0 : List (String × Option Version)) (cand0 : PackageDB)
      {requested : List (String × Option Version)} {cand : PackageDB},
      seedLoop pool reqs (req0, cand0) = .ok (requested, cand) →
      hasNameVer cand0.tree name v → hasNameVer cand.tree name v := by
  intro reqs
  induction reqs with
  | nil =>
    intro req0 cand0 requested cand h h0
    rw [seedLoop] at h
    cases h
    exact h0
  | cons r rest ih =>
    intro req0 cand0 requested cand h h0
    rw [seedLoop] at h
    rcases hsp : splitEq r with ⟨name0, vs?⟩
    rw [hsp] at h
    simp only [] at h
    cases vs? with
    | some vs =>
      simp only [] at h
      cases hv : Version.Parse vs with
      | error e =>
        rw [hv] at h
        exact Except.noConfusion h
      | ok v0 =>
        rw [hv] at h
        simp only [] at h
        cases he : pool.ExactlyEqual name0 v0 with
        | some pkg =>
          rw [he] at h
          exact ih _ _ h (hasNameVer_addPackage pkg h0)
        | none =>
          rw [he] at h
          exact Except.noConfusion h
    | none =>
      simp only [] at h
      by_cases hpl : (pool.Get name0).isEmpty
      · rw [if_pos hpl] at h
        exact Except.noConfusion h
      · rw [if_neg hpl] at h
        exact ih _ _ h
          (foldlPreserve (fun t2 => hasNameVer t2 name v) _
            (fun a b pa => hasNameVer_addPackage b pa) (pool.Get name0) _ h0)

/-- Looking a key up after the in-place overwrite of a Go map
assignment. -/
theorem mapGet_mapOverwrite (k : String) (v : Option Version) :
    ∀ (m : List (String × Option Version)) (q : String),
      mapGet (m.map (fun kv => if kv.1 == k then (k, v) else kv)) q =
        if q = k then (if m.any (fun kv => kv.1 == k) then some v else mapGet m q)
        else mapGet m q := by
  intro m
  induction m with
  | nil =>
    intro q
    by_cases hq : q = k
    · simp [mapGet, hq]
    · simp [mapGet, hq]
  | cons p rest ih =>
    intro q
    by_cases hp : (p.1 == k) = true
    · rw [List.map_cons, if_pos hp]
      by_cases hq : q = k
      · subst hq
        simp [mapGet, List.any_cons, hp]
      · have hkq : (k == q) = false := beq_eq_false_iff_ne.mpr (Ne.symm hq)
        have hpq : (p.1 == q) = false := by
          rw [beq_eq_false_iff_ne, beq_iff_eq.mp hp]
          exact Ne.symm hq
        rw [if_neg hq, mapGet, List.find?_cons_of_neg _ (by simp [hkq]), mapGet,
          List.find?_cons_of_neg _ (by simp [hpq])]
        have hrec := ih q
        rw [mapGet, mapGet, if_neg hq] at hrec
        exact hrec
    · rw [List.map_cons, if_neg hp]
      by_cases hpq : (p.1 == q) = true
      · have hq : ¬(q = k) := by
          intro hqk
          rw [hqk] at hpq
          rw [beq_iff_eq] at hpq
          rw [hpq] at hp
          exact hp (by simp)
        rw [if_neg hq, mapGet, List.find?_cons_of_pos _ (by simp [hpq]), mapGet,
          List.find?_cons_of_pos _ (by simp [hpq])]
      · have hpq' : (p.1 == q) = false := Bool.eq_false_iff.mpr hpq
        rw [mapGet, List.find?_cons_of_neg _ (by simp [hpq']), mapGet,
          List.find?_cons_of_neg _ (by simp [hpq'])]
        have hrec := ih q
        rw [mapGet, mapGet] at hrec
        rw [hrec]
        by_cases hq : q = k
        · have hpf : (p.1 == k) = false := Bool.eq_false_iff.mpr hp
          rw [if_pos hq, if_pos hq, List.any_cons, hpf, Bool.false_or]
        · rw [if_neg hq, if_neg hq]

/-- Looking a key up after a Go map assignment appended a fresh
binding. -/
theorem mapGet_appendNew (k : String) (v : Option Version) :
    ∀ (m : List (String × Option Version)),
      ¬(m.any (fun kv => kv.1 == k) = true) →
      ∀ q, mapGet (m ++ [(k, v)]) q = if q = k then some v else mapGet m q := by
  intro m
  induction m with
  | nil =>
    intro _ q
    by_cases hq : q = k
    · simp [mapGet, hq]
    · have hkq : (k == q) = false := beq_eq_false_iff_ne.mpr (Ne.symm hq)
      simp [mapGet, hkq, hq]
  | cons p rest ih =>
    intro hany q
    have hp : (p.1 == k) = false := by
      rcases hb : (p.1 == k) with _ | _
      · rfl
      · exact absurd (by rw [List.any_cons, hb]; rfl) hany
    have hrestany : ¬(rest.any (fun kv => kv.1 == k) = true) := by
      intro hc
      exact hany (by rw [List.any_cons, hc, Bool.or_true])
    rw [List.cons_append]
    by_cases hpq : (p.1 == q) = true
    · have hq : ¬(q = k) := by
        intro hqk
        rw [hqk] at hpq
        rw [beq_iff_eq] at hpq
        rw [hpq] at hp
        simp at hp
      rw [if_neg hq, mapGet, List.find?_cons_of_pos _ (by simp [hpq]), mapGet,
        List.find?_cons_of_pos _ (by simp [hpq])]
    · have hpq' : (p.1 == q) = false := Bool.eq_false_iff.mpr hpq
      rw [mapGet, List.find?_cons_of_neg _ (by simp [hpq']), mapGet,
        List.find?_cons_of_neg _ (by simp [hpq'])]
      have hrec := ih hrestany q
      rw [mapGet, mapGet] at hrec
      exact hrec

/-- Go map assignment then lookup: the written key reads back the
written constraint, every other key is untouched. -/
theorem mapGet_mapSet (m : List (String × Option Version)) (k : String) (v : Option Version)
    (q : String) : mapGet (mapSet m k v) q = if q = k then some v else mapGet m q := by
  rw [mapSet]
  by_cases hany : m.any (fun kv => kv.1 == k) = true
  · rw [if_pos hany, mapGet_mapOverwrite]
    by_cases hq : q = k
    · rw [if_pos hq, if_pos hq, if_pos hany]
    · rw [if_neg hq, if_neg hq]
  · rw [if_neg hany]
    exact mapGet_appendNew k v m hany q

/-- A successful request loop records, for each name, the last
occurrence's constraint (falling back to the accumulator). -/
theorem seedLoop_lastConstraint {pool : PackageDB} :
    ∀ (reqs : List String) (req0 : List (String × Option Version)) (cand0 : PackageDB)
      {requested : List (String × Option Version)} {cand : PackageDB},
      seedLoop pool reqs (req0, cand0) = .ok (requested, cand) →
      ∀ name, mapGet requested name =
        match lastConstraint reqs name with
        | some c => some c
        | none => mapGet req0 name := by
  intro reqs
  induction reqs with
  | nil =>
    intro req0 cand0 requested cand h name
    rw [seedLoop] at h
    cases h
    rfl
  | cons r rest ih =>
    intro req0 cand0 requested cand h name
    rw [seedLoop] at h
    rcases hsp : splitEq r with ⟨name0, vs?⟩
    rw [hsp] at h
    simp only [] at h
    rw [lastConstraint, hsp]
    simp only []
    cases vs? with
    | some vs =>
      simp only [] at h
      cases hv : Version.Parse vs with
      | error e =>
        rw [hv] at h
        exact Except.noConfusion h
      | ok v0 =>
        rw [hv] at h
        simp only [] at h
        cases he : pool.ExactlyEqual name0 v0 with
        | none =>
          rw [he] at h
          exact Except.noConfusion h
        | some pkg =>
          rw [he] at h
          have hrec := ih _ _ h name
          simp only []
          rw [hv]
          rcases hLC : lastConstraint rest name with _ | c
          · rw [hLC] at hrec
            simp only [] at hrec
            simp only []
            rw [hrec, mapGet_mapSet]
            by_cases hn : name0 = name
            · rw [if_pos hn, if_pos (hn.symm)]
            · rw [if_neg hn, if_neg (fun hc => hn hc.symm)]
          · rw [hLC] at hrec
            simp only [] at hrec
            simp only []
            exact hrec
    | none =>
      simp only [] at h
      by_cases hpl : (pool.Get name0).isEmpty
      · rw [if_pos hpl] at h
        exact Except.noConfusion h
      · rw [if_neg hpl] at h
        have hrec := ih _ _ h name
        rcases hLC : lastConstraint rest name with _ | c
        · rw [hLC] at hrec
          simp only [] at hrec
          simp only []
          rw [hrec, mapGet_mapSet]
          by_cases hn : name0 = name
          · rw [if_pos hn, if_pos (hn.symm)]
          · rw [if_neg hn, if_neg (fun hc => hn hc.symm)]
        · rw [hLC] at hrec
          simp only [] at hrec
          simp only []
          exact hrec

/-- Every request occurrence seeds the candidate database: a pinned
occurrence plants an entry of its name at the pinned version, an
unpinned occurrence plants an entry at every pool version of the name;
the entries persist to the loop's end. -/
theorem seedLoop_seeds {pool : PackageDB} :
    ∀ (reqs : List String) (req0 : List (String × Option Version)) (cand0 : PackageDB)
      {requested : List (String × Option Version)} {cand : PackageDB},
      seedLoop pool reqs (req0, cand0) = .ok (requested, cand) →
      ∀ r ∈ reqs,
        (∀ vs v, (splitEq r).2 = some vs → Version.Parse vs = .ok v →
          hasNameVer cand.tree (splitEq r).1 v) ∧
        ((splitEq r).2 = none →
          ∀ p0 ∈ pool.Get (splitEq r).1, hasNameVer cand.tree (splitEq r).1 p0.ver) := by
  intro reqs
  induction reqs with
  | nil =>
    intro req0 cand0 requested cand h r hr
    cases hr
  | cons r0 rest ih =>
    intro req0 cand0 requested cand h r hr
    rw [seedLoop] at h
    rcases hsp : splitEq r0 with ⟨name0, vs?⟩
    rw [hsp] at h
    simp only [] at h
    rcases List.mem_cons.mp hr with rfl | hm
    · constructor
      · intro vs v hvs hv
        rw [hsp] at hvs
        simp only [] at hvs
        subst hvs
        rw [hsp]
        simp only []
        simp only [] at h
        cases hpv : Version.Parse vs with
        | error e =>
          rw [hpv] at h
          exact Except.noConfusion h
        | ok v0 =>
          have hvv : v0 = v := by
            rw [hpv] at hv
            injection hv
          subst hvv
          rw [hpv] at h
          simp only [] at h
          cases he : pool.ExactlyEqual name0 v0 with
          | none =>
            rw [he] at h
            exact Except.noConfusion h
          | some pkg =>
            rw [he] at h
            obtain ⟨_, hn, hveq⟩ := ExactlyEqual_some he
            exact seedLoop_preserves rest _ _ h (hasNameVer_addPackage_self pkg hn hveq)
      · intro hnone
        rw [hsp] at hnone
        simp only [] at hnone
        subst hnone
        intro p0 hp0
        rw [hsp] at hp0 ⊢
        simp only [] at hp0 ⊢
        simp only [] at h
        by_cases hpl : (pool.Get name0).isEmpty
        · rw [if_pos hpl] at h
          exact Except.noConfusion h
        · rw [if_neg hpl] at h
          obtain ⟨_, hn⟩ := mem_Get hp0
          exact seedLoop_preserves rest _ _ h
            (hasNameVer_foldl_addPackage (pool.Get name0) cand0.tree
              ⟨p0, hp0, hn, versionCompareRefl p0.ver⟩)
    · cases vs? with
      | some vs =>
        simp only [] at h
        cases hv : Version.Parse vs with
        | error e =>
          rw [hv] at h
          exact Except.noConfusion h
        | ok v0 =>
          rw [hv] at h
          simp only [] at h
          cases he : pool.ExactlyEqual name0 v0 with
          | some pkg =>
            rw [he] at h
            exact ih _ _ h r hm
          | none =>
            rw [he] at h
            exact Except.noConfusion h
      | none =>
        simp only [] at h
        by_cases hpl : (pool.Get name0).isEmpty
        · rw [if_pos hpl] at h
          exact Except.noConfusion h
        · rw [if_neg hpl] at h
          exact ih _ _ h r hm

/-- C10: when the request list names a package more than once, the
requested-constraint map — the only request input of the version
collapse and of the final confirmation — records exactly the last
occurrence's pin (or absence of pin) for every name, while every
occurrence still plants its candidates: each pinned occurrence leaves
an entry of its name at the pinned version in the candidate database
and each unpinned occurrence leaves one per pool version of the name;
and two conflicting pins of one name do not by themselves fail — on the
two-pin fixture `Resolve` succeeds, selecting the last pin's version. -/
theorem C10_last_request_wins :
    (∀ (pool : PackageDB) (reqs : List String)
        (requested : List (String × Option Version)) (cand : PackageDB),
      seedLoop pool reqs ([], NewPackageDB) = .ok (requested, cand) →
      (∀ name, mapGet requested name = lastConstraint reqs name) ∧
      (∀ r ∈ reqs,
        (∀ vs v, (splitEq r).2 = some vs → Version.Parse vs = .ok v →
          hasNameVer cand.tree (splitEq r).1 v) ∧
        ((splitEq r).2 = none →
          ∀ p0 ∈ pool.Get (splitEq r).1, hasNameVer cand.tree (splitEq r).1 p0.ver))) ∧
    Resolve c10Pool ["n=1.0", "n=2.0"] = .ok ⟨[c10n2]⟩ := by
  constructor
  · intro pool reqs requested cand h
    constructor
    · intro name
      have hrec := seedLoop_lastConstraint reqs [] NewPackageDB h name
      rcases hLC : lastConstraint reqs name with _ | c
      · rw [hLC] at hrec
        simp only [] at hrec
        rw [hrec]
        rfl
      · rw [hLC] at hrec
        simp only [] at hrec
        exact hrec
    · exact seedLoop_seeds reqs [] NewPackageDB h
  · decide

/-- Witness: the two-pin fixture instantiates the hypotheses of C10 at
a concrete seeding run. -/
theorem C10_witness :
    mapGet [("n", some (⟨0, "2.0", ""⟩ : Version))] "n" =
        lastConstraint ["n=1.0", "n=2.0"] "n" ∧
    hasNameVer [c10n1, c10n2] (splitEq "n=1.0").1 ⟨0, "1.0", ""⟩ := by
  have h := C10_last_request_wins.1 c10Pool ["n=1.0", "n=2.0"]
    [("n", some ⟨0, "2.0", ""⟩)] ⟨[c10n1, c10n2]⟩ (by decide)
  exact ⟨h.1 "n", (h.2 "n=1.0" (by decide)).1 "1.0" ⟨0, "1.0", ""⟩ (by decide) (by decide)⟩

/-! ## Claim C3 — version collapse: tree operation lemmas -/

/-- Every member of `treeInsert q t` is `q` or a member of `t`. -/
theorem treeInsert_subset {p : Package} (q : Package) :
    ∀ t : List Package, p ∈ treeInsert q t → p = q ∨ p ∈ t := by
  intro t
  induction t with
  | nil =>
    intro h
    rw [treeInsert] at h
    rcases List.mem_singleton.mp h with rfl
    exact Or.inl rfl
  | cons r rest ih =>
    intro h
    rw [treeInsert] at h
    rcases hc : q.Compare r with _ | _ | _ <;> rw [hc] at h
    · rcases List.mem_cons.mp h with rfl | h2
      · exact Or.inl rfl
      · exact Or.inr h2
    · rcases List.mem_cons.mp h with rfl | h2
      · exact Or.inl rfl
      · exact Or.inr (List.mem_cons_of_mem r h2)
    · rcases List.mem_cons.mp h with rfl | h2
      · exact Or.inr (List.mem_cons_self p rest)
      · rcases ih h2 with h3 | h4
        · exact Or.inl h3
        · exact Or.inr (List.mem_cons_of_mem r h4)

/-- Every member of `treeDelete k t` is a member of `t`. -/
theorem treeDelete_subset {p : Package} (k : Package) :
    ∀ t : List Package, p ∈ treeDelete k t → p ∈ t := by
  intro t
  induction t with
  | nil => intro h; exact h
  | cons r rest ih =>
    intro h
    rw [treeDelete] at h
    by_cases hc : k.Compare r = .eq
    · rw [if_pos hc] at h
      exact List.mem_cons_of_mem r h
    · rw [if_neg hc] at h
      rcases List.mem_cons.mp h with rfl | h2
      · exact List.mem_cons_self p rest
      · exact List.mem_cons_of_mem r (ih h2)

/-- A member not `Compare`-equal to the key survives `treeDelete`. -/
theorem treeDelete_mem {p : Package} (k : Package) :
    ∀ t : List Package, p ∈ t → ¬(k.Compare p = .eq) → p ∈ treeDelete k t := by
  intro t
  induction t with
  | nil => intro h _; exact h
  | cons r rest ih =>
    intro hp hne
    rw [treeDelete]
    by_cases hc : k.Compare r = .eq
    · rw [if_pos hc]
      rcases List.mem_cons.mp hp with rfl | h2
      · exact absurd hc hne
      · exact h2
    · rw [if_neg hc]
      rcases List.mem_cons.mp hp with rfl | h2
      · exact List.mem_cons_self p _
      · exact List.mem_cons_of_mem r (ih h2 hne)

/-- Inserting a package of a name with no entry yields one entry of
that name. -/
theorem countP_treeInsert_new {n : String} {q : Package} (hq : (q.package == n) = true) :
    ∀ t : List Package, t.countP (fun p => p.package == n) = 0 →
      (treeInsert q t).countP (fun p => p.package == n) = 1 := by
  intro t
  induction t with
  | nil =>
    intro _
    rw [treeInsert]
    simp [hq]
  | cons r rest ih =>
    intro h0
    rw [List.countP_cons] at h0
    have hr : (r.package == n) = false := by
      rcases hb : (r.package == n) with _ | _
      · rfl
      · simp [hb] at h0
    have hrest : rest.countP (fun p => p.package == n) = 0 := by
      simpa [hr] using h0
    rw [treeInsert]
    rcases hc : q.Compare r with _ | _ | _
    · simp [List.countP_cons, hq, hr, hrest]
    · exfalso
      have ht : (r.package == n) = true := by
        rw [beq_iff_eq, ← packageCompareEqName hc]
        exact beq_iff_eq.mp hq
      rw [ht] at hr
      exact Bool.noConfusion hr
    · simp [List.countP_cons, hr, ih hrest]

/-- Inserting a package of another name leaves a name's entry count
unchanged. -/
theorem countP_treeInsert_other {n : String} {q : Package} (hq : (q.package == n) = false) :
    ∀ t : List Package,
      (treeInsert q t).countP (fun p => p.package == n) =
        t.countP (fun p => p.package == n) := by
  intro t
  induction t with
  | nil =>
    rw [treeInsert]
    simp [hq]
  | cons r rest ih =>
    rw [treeInsert]
    rcases hc : q.Compare r with _ | _ | _
    · simp [List.countP_cons, hq]
    · have hr : (r.package == n) = false := by
        rw [← packageCompareEqName hc]
        exact hq
      simp [List.countP_cons, hq, hr]
    · simp [List.countP_cons, ih]

/-- Deleting with a key that matches some member removes exactly one
entry of the key's name. -/
theorem countP_treeDelete_hit {n : String} {k : Package} (hk : (k.package == n) = true) :
    ∀ t : List Package, (∃ r ∈ t, k.Compare r = .eq) →
      (treeDelete k t).countP (fun p => p.package == n) + 1 =
        t.countP (fun p => p.package == n) := by
  intro t
  induction t with
  | nil =>
    intro h
    obtain ⟨r, hr, _⟩ := h
    cases hr
  | cons r rest ih =>
    intro h
    rw [treeDelete]
    by_cases hc : k.Compare r = .eq
    · rw [if_pos hc]
      have ht : (r.package == n) = true := by
        rw [beq_iff_eq, ← packageCompareEqName hc]
        exact beq_iff_eq.mp hk
      simp [List.countP_cons, ht]
    · rw [if_neg hc]
      obtain ⟨r2, hr2, hceq⟩ := h
      rcases List.mem_cons.mp hr2 with rfl | hm
      · exact absurd hceq hc
      · have hrec := ih ⟨r2, hm, hceq⟩
        rw [List.countP_cons, List.countP_cons]
        omega

/-- Deletion never increases a name's entry count. -/
theorem countP_treeDelete_le {n : String} (k : Package) :
    ∀ t : List Package,
      (treeDelete k t).countP (fun p => p.package == n) ≤
        t.countP (fun p => p.package == n) := by
  intro t
  induction t with
  | nil => exact Nat.le_refl _
  | cons r rest ih =>
    rw [treeDelete]
    by_cases hc : k.Compare r = .eq
    · rw [if_pos hc, List.countP_cons]
      omega
    · rw [if_neg hc, List.countP_cons, List.countP_cons]
      omega

/-- Two members both satisfying a predicate counted at most once are
the same. -/
theorem countP_le_one_unique {α : Type} {pred : α → Bool} :
    ∀ (l : List α) {p p2 : α}, p ∈ l → p2 ∈ l → pred p = true → pred p2 = true →
      l.countP pred ≤ 1 → p = p2 := by
  intro l
  induction l with
  | nil =>
    intro p p2 hp _ _ _ _
    cases hp
  | cons a rest ih =>
    intro p p2 hp hp2 hpred hpred2 hcount
    rw [List.countP_cons] at hcount
    rcases List.mem_cons.mp hp with rfl | hm
    · rcases List.mem_cons.mp hp2 with rfl | hm2
      · rfl
      · exfalso
        have h1 : 0 < rest.countP pred := List.countP_pos_iff.mpr ⟨p2, hm2, hpred2⟩
        have h2 : (if pred p = true then 1 else 0) = 1 := by simp [hpred]
        omega
    · rcases List.mem_cons.mp hp2 with rfl | hm2
      · exfalso
        have h1 : 0 < rest.countP pred := List.countP_pos_iff.mpr ⟨p, hm, hpred⟩
        have h2 : (if pred p2 = true then 1 else 0) = 1 := by simp [hpred2]
        omega
      · exact ih hm hm2 hpred hpred2 (by omega)

/-- With no `Provides`, `Add` is a plain tree insertion. -/
theorem addPackage_noProvides {t : List Package} {pkg : Package}
    (h : pkg.provides.relations = []) : addPackage t pkg = treeInsert pkg t := by
  rw [addPackage, h]
  rfl

/-- With no `Provides`, `Remove` is a plain tree deletion. -/
theorem remove_noProvides {db : PackageDB} {pkg : Package}
    (h : pkg.provides.relations = []) : db.Remove pkg = ⟨treeDelete pkg db.tree⟩ := by
  rw [PackageDB.Remove, h]
  rfl

/-- One collapse step on a candidate whose name the request map does
not pin preserves the collapse invariant. -/
theorem collapseStep_inv_unpinned {requested : List (String × Option Version)}
    {processed : List Package} {sel : PackageDB} (c : Package)
    (hcp : c.provides.relations = [])
    (hall : ∀ p ∈ processed, p.provides.relations = [])
    (hinv : CollapseInv requested processed sel)
    (hnp : NotPinned requested c.package)
    (hstep : collapseStep requested sel c =
      (match sel.Get c.package with
       | [] => sel.Add c
       | existing0 :: _ =>
         if c.ver.Compare existing0.ver = .gt then (sel.Remove existing0).Add c else sel)) :
    CollapseInv requested (processed ++ [c]) (collapseStep requested sel c) := by
  obtain ⟨h1, h2, h3, h4, h5⟩ := hinv
  have hcMem : c ∈ processed ++ [c] := List.mem_append_right _ (List.mem_singleton.mpr rfl)
  rw [hstep]
  cases hget : sel.Get c.package with
  | nil =>
    simp only []
    have hcount0 : sel.tree.countP (fun p => p.package == c.package) = 0 := by
      rw [List.countP_eq_zero]
      intro p hp hb
      have hmem : p ∈ sel.Get c.package := List.mem_filter.mpr ⟨hp, hb⟩
      rw [hget] at hmem
      cases hmem
    have hnoname : ∀ p ∈ sel.tree, ¬(p.package = c.package) := by
      intro p hp hc
      have hmem : p ∈ sel.Get c.package :=
        List.mem_filter.mpr ⟨hp, beq_iff_eq.mpr hc⟩
      rw [hget] at hmem
      cases hmem
    have hadd : sel.Add c = (⟨treeInsert c sel.tree⟩ : PackageDB) := by
      rw [PackageDB.Add, addPackage_noProvides hcp]
    rw [hadd]
    refine ⟨?_, ?_, ?_, ?_, ?_⟩
    · intro p hp
      rcases treeInsert_subset c sel.tree hp with rfl | hold
      · exact hcMem
      · exact List.mem_append_left _ (h1 p hold)
    · intro p hp v hv
      rcases treeInsert_subset c sel.tree hp with rfl | hold
      · exact absurd hv (hnp v)
      · exact h2 p hold v hv
    · intro p hp hnpp q hq hqn
      rcases treeInsert_subset c sel.tree hp with rfl | hold
      · rcases List.mem_append.mp hq with hq1 | hq2
        · exfalso
          have hqnp : NotPinned requested q.package := by
            rw [hqn]
            exact hnp
          obtain ⟨p0, hp0, hp0n⟩ := h5 q hq1 hqnp
          exact hnoname p0 hp0 (hp0n.trans hqn)
        · rcases List.mem_singleton.mp hq2 with rfl
          intro hgt
          rw [versionCompareRefl] at hgt
          exact Ordering.noConfusion hgt
      · rcases List.mem_append.mp hq with hq1 | hq2
        · exact h3 p hold hnpp q hq1 hqn
        · rcases List.mem_singleton.mp hq2 with rfl
          exact absurd hqn.symm (hnoname p hold)
    · intro name hnpn
      by_cases hb : c.package = name
      · rw [countP_treeInsert_new (beq_iff_eq.mpr hb) sel.tree
          (by rw [← hb] at hnpn ⊢; exact hcount0)]
      · rw [countP_treeInsert_other (beq_eq_false_iff_ne.mpr hb) sel.tree]
        exact h4 name hnpn
    · intro q hq hqnp
      rcases List.mem_append.mp hq with hq1 | hq2
      · obtain ⟨p0, hp0, hp0n⟩ := h5 q hq1 hqnp
        refine ⟨p0, ?_, hp0n⟩
        rcases treeInsert_mem c sel.tree hp0 with hin | hceq
        · exact hin
        · exact absurd (packageCompareEqName hceq).symm (hnoname p0 hp0)
      · rcases List.mem_singleton.mp hq2 with rfl
        exact ⟨_, treeInsert_mem_self _ sel.tree, rfl⟩
  | cons existing0 rest0 =>
    simp only []
    have hex : existing0 ∈ sel.tree ∧ existing0.package = c.package :=
      mem_Get (by rw [hget]; exact List.mem_cons_self _ _)
    have hnpe : NotPinned requested existing0.package := by
      rw [hex.2]
      exact hnp
    have hcount1 : sel.tree.countP (fun p => p.package == c.package) ≤ 1 := h4 _ hnp
    have huniq : ∀ p ∈ sel.tree, p.package = c.package → p = existing0 := by
      intro p hp hpc
      exact @countP_le_one_unique Package (fun p2 => p2.package == c.package) sel.tree
        p existing0 hp hex.1 (beq_iff_eq.mpr hpc) (beq_iff_eq.mpr hex.2) hcount1
    by_cases hgt : c.ver.Compare existing0.ver = .gt
    · rw [if_pos hgt]
      have hrem : sel.Remove existing0 = (⟨treeDelete existing0 sel.tree⟩ : PackageDB) :=
        remove_noProvides (hall existing0 (h1 existing0 hex.1))
      have hadd : (⟨treeDelete existing0 sel.tree⟩ : PackageDB).Add c =
          (⟨treeInsert c (treeDelete existing0 sel.tree)⟩ : PackageDB) := by
        rw [PackageDB.Add, addPackage_noProvides hcp]
      rw [hrem, hadd]
      have hdel0 : (treeDelete existing0 sel.tree).countP
          (fun p => p.package == c.package) = 0 := by
        have hhit := countP_treeDelete_hit (beq_iff_eq.mpr hex.2) sel.tree
          ⟨existing0, hex.1, packageCompareRefl existing0⟩
        omega
      have hnoname : ∀ p ∈ treeDelete existing0 sel.tree, ¬(p.package = c.package) := by
        intro p hp hpc
        have : 0 < (treeDelete existing0 sel.tree).countP
            (fun p => p.package == c.package) :=
          List.countP_pos_iff.mpr ⟨p, hp, beq_iff_eq.mpr hpc⟩
        omega
      have hle : ∀ q ∈ processed, q.package = c.package →
          ¬(q.ver.Compare c.ver = .gt) := by
        intro q hq hqc hqgt
        have hqe := h3 existing0 hex.1 hnpe q hq (hqc.trans hex.2.symm)
        have hlt : existing0.ver.Compare c.ver = .lt := versionCompareGtIff.mp hgt
        rcases hqe2 : q.ver.Compare existing0.ver with _ | _ | _
        · have := versionCompareLtTrans hqe2 hlt
          rw [this] at hqgt
          exact Ordering.noConfusion hqgt
        · have := versionCompareEqCongrLeft c.ver hqe2
          rw [this, hlt] at hqgt
          exact Ordering.noConfusion hqgt
        · exact hqe hqe2
      refine ⟨?_, ?_, ?_, ?_, ?_⟩
      · intro p hp
        rcases treeInsert_subset c _ hp with rfl | hold
        · exact hcMem
        · exact List.mem_append_left _ (h1 p (treeDelete_subset existing0 sel.tree hold))
      · intro p hp v hv
        rcases treeInsert_subset c _ hp with rfl | hold
        · exact absurd hv (hnp v)
        · exact h2 p (treeDelete_subset existing0 sel.tree hold) v hv
      · intro p hp hnpp q hq hqn
        rcases treeInsert_subset c _ hp with rfl | hold
        · rcases List.mem_append.mp hq with hq1 | hq2
          · exact hle q hq1 hqn
          · rcases List.mem_singleton.mp hq2 with rfl
            intro hgt2
            rw [versionCompareRefl] at hgt2
            exact Ordering.noConfusion hgt2
        · rcases List.mem_append.mp hq with hq1 | hq2
          · exact h3 p (treeDelete_subset existing0 sel.tree hold) hnpp q hq1 hqn
          · rcases List.mem_singleton.mp hq2 with rfl
            exact absurd hqn.symm (hnoname p hold)
      · intro name hnpn
        by_cases hb : c.package = name
        · rw [countP_treeInsert_new (beq_iff_eq.mpr hb) _
            (by rw [← hb] at hnpn ⊢; exact hdel0)]
        · rw [countP_treeInsert_other (beq_eq_false_iff_ne.mpr hb) _]
          calc (treeDelete existing0 sel.tree).countP (fun p => p.package == name)
              ≤ sel.tree.countP (fun p => p.package == name) :=
                countP_treeDelete_le existing0 sel.tree
            _ ≤ 1 := h4 name hnpn
      · intro q hq hqnp
        rcases List.mem_append.mp hq with hq1 | hq2
        · obtain ⟨p0, hp0, hp0n⟩ := h5 q hq1 hqnp
          by_cases hb : q.package = c.package
          · exact ⟨c, treeInsert_mem_self c _, hb.symm⟩
          · have hp0ne : ¬(p0.package = c.package) := by
              rw [hp0n]
              exact hb
            have hd : p0 ∈ treeDelete existing0 sel.tree := by
              refine treeDelete_mem existing0 sel.tree hp0 ?_
              intro hceq
              exact hp0ne ((packageCompareEqName hceq).symm.trans hex.2)
            refine ⟨p0, ?_, hp0n⟩
            rcases treeInsert_mem c _ hd with hin | hceq
            · exact hin
            · exact absurd (packageCompareEqName hceq).symm hp0ne
        · rcases List.mem_singleton.mp hq2 with rfl
          exact ⟨_, treeInsert_mem_self _ _, rfl⟩
    · rw [if_neg hgt]
      refine ⟨fun p hp => List.mem_append_left _ (h1 p hp), h2, ?_, h4, ?_⟩
      · intro p hp hnpp q hq hqn
        rcases List.mem_append.mp hq with hq1 | hq2
        · exact h3 p hp hnpp q hq1 hqn
        · rcases List.mem_singleton.mp hq2 with rfl
          have hpe : p = existing0 := huniq p hp hqn.symm
          rw [hpe]
          exact hgt
      · intro q hq hqnp
        rcases List.mem_append.mp hq with hq1 | hq2
        · exact h5 q hq1 hqnp
        · rcases List.mem_singleton.mp hq2 with rfl
          exact ⟨existing0, hex.1, hex.2⟩

/-- One collapse step preserves the collapse invariant. -/
theorem collapseStep_inv {requested : List (String × Option Version)}
    {processed : List Package} {sel : PackageDB} (c : Package)
    (hcp : c.provides.relations = [])
    (hall : ∀ p ∈ processed, p.provides.relations = [])
    (hinv : CollapseInv requested processed sel) :
    CollapseInv requested (processed ++ [c]) (collapseStep requested sel c) := by
  cases hmg : mapGet requested c.package with
  | some ov =>
    cases ov with
    | some pv =>
      obtain ⟨h1, h2, h3, h4, h5⟩ := hinv
      have hcMem : c ∈ processed ++ [c] :=
        List.mem_append_right _ (List.mem_singleton.mpr rfl)
      have hstep : collapseStep requested sel c =
          if c.ver.Compare pv = .eq then sel.Add c else sel := by
        rw [collapseStep, hmg]
      rw [hstep]
      have hpinned : ∀ p : Package, p.package = c.package →
          ¬NotPinned requested p.package := by
        intro p hpn hnp
        exact hnp pv (by rw [hpn, hmg])
      by_cases heq : c.ver.Compare pv = .eq
      · rw [if_pos heq]
        have hadd : sel.Add c = (⟨treeInsert c sel.tree⟩ : PackageDB) := by
          rw [PackageDB.Add, addPackage_noProvides hcp]
        rw [hadd]
        refine ⟨?_, ?_, ?_, ?_, ?_⟩
        · intro p hp
          rcases treeInsert_subset c sel.tree hp with rfl | hold
          · exact hcMem
          · exact List.mem_append_left _ (h1 p hold)
        · intro p hp v hv
          rcases treeInsert_subset c sel.tree hp with rfl | hold
          · rw [hmg] at hv
            cases hv
            exact heq
          · exact h2 p hold v hv
        · intro p hp hnpp q hq hqn
          rcases treeInsert_subset c sel.tree hp with rfl | hold
          · exact absurd hnpp (hpinned _ rfl)
          · rcases List.mem_append.mp hq with hq1 | hq2
            · exact h3 p hold hnpp q hq1 hqn
            · rcases List.mem_singleton.mp hq2 with rfl
              exact absurd hnpp (hpinned p hqn.symm)
        · intro name hnpn
          have hne : (c.package == name) = false := by
            rcases hb : (c.package == name) with _ | _
            · rfl
            · exfalso
              exact hnpn pv (by rw [← beq_iff_eq.mp hb]; exact hmg)
          rw [countP_treeInsert_other hne sel.tree]
          exact h4 name hnpn
        · intro q hq hqnp
          rcases List.mem_append.mp hq with hq1 | hq2
          · obtain ⟨p0, hp0, hp0n⟩ := h5 q hq1 hqnp
            refine ⟨p0, ?_, hp0n⟩
            rcases treeInsert_mem c sel.tree hp0 with hin | hceq
            · exact hin
            · exfalso
              exact (hpinned p0 (packageCompareEqName hceq).symm)
                (by rw [hp0n]; exact hqnp)
          · rcases List.mem_singleton.mp hq2 with rfl
            exact absurd hqnp (hpinned _ rfl)
      · rw [if_neg heq]
        refine ⟨fun p hp => List.mem_append_left _ (h1 p hp), h2, ?_, h4, ?_⟩
        · intro p hp hnpp q hq hqn
          rcases List.mem_append.mp hq with hq1 | hq2
          · exact h3 p hp hnpp q hq1 hqn
          · rcases List.mem_singleton.mp hq2 with rfl
            exact absurd hnpp (hpinned p hqn.symm)
        · intro q hq hqnp
          rcases List.mem_append.mp hq with hq1 | hq2
          · exact h5 q hq1 hqnp
          · rcases List.mem_singleton.mp hq2 with rfl
            exact absurd hqnp (hpinned _ rfl)
    | none =>
      refine collapseStep_inv_unpinned c hcp hall hinv ?_ ?_
      · intro v hv
        rw [hmg] at hv
        cases hv
      · rw [collapseStep, hmg]
  | none =>
    refine collapseStep_inv_unpinned c hcp hall hinv ?_ ?_
    · intro v hv
      rw [hmg] at hv
      cases hv
    · rw [collapseStep, hmg]

/-- The collapse fold preserves the invariant over its whole run. -/
theorem collapse_fold_inv (requested : List (String × Option Version)) :
    ∀ (todo processed : List Package) (sel : PackageDB),
      (∀ p ∈ processed ++ todo, p.provides.relations = []) →
      CollapseInv requested processed sel →
      CollapseInv requested (processed ++ todo)
        (todo.foldl (collapseStep requested) sel) := by
  intro todo
  induction todo with
  | nil =>
    intro processed sel _ hinv
    rw [List.foldl_nil, List.append_nil]
    exact hinv
  | cons c rest ih =>
    intro processed sel hall hinv
    rw [List.foldl_cons]
    have hstep := collapseStep_inv c
      (hall c (List.mem_append_right _ (List.mem_cons_self c rest)))
      (fun p hp => hall p (List.mem_append_left _ hp)) hinv
    have hrec := ih (processed ++ [c]) (collapseStep requested sel c)
      (by
        intro p hp
        apply hall
        rcases List.mem_append.mp hp with hp1 | hp2
        · rcases List.mem_append.mp hp1 with hp3 | hp4
          · exact List.mem_append_left _ hp3
          · rcases List.mem_singleton.mp hp4 with rfl
            exact List.mem_append_right _ (List.mem_cons_self p rest)
        · exact List.mem_append_right _ (List.mem_cons_of_mem c hp2))
      hstep
    rw [List.append_assoc] at hrec
    simpa using hrec

/-- C3 counterexample: under the requests `n=1.0` (a pin) and `z`,
where `z` provides `n (= 2.0)`, the returned selection contains an
entry named `n` at version 2.0 — the provides fan-out of
`selectedDB.Add` inserts entries the collapse phase's pin filter never
examines, so a pinned name admits a non-matching version. -/
theorem C3_counterexample :
    Resolve cexPool ["n=1.0", "z"] = .ok ⟨[cexPinned, cexVirtualN, cexZ]⟩ ∧
    cexVirtualN.package = "n" ∧
    ¬(cexVirtualN.ver.Compare ⟨0, "1.0", ""⟩ = .eq) ∧
    mapGet [("n", some ⟨0, "1.0", ""⟩), ("z", none)] "n" =
      some (some ⟨0, "1.0", ""⟩) := by
  refine ⟨by decide, rfl, by decide, by decide⟩

/-- C3 (amended): provided no candidate lists `Provides`, the
version-collapse phase admits into the selection only candidates; for
every pinned name only entries whose version compares equal to the pin;
and for every non-pinned name exactly the highest candidate version —
each such entry is version-maximal among the candidates of its name and
unique for its name, and every non-pinned candidate name retains an
entry. -/
theorem C3_version_collapse (requested : List (String × Option Version))
    (cand : PackageDB) (hprov : ∀ p ∈ cand.tree, p.provides.relations = []) :
    (∀ p ∈ (collapse requested cand).tree, p ∈ cand.tree) ∧
    (∀ p ∈ (collapse requested cand).tree, ∀ v,
      mapGet requested p.package = some (some v) → p.ver.Compare v = .eq) ∧
    (∀ p ∈ (collapse requested cand).tree, NotPinned requested p.package →
      ∀ q ∈ cand.tree, q.package = p.package → ¬(q.ver.Compare p.ver = .gt)) ∧
    (∀ p ∈ (collapse requested cand).tree, ∀ p2 ∈ (collapse requested cand).tree,
      NotPinned requested p.package → p.package = p2.package → p = p2) ∧
    (∀ q ∈ cand.tree, NotPinned requested q.package →
      ∃ p ∈ (collapse requested cand).tree, p.package = q.package) := by
  have hbase : CollapseInv requested [] NewPackageDB :=
    ⟨fun p hp => absurd hp (List.not_mem_nil p),
     fun p hp => absurd hp (List.not_mem_nil p),
     fun p hp => absurd hp (List.not_mem_nil p),
     fun name _ => by simp [NewPackageDB],
     fun q hq => absurd hq (List.not_mem_nil q)⟩
  have hinv := collapse_fold_inv requested cand.tree [] NewPackageDB
    (by simpa using hprov) hbase
  rw [List.nil_append] at hinv
  obtain ⟨h1, h2, h3, h4, h5⟩ := hinv
  refine ⟨h1, h2, h3, ?_, h5⟩
  intro p hp p2 hp2 hnp hpn
  exact @countP_le_one_unique Package (fun p3 => p3.package == p.package)
    (collapse requested cand).tree p p2 hp hp2 (by simp)
    (beq_iff_eq.mpr hpn.symm) (h4 p.package hnp)

/-- Witness: the amended collapse theorem at the two-version candidate
set pinned to `n=1.0`. -/
theorem C3_witness :
    c10n1 ∈ (collapse [("n", some ⟨0, "1.0", ""⟩)] (⟨[c10n1, c10n2]⟩ : PackageDB)).tree ∧
    c10n1.ver.Compare ⟨0, "1.0", ""⟩ = .eq :=
  ⟨by decide,
    (C3_version_collapse [("n", some ⟨0, "1.0", ""⟩)] ⟨[c10n1, c10n2]⟩ (by decide)).2.1
      c10n1 (by decide) ⟨0, "1.0", ""⟩ (by decide)⟩

/-! ## Claim C2 — database virtual-entry invariant: structural lemmas -/

/-- `Compare`-equality is symmetric. -/
theorem packageCompareEqSymm {a b : Package} (h : a.Compare b = .eq) :
    b.Compare a = .eq := by
  have hn : a.package = b.package := packageCompareEqName h
  have hv : a.ver.Compare b.ver = .eq := packageCompareEqVer h
  rw [Package.Compare] at h
  rw [Package.Compare, ← hn,
    show compare a.package a.package = Ordering.eq from compare_eq_iff_eq.mpr rfl,
    versionCompareSwap, hv]
  rw [show compare a.package b.package = Ordering.eq from compare_eq_iff_eq.mpr hn] at h
  simp only [] at h
  rw [hv] at h
  simp only [] at h
  by_cases hc : (a.architecture.Is b.architecture || b.architecture.Is a.architecture) = true
  · have hc2 : (b.architecture.Is a.architecture || a.architecture.Is b.architecture) = true := by
      rcases Bool.or_eq_true_iff.mp hc with h1 | h2
      · exact Bool.or_eq_true_iff.mpr (Or.inr h1)
      · exact Bool.or_eq_true_iff.mpr (Or.inl h2)
    rw [if_pos hc2]
    rfl
  · rw [if_neg hc] at h
    have hc2 : ¬((b.architecture.Is a.architecture || a.architecture.Is b.architecture) = true) := by
      intro hor
      apply hc
      rcases Bool.or_eq_true_iff.mp hor with h1 | h2
      · exact Bool.or_eq_true_iff.mpr (Or.inr h1)
      · exact Bool.or_eq_true_iff.mpr (Or.inl h2)
    rw [if_neg hc2]
    have hts : a.architecture.toString = b.architecture.toString := compare_eq_iff_eq.mp h
    rw [hts, show compare b.architecture.toString b.architecture.toString = Ordering.eq from
      compare_eq_iff_eq.mpr rfl]
    rfl

/-- `setProviders` leaves the comparison key untouched (left). -/
theorem setProviders_compare_left (p : Package) (ps : List Package) (y : Package) :
    (p.setProviders ps).Compare y = p.Compare y := by
  cases p
  rfl

/-- `setProviders` leaves the comparison key untouched (right). -/
theorem setProviders_compare_right (p : Package) (ps : List Package) (y : Package) :
    y.Compare (p.setProviders ps) = y.Compare p := by
  cases p
  rfl

/-- `setProviders` writes the providers field. -/
theorem setProviders_providers (p : Package) (ps : List Package) :
    (p.setProviders ps).providers = ps := by
  cases p
  rfl

/-- `setProviders` keeps the virtual flag. -/
theorem setProviders_isVirtual (p : Package) (ps : List Package) :
    (p.setProviders ps).isVirtual = p.isVirtual := by
  cases p
  rfl

/-- `setProviders` keeps the architecture. -/
theorem setProviders_architecture (p : Package) (ps : List Package) :
    (p.setProviders ps).architecture = p.architecture := by
  cases p
  rfl

/-- `setProviders` keeps the provides list. -/
theorem setProviders_provides (p : Package) (ps : List Package) :
    (p.setProviders ps).provides = p.provides := by
  cases p
  rfl

/-- Right congruence of the comparison across a `Compare`-equal pair of
equal literal architecture. -/
theorem packageCompareEq_congr_right {b c : Package} (a : Package)
    (hbc : b.Compare c = .eq) (harch : b.architecture = c.architecture) :
    a.Compare b = a.Compare c := by
  have hn : b.package = c.package := packageCompareEqName hbc
  have hv : a.ver.Compare b.ver = a.ver.Compare c.ver :=
    versionCompareEqCongrRight a.ver (packageCompareEqVer hbc)
  rw [Package.Compare, Package.Compare, hn, hv, harch]

/-- Left congruence of the comparison across a `Compare`-equal pair of
equal literal architecture. -/
theorem packageCompareEq_congr_left {a b : Package} (c : Package)
    (hab : a.Compare b = .eq) (harch : a.architecture = b.architecture) :
    a.Compare c = b.Compare c := by
  have hn : a.package = b.package := packageCompareEqName hab
  have hv : a.ver.Compare c.ver = b.ver.Compare c.ver :=
    versionCompareEqCongrLeft c.ver (packageCompareEqVer hab)
  rw [Package.Compare, Package.Compare, hn, hv, harch]

/-- The virtual key has the zero architecture. -/
theorem virtualKeyOf_architecture (possi : Possibility) :
    (virtualKeyOf possi).architecture = Arch.zero := rfl

/-- The virtual key is marked virtual. -/
theorem virtualKeyOf_isVirtual (possi : Possibility) :
    (virtualKeyOf possi).isVirtual = true := rfl

/-- The virtual key has no providers. -/
theorem virtualKeyOf_providers (possi : Possibility) :
    (virtualKeyOf possi).providers = [] := rfl

/-- Structural form of `treeInsert`: the item goes in at one position,
either purely inserted or replacing one `Compare`-equal item. -/
theorem treeInsert_parts (q : Package) : ∀ t : List Package,
    ∃ l1 l2, treeInsert q t = l1 ++ q :: l2 ∧
      (t = l1 ++ l2 ∨ ∃ r, t = l1 ++ r :: l2 ∧ q.Compare r = .eq) := by
  intro t
  induction t with
  | nil => exact ⟨[], [], rfl, Or.inl rfl⟩
  | cons r rest ih =>
    rw [treeInsert]
    rcases hc : q.Compare r with _ | _ | _
    · exact ⟨[], r :: rest, rfl, Or.inl rfl⟩
    · exact ⟨[], rest, rfl, Or.inr ⟨r, rfl, hc⟩⟩
    · obtain ⟨l1, l2, heq, hrest⟩ := ih
      refine ⟨r :: l1, l2, by rw [heq]; rfl, ?_⟩
      rcases hrest with h1 | ⟨r2, h2, h3⟩
      · exact Or.inl (by rw [h1]; rfl)
      · exact Or.inr ⟨r2, by rw [h2]; rfl, h3⟩

/-- Structural form of `treeDelete`: either nothing matched, or exactly
the first matching item is dropped. -/
theorem treeDelete_parts (k : Package) : ∀ t : List Package,
    (treeDelete k t = t ∧ ∀ r ∈ t, ¬(k.Compare r = .eq)) ∨
    ∃ l1 r l2, t = l1 ++ r :: l2 ∧ k.Compare r = .eq ∧ treeDelete k t = l1 ++ l2 := by
  intro t
  induction t with
  | nil => exact Or.inl ⟨rfl, fun r hr => absurd hr (List.not_mem_nil r)⟩
  | cons r rest ih =>
    rw [treeDelete]
    by_cases hc : k.Compare r = .eq
    · exact Or.inr ⟨[], r, rest, rfl, hc, by rw [if_pos hc, List.nil_append]⟩
    · rcases ih with ⟨h1, h2⟩ | ⟨l1, r2, l2, h1, h2, h3⟩
      · refine Or.inl ⟨by rw [if_neg hc, h1], ?_⟩
        intro r3 hr3
        rcases List.mem_cons.mp hr3 with rfl | hm
        · exact hc
        · exact h2 r3 hm
      · exact Or.inr ⟨r :: l1, r2, l2, by rw [h1]; rfl, h2,
          by rw [if_neg hc, h3]; rfl⟩

/-- A found tree item is a `Compare`-equal member. -/
theorem treeGet_some {k v : Package} {t : List Package} (h : treeGet k t = some v) :
    v ∈ t ∧ k.Compare v = .eq := by
  refine ⟨List.mem_of_find?_eq_some h, ?_⟩
  have := List.find?_some h
  simpa using this

/-- A failed tree lookup means no `Compare`-equal member. -/
theorem treeGet_none {k : Package} {t : List Package} (h : treeGet k t = none) :
    ∀ x ∈ t, ¬(k.Compare x = .eq) := by
  intro x hx hc
  have := List.find?_eq_none.mp h x hx
  simp [hc] at this

/-- Swap of string comparison. -/
theorem strCompareSwap (a b : String) : compare b a = (compare a b).swap :=
  (Batteries.OrientedCmp.symm a b).symm

/-- `Package.Compare` as a `then`-composition of its three layers. -/
theorem packageCompareCanon (a b : Package) :
    a.Compare b =
      (compare a.package b.package).then
        ((a.ver.Compare b.ver).then
          (if (a.architecture.Is b.architecture || b.architecture.Is a.architecture) then
            Ordering.eq
          else compare a.architecture.toString b.architecture.toString)) := by
  rw [Package.Compare]
  cases compare a.package b.package with
  | lt => rfl
  | gt => rfl
  | eq =>
    cases a.ver.Compare b.ver with
    | lt => rfl
    | gt => rfl
    | eq => rfl

/-- Swapping the arguments swaps the package comparison. -/
theorem packageCompareSwap (a b : Package) : b.Compare a = (a.Compare b).swap := by
  rw [packageCompareCanon, packageCompareCanon, thenSwap, thenSwap,
    ← strCompareSwap, ← versionCompareSwap]
  by_cases hor : (a.architecture.Is b.architecture || b.architecture.Is a.architecture) = true
  · have hor2 : (b.architecture.Is a.architecture || a.architecture.Is b.architecture) = true := by
      rcases Bool.or_eq_true_iff.mp hor with h1 | h2
      · exact Bool.or_eq_true_iff.mpr (Or.inr h1)
      · exact Bool.or_eq_true_iff.mpr (Or.inl h2)
    rw [if_pos hor, if_pos hor2]
    rfl
  · have hor2 : ¬((b.architecture.Is a.architecture || a.architecture.Is b.architecture) = true) := by
      intro hx
      apply hor
      rcases Bool.or_eq_true_iff.mp hx with h1 | h2
      · exact Bool.or_eq_true_iff.mpr (Or.inr h1)
      · exact Bool.or_eq_true_iff.mpr (Or.inl h2)
    rw [if_neg hor, if_neg hor2, ← strCompareSwap]

/-- `gt` is the swapped strict package order. -/
theorem packageCompareGtIff {a b : Package} :
    a.Compare b = .gt ↔ b.Compare a = .lt := by
  constructor
  · intro h
    rw [packageCompareSwap, h]
    rfl
  · intro h
    have h2 := packageCompareSwap a b
    rw [h] at h2
    have h3 := congrArg Ordering.swap h2
    rw [Ordering.swap_swap] at h3
    exact h3.symm

/-- Under a good universe, `Compare`-equal good elements compare
equally against everything. -/
theorem goodCompareEqCongr {U : List Package} (hU : GoodUniverse U) {x y : Package}
    (hx : GoodElem U x) (hy : GoodElem U y) (hxy : x.Compare y = .eq) :
    ∀ z, x.Compare z = y.Compare z := by
  obtain ⟨hUc, hUd, hUk⟩ := hU
  rcases hx with ⟨hxc, hxU⟩ | ⟨hxv, hxa, qx, hqx, relx, hrelx, px, hpx, hkx⟩
  · rcases hy with ⟨hyc, hyU⟩ | ⟨hyv, hya, qy, hqy, rely, hrely, py, hpy, hky⟩
    · rw [hUd x hxU y hyU hxy]
      intro z
      rfl
    · exfalso
      have hxk : x.Compare (virtualKeyOf py) = .eq := by
        have hyk : y.Compare (virtualKeyOf py) = .eq := packageCompareEqSymm hky
        have harch : y.architecture = (virtualKeyOf py).architecture := by
          rw [hya, virtualKeyOf_architecture]
        rw [packageCompareEq_congr_right x hyk harch] at hxy
        exact hxy
      exact hUk x hxU qy hqy rely hrely py hpy hxk
  · rcases hy with ⟨hyc, hyU⟩ | ⟨hyv, hya, qy, hqy, rely, hrely, py, hpy, hky⟩
    · exfalso
      have hyx : y.Compare x = .eq := packageCompareEqSymm hxy
      have hyk : y.Compare (virtualKeyOf px) = .eq := by
        have hxk : x.Compare (virtualKeyOf px) = .eq := packageCompareEqSymm hkx
        have harch : x.architecture = (virtualKeyOf px).architecture := by
          rw [hxa, virtualKeyOf_architecture]
        rw [packageCompareEq_congr_right y hxk harch] at hyx
        exact hyx
      exact hUk y hyU qx hqx relx hrelx px hpx hyk
    · intro z
      exact packageCompareEq_congr_left z hxy (by rw [hxa, hya])

/-- Under a good universe, the strict package order is transitive on
good elements. -/
theorem goodCompareLtTrans {U : List Package} (hU : GoodUniverse U) {x y z : Package}
    (hx : GoodElem U x) (hy : GoodElem U y) (hz : GoodElem U z)
    (hxy : x.Compare y = .lt) (hyz : y.Compare z = .lt) : x.Compare z = .lt := by
  have hxyc := hxy
  have hyzc := hyz
  rw [packageCompareCanon] at hxyc hyzc
  rw [packageCompareCanon]
  rw [thenLtIff] at hxyc hyzc
  rw [thenLtIff]
  rcases hxyc with h1 | ⟨he1, h1⟩
  · rcases hyzc with h2 | ⟨he2, h2⟩
    · exact Or.inl (compare_lt_iff_lt.mpr
        (lt_trans (compare_lt_iff_lt.mp h1) (compare_lt_iff_lt.mp h2)))
    · exact Or.inl (by rw [← compare_eq_iff_eq.mp he2]; exact h1)
  · rcases hyzc with h2 | ⟨he2, h2⟩
    · exact Or.inl (by rw [compare_eq_iff_eq.mp he1]; exact h2)
    · refine Or.inr ⟨by rw [compare_eq_iff_eq.mp he1]; exact he2, ?_⟩
      rw [thenLtIff] at h1 h2 ⊢
      rcases h1 with h1 | ⟨hv1, h1⟩
      · rcases h2 with h2 | ⟨hv2, h2⟩
        · exact Or.inl (versionCompareLtTrans h1 h2)
        · exact Or.inl (by
            rw [← versionCompareEqCongrRight x.ver hv2]
            exact h1)
      · rcases h2 with h2 | ⟨hv2, h2⟩
        · exact Or.inl (by
            rw [versionCompareEqCongrLeft z.ver hv1]
            exact h2)
        · refine Or.inr ⟨?_, ?_⟩
          · rw [versionCompareEqCongrLeft z.ver hv1]
            exact hv2
          · by_cases hor : (x.architecture.Is z.architecture ||
                z.architecture.Is x.architecture) = true
            · exfalso
              have hxz : x.Compare z = .eq := by
                rw [packageCompareCanon, compare_eq_iff_eq.mpr
                  ((compare_eq_iff_eq.mp he1).trans (compare_eq_iff_eq.mp he2)),
                  versionCompareEqCongrLeft z.ver hv1, hv2, if_pos hor]
                rfl
              have := goodCompareEqCongr hU hx hz hxz y
              rw [hxy] at this
              have hzy : z.Compare y = .gt := packageCompareGtIff.mpr hyz
              rw [hzy] at this
              exact Ordering.noConfusion this
            · rw [if_neg hor]
              have hc1 : ¬((x.architecture.Is y.architecture ||
                  y.architecture.Is x.architecture) = true) := by
                intro hor1
                have hxy2 : x.Compare y = .eq := by
                  rw [packageCompareCanon, he1, hv1, if_pos hor1]
                  rfl
                rw [hxy2] at hxy
                exact Ordering.noConfusion hxy
              have hc2 : ¬((y.architecture.Is z.architecture ||
                  z.architecture.Is y.architecture) = true) := by
                intro hor2
                have hyz2 : y.Compare z = .eq := by
                  rw [packageCompareCanon, he2, hv2, if_pos hor2]
                  rfl
                rw [hyz2] at hyz
                exact Ordering.noConfusion hyz
              rw [if_neg hc1] at h1
              rw [if_neg hc2] at h2
              exact compare_lt_iff_lt.mpr
                (lt_trans (compare_lt_iff_lt.mp h1) (compare_lt_iff_lt.mp h2))

/-- A strictly ordered tree holds `Compare`-equal members only as one
value. -/
theorem sorted_eq_unique :
    ∀ {t : List Package}, List.Pairwise (fun a b => a.Compare b = .lt) t →
      ∀ {v x : Package}, v ∈ t → x ∈ t → v.Compare x = .eq → v = x := by
  intro t
  induction t with
  | nil =>
    intro _ v x hv _ _
    cases hv
  | cons a rest ih =>
    intro hp v x hv hx hvx
    have ha := List.pairwise_cons.mp hp
    rcases List.mem_cons.mp hv with rfl | hvm
    · rcases List.mem_cons.mp hx with rfl | hxm
      · rfl
      · exfalso
        rw [ha.1 x hxm] at hvx
        exact Ordering.noConfusion hvx
    · rcases List.mem_cons.mp hx with rfl | hxm
      · exfalso
        have hlt := ha.1 v hvm
        rw [packageCompareSwap, hlt] at hvx
        exact Ordering.noConfusion hvx
      · exact ih ha.2 hvm hxm hvx
    
/-- A middle element of a strictly ordered split occurs nowhere else. -/
theorem sorted_middle_notMem {l1 l2 : List Package} {v : Package}
    (hp : List.Pairwise (fun a b => a.Compare b = .lt) (l1 ++ v :: l2)) :
    v ∉ l1 ∧ v ∉ l2 := by
  rw [List.pairwise_append] at hp
  constructor
  · intro hv1
    have := hp.2.2 v hv1 v (List.mem_cons_self v l2)
    rw [packageCompareRefl] at this
    exact Ordering.noConfusion this
  · intro hv2
    have := (List.pairwise_cons.mp hp.2.1).1 v hv2
    rw [packageCompareRefl] at this
    exact Ordering.noConfusion this

/-- Insertion of a good element keeps the tree strictly ordered. -/
theorem treeInsert_sorted {U : List Package} (hU : GoodUniverse U) {q : Package}
    (hq : GoodElem U q) :
    ∀ {t : List Package}, (∀ x ∈ t, GoodElem U x) →
      List.Pairwise (fun a b => a.Compare b = .lt) t →
      List.Pairwise (fun a b => a.Compare b = .lt) (treeInsert q t) := by
  intro t
  induction t with
  | nil =>
    intro _ _
    rw [treeInsert]
    exact List.pairwise_singleton _ q
  | cons r rest ih =>
    intro hgood hp
    have hpc := List.pairwise_cons.mp hp
    rw [treeInsert]
    rcases hc : q.Compare r with _ | _ | _
    · refine List.pairwise_cons.mpr ⟨?_, hp⟩
      intro y hy
      rcases List.mem_cons.mp hy with rfl | hym
      · exact hc
      · exact goodCompareLtTrans hU hq (hgood r (List.mem_cons_self r rest))
          (hgood y (List.mem_cons_of_mem r hym)) hc (hpc.1 y hym)
    · refine List.pairwise_cons.mpr ⟨?_, hpc.2⟩
      intro y hy
      rw [goodCompareEqCongr hU hq (hgood r (List.mem_cons_self r rest)) hc y]
      exact hpc.1 y hy
    · refine List.pairwise_cons.mpr ⟨?_, ih (fun x hx => hgood x (List.mem_cons_of_mem r hx))
        hpc.2⟩
      intro y hy
      rcases treeInsert_subset q rest hy with rfl | hym
      · exact packageCompareGtIff.mp hc
      · exact hpc.1 y hym

/-- Deletion keeps the tree strictly ordered. -/
theorem treeDelete_sorted {k : Package} :
    ∀ {t : List Package}, List.Pairwise (fun a b => a.Compare b = .lt) t →
      List.Pairwise (fun a b => a.Compare b = .lt) (treeDelete k t) := by
  intro t hp
  rcases treeDelete_parts k t with ⟨h1, _⟩ | ⟨l1, r, l2, h1, _, h3⟩
  · rw [h1]
    exact hp
  · rw [h3]
    rw [h1] at hp
    exact hp.sublist ((l2.sublist_cons_self r).append_left l1)

/-- Inserting an element with no `Compare`-equal member splits the tree
around the new element. -/
theorem treeInsert_fresh {q : Package} {t : List Package}
    (hfresh : ∀ x ∈ t, ¬(q.Compare x = .eq)) :
    ∃ l1 l2, t = l1 ++ l2 ∧ treeInsert q t = l1 ++ q :: l2 := by
  obtain ⟨l1, l2, heq, hrest⟩ := treeInsert_parts q t
  rcases hrest with h1 | ⟨r, h2, h3⟩
  · exact ⟨l1, l2, h1, heq⟩
  · exfalso
    exact hfresh r (by rw [h2]; exact List.mem_append_right l1 (List.mem_cons_self r l2)) h3

/-- Inserting an element that behaves like a present member replaces
exactly that member. -/
theorem treeInsert_replace {q v : Package} :
    ∀ {t : List Package}, List.Pairwise (fun a b => a.Compare b = .lt) t → v ∈ t →
      (∀ y, q.Compare y = v.Compare y) →
      ∃ l1 l2, t = l1 ++ v :: l2 ∧ treeInsert q t = l1 ++ q :: l2 := by
  intro t
  induction t with
  | nil =>
    intro _ hv _
    cases hv
  | cons r rest ih =>
    intro hp hv hbeh
    have hpc := List.pairwise_cons.mp hp
    rcases List.mem_cons.mp hv with rfl | hvm
    · refine ⟨[], rest, rfl, ?_⟩
      rw [treeInsert, hbeh v, packageCompareRefl]
      rfl
    · have hgt : q.Compare r = .gt := by
        rw [hbeh r, packageCompareSwap, hpc.1 v hvm]
        rfl
      obtain ⟨l1, l2, h1, h2⟩ := ih hpc.2 hvm hbeh
      refine ⟨r :: l1, l2, by rw [h1]; rfl, ?_⟩
      rw [treeInsert, hgt, h2]
      rfl

/-- Deleting with a key that behaves like a present member removes
exactly that member. -/
theorem treeDelete_replace {k v : Package} :
    ∀ {t : List Package}, List.Pairwise (fun a b => a.Compare b = .lt) t → v ∈ t →
      (∀ y, k.Compare y = v.Compare y) →
      ∃ l1 l2, t = l1 ++ v :: l2 ∧ treeDelete k t = l1 ++ l2 := by
  intro t
  induction t with
  | nil =>
    intro _ hv _
    cases hv
  | cons r rest ih =>
    intro hp hv hbeh
    have hpc := List.pairwise_cons.mp hp
    rcases List.mem_cons.mp hv with rfl | hvm
    · refine ⟨[], rest, rfl, ?_⟩
      rw [treeDelete, if_pos (by rw [hbeh v]; exact packageCompareRefl v), List.nil_append]
    · have hne : ¬(k.Compare r = .eq) := by
        rw [hbeh r, packageCompareSwap, hpc.1 v hvm]
        intro hx
        exact Ordering.noConfusion hx
      obtain ⟨l1, l2, h1, h2⟩ := ih hpc.2 hvm hbeh
      refine ⟨r :: l1, l2, by rw [h1]; rfl, ?_⟩
      rw [treeDelete, if_neg hne, h2]
      rfl

/-- The nested relation/possibility fold is the fold over the joined
possibility list. -/
theorem nestedFold_join (f : List Package → Possibility → List Package) :
    ∀ (rels : List Relation) (t : List Package),
      rels.foldl (fun acc rel => rel.possibilities.foldl f acc) t =
        ((rels.map Relation.possibilities).flatten).foldl f t := by
  intro rels
  induction rels with
  | nil => intro t; rfl
  | cons rel rest ih =>
    intro t
    rw [List.foldl_cons, ih, List.map_cons, List.flatten_cons, List.foldl_append]

/-- Membership in the joined possibility list. -/
theorem mem_join_possis {rels : List Relation} {possi : Possibility} :
    possi ∈ (rels.map Relation.possibilities).flatten ↔
      ∃ rel ∈ rels, possi ∈ rel.possibilities := by
  rw [List.mem_flatten]
  constructor
  · rintro ⟨l, hl, hp⟩
    obtain ⟨rel, hrel, rfl⟩ := List.mem_map.mp hl
    exact ⟨rel, hrel, hp⟩
  · rintro ⟨rel, hrel, hp⟩
    exact ⟨rel.possibilities, List.mem_map.mpr ⟨rel, hrel, rfl⟩, hp⟩

/-- A good element `Compare`-equal to a virtual key in play is a
virtual entry. -/
theorem goodKeyEq_virtual {U : List Package} (hU : GoodUniverse U) {x : Package}
    (hx : GoodElem U x) {pkg : Package} (hpkg : pkg ∈ U) {rel : Relation}
    (hrel : rel ∈ pkg.provides.relations) {possi : Possibility}
    (hpossi : possi ∈ rel.possibilities)
    (heq : (virtualKeyOf possi).Compare x = .eq) : x.isVirtual = true := by
  rcases hx with ⟨hxc, hxU⟩ | ⟨hxv, _⟩
  · exact absurd (packageCompareEqSymm heq) (hU.2.2 x hxU pkg hpkg rel hrel possi hpossi)
  · exact hxv

/-- A concrete good element belongs to the universe. -/
theorem goodConcrete_mem {U : List Package} {x : Package} (hx : GoodElem U x)
    (hc : x.isVirtual = false) : x ∈ U := by
  rcases hx with ⟨_, hxU⟩ | ⟨hxv, _⟩
  · exact hxU
  · rw [hc] at hxv
    exact Bool.noConfusion hxv

/-- Virtual keys of possibilities in play are good elements. -/
theorem virtualKeyOf_good {U : List Package} {pkg : Package} {rel : Relation}
    {possi : Possibility} (hpkg : pkg ∈ U) (hrel : rel ∈ pkg.provides.relations)
    (hpossi : possi ∈ rel.possibilities) : GoodElem U (virtualKeyOf possi) :=
  Or.inr ⟨rfl, rfl, pkg, hpkg, rel, hrel, possi, hpossi, packageCompareRefl _⟩

/-- Rewriting the providers of a good virtual entry keeps it good. -/
theorem setProviders_good {U : List Package} {v : Package} (hv : GoodElem U v)
    (hvirt : v.isVirtual = true) (ps : List Package) :
    GoodElem U (v.setProviders ps) := by
  rcases hv with ⟨hc, _⟩ | ⟨h1, h2, q, hq, rel, hrel, possi, hpossi, hk⟩
  · rw [hvirt] at hc
    exact Bool.noConfusion hc
  · exact Or.inr ⟨by rw [setProviders_isVirtual, h1],
      by rw [setProviders_architecture, h2],
      q, hq, rel, hrel, possi, hpossi, by rw [setProviders_compare_right]; exact hk⟩

/-- `addPackageProvides` when the virtual entry exists. -/
theorem addPackageProvides_found {pkg : Package} {t : List Package} {possi : Possibility}
    {v : Package} (hget : treeGet (virtualKeyOf possi) t = some v) :
    addPackageProvides pkg t possi =
      if v.providers.any (fun provider => provider.Compare pkg = .eq) then t
      else treeInsert (v.setProviders (v.providers ++ [pkg])) t := by
  rw [addPackageProvides, hget]

/-- `addPackageProvides` when the virtual entry is created fresh. -/
theorem addPackageProvides_new {pkg : Package} {t : List Package} {possi : Possibility}
    (hget : treeGet (virtualKeyOf possi) t = none) :
    addPackageProvides pkg t possi =
      treeInsert ((virtualKeyOf possi).setProviders [pkg]) t := by
  rw [addPackageProvides, hget]
  rfl

/-- One `addPackageProvides` step preserves the add invariant, records the
package as a provider for the processed possibility, and keeps every
previously recorded provider fact. -/
theorem addProvides_step {U : List Package} (hU : GoodUniverse U) {pkg : Package}
    (hpkgU : pkg ∈ U) {rel0 : Relation} (hrel0 : rel0 ∈ pkg.provides.relations)
    {possi : Possibility} (hpossi0 : possi ∈ rel0.possibilities)
    {t : List Package} (hinv : AddInv U pkg t) :
    AddInv U pkg (addPackageProvides pkg t possi) ∧
    EFact pkg possi (addPackageProvides pkg t possi) ∧
    (∀ possi0, EFact pkg possi0 t → EFact pkg possi0 (addPackageProvides pkg t possi)) := by
  obtain ⟨hS, hG, hV, hF, hpkgT⟩ := hinv
  have hpkgConc : pkg.isVirtual = false := hU.1 pkg hpkgU
  cases hget : treeGet (virtualKeyOf possi) t with
  | none =>
    rw [addPackageProvides_new hget]
    have hfresh : ∀ x ∈ t, ¬(((virtualKeyOf possi).setProviders [pkg]).Compare x = .eq) := by
      intro x hx
      rw [setProviders_compare_left]
      exact treeGet_none hget x hx
    obtain ⟨l1, l2, hts, hres⟩ := treeInsert_fresh hfresh
    rw [hres]
    have hvgood : GoodElem U ((virtualKeyOf possi).setProviders [pkg]) :=
      setProviders_good (virtualKeyOf_good hpkgU hrel0 hpossi0) rfl _
    have hsub : ∀ {x : Package}, x ∈ t → x ∈ l1 ++ (virtualKeyOf possi).setProviders [pkg] :: l2 := by
      intro x hx
      rw [hts] at hx
      rcases List.mem_append.mp hx with h | h
      · exact List.mem_append_left _ h
      · exact List.mem_append_right _ (List.mem_cons_of_mem _ h)
    have hback : ∀ {x : Package},
        x ∈ l1 ++ (virtualKeyOf possi).setProviders [pkg] :: l2 →
        x = (virtualKeyOf possi).setProviders [pkg] ∨ x ∈ t := by
      intro x hx
      rcases List.mem_append.mp hx with h | h
      · exact Or.inr (by rw [hts]; exact List.mem_append_left _ h)
      · rcases List.mem_cons.mp h with h | h
        · exact Or.inl h
        · exact Or.inr (by rw [hts]; exact List.mem_append_right _ h)
    have hvmem : (virtualKeyOf possi).setProviders [pkg] ∈
        l1 ++ (virtualKeyOf possi).setProviders [pkg] :: l2 :=
      List.mem_append_right _ (List.mem_cons_self _ _)
    have hvfact : EFact pkg possi (l1 ++ (virtualKeyOf possi).setProviders [pkg] :: l2) := by
      refine ⟨_, hvmem, rfl, ?_, List.mem_singleton.mpr rfl⟩
      rw [setProviders_compare_right]
      exact packageCompareRefl _
    refine ⟨⟨?_, ?_, ?_, ?_, hsub hpkgT⟩, hvfact, ?_⟩
    · rw [← hres]
      exact treeInsert_sorted hU hvgood hG hS
    · intro x hx
      rcases hback hx with rfl | h
      · exact hvgood
      · exact hG x h
    · intro w hw hwv
      rcases hback hw with rfl | hwt
      · refine ⟨by simp [setProviders_providers], ?_, ?_⟩
        · intro q hq
          rw [setProviders_providers] at hq
          rcases List.mem_singleton.mp hq with rfl
          refine ⟨hsub hpkgT, hpkgConc, rel0, hrel0, possi, hpossi0, ?_⟩
          rw [setProviders_compare_right]
          exact packageCompareRefl _
        · intro q1 hq1 q2 hq2 _
          rw [setProviders_providers] at hq1 hq2
          rw [List.mem_singleton.mp hq1, List.mem_singleton.mp hq2]
      · obtain ⟨hne, hmem, hded⟩ := hV w hwt hwv
        refine ⟨hne, ?_, hded⟩
        intro q hq
        obtain ⟨hqT, hqc, rel1, hrel1, possi1, hpossi1, hk1⟩ := hmem q hq
        exact ⟨hsub hqT, hqc, rel1, hrel1, possi1, hpossi1, hk1⟩
    · intro p hp hpc hppkg rel1 hrel1 possi1 hpossi1
      have hpt : p ∈ t := by
        rcases hback hp with rfl | h
        · rw [setProviders_isVirtual] at hpc
          exact Bool.noConfusion hpc
        · exact h
      obtain ⟨w, hwT, hwv, hwk, hpw⟩ := hF p hpt hpc hppkg rel1 hrel1 possi1 hpossi1
      exact ⟨w, hsub hwT, hwv, hwk, hpw⟩
    · intro possi0 hfact
      obtain ⟨w, hwT, hwv, hwk, hpkgw⟩ := hfact
      exact ⟨w, hsub hwT, hwv, hwk, hpkgw⟩
  | some v =>
    obtain ⟨hvT, hKv⟩ := treeGet_some hget
    have hvVirt : v.isVirtual = true :=
      goodKeyEq_virtual hU (hG v hvT) hpkgU hrel0 hpossi0 hKv
    obtain ⟨hvne, hvmem, hvded⟩ := hV v hvT hvVirt
    by_cases hany : v.providers.any (fun provider => provider.Compare pkg = .eq) = true
    · rw [addPackageProvides_found hget, if_pos hany]
      have hpkgIn : pkg ∈ v.providers := by
        obtain ⟨q0, hq0, hq0eq⟩ := List.any_eq_true.mp hany
        have hq0eq2 : q0.Compare pkg = .eq := by simpa using hq0eq
        obtain ⟨hq0T, hq0c, _⟩ := hvmem q0 hq0
        have : q0 = pkg := hU.2.1 q0 (goodConcrete_mem (hG q0 hq0T) hq0c) pkg hpkgU hq0eq2
        rw [← this]
        exact hq0
      exact ⟨⟨hS, hG, hV, hF, hpkgT⟩, ⟨v, hvT, hvVirt, hKv, hpkgIn⟩,
        fun possi0 h => h⟩
    · rw [addPackageProvides_found hget, if_neg hany]
      have hbeh : ∀ y, (v.setProviders (v.providers ++ [pkg])).Compare y = v.Compare y :=
        fun y => setProviders_compare_left v _ y
      obtain ⟨l1, l2, hts, hres⟩ := treeInsert_replace hS hvT hbeh
      rw [hres]
      have hvgood : GoodElem U (v.setProviders (v.providers ++ [pkg])) :=
        setProviders_good (hG v hvT) hvVirt _
      have hsplitT : ∀ {x : Package}, x ∈ t → x = v ∨ x ∈ l1 ++ l2 := by
        intro x hx
        rw [hts] at hx
        rcases List.mem_append.mp hx with h | h
        · exact Or.inr (List.mem_append_left _ h)
        · rcases List.mem_cons.mp h with h | h
          · exact Or.inl h
          · exact Or.inr (List.mem_append_right _ h)
      have hupT : ∀ {x : Package}, x ∈ l1 ++ l2 → x ∈ t := by
        intro x hx
        rw [hts]
        rcases List.mem_append.mp hx with h | h
        · exact List.mem_append_left _ h
        · exact List.mem_append_right _ (List.mem_cons_of_mem _ h)
      have hsplitR : ∀ {x : Package},
          x ∈ l1 ++ v.setProviders (v.providers ++ [pkg]) :: l2 →
          x = v.setProviders (v.providers ++ [pkg]) ∨ x ∈ l1 ++ l2 := by
        intro x hx
        rcases List.mem_append.mp hx with h | h
        · exact Or.inr (List.mem_append_left _ h)
        · rcases List.mem_cons.mp h with h | h
          · exact Or.inl h
          · exact Or.inr (List.mem_append_right _ h)
      have hupR : ∀ {x : Package},
          x ∈ l1 ++ l2 → x ∈ l1 ++ v.setProviders (v.providers ++ [pkg]) :: l2 := by
        intro x hx
        rcases List.mem_append.mp hx with h | h
        · exact List.mem_append_left _ h
        · exact List.mem_append_right _ (List.mem_cons_of_mem _ h)
      have hvR : v.setProviders (v.providers ++ [pkg]) ∈
          l1 ++ v.setProviders (v.providers ++ [pkg]) :: l2 :=
        List.mem_append_right _ (List.mem_cons_self _ _)
      have hpkgnev : pkg ≠ v := by
        intro h
        rw [h, hvVirt] at hpkgConc
        exact Bool.noConfusion hpkgConc
      have hpkgR : pkg ∈ l1 ++ v.setProviders (v.providers ++ [pkg]) :: l2 := by
        rcases hsplitT hpkgT with h | h
        · exact absurd h hpkgnev
        · exact hupR h
      have hconcR : ∀ {q : Package}, q ∈ t → q.isVirtual = false →
          q ∈ l1 ++ v.setProviders (v.providers ++ [pkg]) :: l2 := by
        intro q hq hqc
        rcases hsplitT hq with rfl | h
        · rw [hvVirt] at hqc
          exact Bool.noConfusion hqc
        · exact hupR h
      have hvfact : EFact pkg possi (l1 ++ v.setProviders (v.providers ++ [pkg]) :: l2) := by
        refine ⟨_, hvR, by rw [setProviders_isVirtual]; exact hvVirt, ?_, ?_⟩
        · rw [setProviders_compare_right]
          exact hKv
        · rw [setProviders_providers]
          exact List.mem_append_right _ (List.mem_singleton.mpr rfl)
      refine ⟨⟨?_, ?_, ?_, ?_, hpkgR⟩, hvfact, ?_⟩
      · rw [← hres]
        exact treeInsert_sorted hU hvgood hG hS
      · intro x hx
        rcases hsplitR hx with rfl | h
        · exact hvgood
        · exact hG x (hupT h)
      · intro w hw hwv
        rcases hsplitR hw with rfl | hwold
        · refine ⟨by simp [setProviders_providers], ?_, ?_⟩
          · intro q hq
            rw [setProviders_providers] at hq
            rcases List.mem_append.mp hq with hqold | hqpkg
            · obtain ⟨hqT, hqc, rel1, hrel1, possi1, hpossi1, hk1⟩ := hvmem q hqold
              refine ⟨hconcR hqT hqc, hqc, rel1, hrel1, possi1, hpossi1, ?_⟩
              rw [setProviders_compare_right]
              exact hk1
            · rcases List.mem_singleton.mp hqpkg with rfl
              refine ⟨hpkgR, hpkgConc, rel0, hrel0, possi, hpossi0, ?_⟩
              rw [setProviders_compare_right]
              exact hKv
          · intro q1 hq1 q2 hq2 h12
            rw [setProviders_providers] at hq1 hq2
            rcases List.mem_append.mp hq1 with h1o | h1p
            · rcases List.mem_append.mp hq2 with h2o | h2p
              · exact hvded q1 h1o q2 h2o h12
              · rcases List.mem_singleton.mp h2p with rfl
                exact absurd (List.any_eq_true.mpr ⟨q1, h1o, by simp [h12]⟩) hany
            · rcases List.mem_singleton.mp h1p with rfl
              rcases List.mem_append.mp hq2 with h2o | h2p
              · exact absurd
                  (List.any_eq_true.mpr ⟨q2, h2o, by simp [packageCompareEqSymm h12]⟩) hany
              · rcases List.mem_singleton.mp h2p with rfl
                rfl
        · have hwT := hupT hwold
          obtain ⟨hwne, hwmem, hwded⟩ := hV w hwT hwv
          refine ⟨hwne, ?_, hwded⟩
          intro q hq
          obtain ⟨hqT, hqc, rel1, hrel1, possi1, hpossi1, hk1⟩ := hwmem q hq
          exact ⟨hconcR hqT hqc, hqc, rel1, hrel1, possi1, hpossi1, hk1⟩
      · intro p hp hpc hppkg rel1 hrel1 possi1 hpossi1
        have hpT : p ∈ t := by
          rcases hsplitR hp with rfl | h
          · rw [setProviders_isVirtual, hvVirt] at hpc
            exact Bool.noConfusion hpc
          · exact hupT h
        obtain ⟨w, hwT, hwv, hwk, hpw⟩ := hF p hpT hpc hppkg rel1 hrel1 possi1 hpossi1
        rcases hsplitT hwT with rfl | hwold
        · refine ⟨_, hvR, by rw [setProviders_isVirtual]; exact hwv, ?_, ?_⟩
          · rw [setProviders_compare_right]
            exact hwk
          · rw [setProviders_providers]
            exact List.mem_append_left _ hpw
        · exact ⟨w, hupR hwold, hwv, hwk, hpw⟩
      · intro possi0 hfact
        obtain ⟨w, hwT, hwv, hwk, hpkgw⟩ := hfact
        rcases hsplitT hwT with rfl | hwold
        · refine ⟨_, hvR, by rw [setProviders_isVirtual]; exact hwv, ?_, ?_⟩
          · rw [setProviders_compare_right]
            exact hwk
          · rw [setProviders_providers]
            exact List.mem_append_left _ hpkgw
        · exact ⟨w, hupR hwold, hwv, hwk, hpkgw⟩

/-- A good element `Compare`-equal to a universe package is that package. -/
theorem goodEqPkg {U : List Package} (hU : GoodUniverse U) {pkg x : Package}
    (hpkgU : pkg ∈ U) (hx : GoodElem U x) (heq : pkg.Compare x = .eq) : x = pkg := by
  have hcongr := goodCompareEqCongr hU (Or.inl ⟨hU.1 pkg hpkgU, hpkgU⟩) hx heq
  rcases hx with ⟨hxc, hxU⟩ | ⟨hxv, _, q, hq, rel, hrel, possi, hpossi, hk⟩
  · exact hU.2.1 x hxU pkg hpkgU (packageCompareEqSymm heq)
  · exfalso
    have hxk : x.Compare (virtualKeyOf possi) = .eq := packageCompareEqSymm hk
    have hpk : pkg.Compare (virtualKeyOf possi) = .eq := by
      rw [hcongr]
      exact hxk
    exact hU.2.2 pkg hpkgU q hq rel hrel possi hpossi hpk

/-- Inserting a universe package into an invariant database establishes
the add invariant. -/
theorem insert_pkg_addinv {U : List Package} (hU : GoodUniverse U) {pkg : Package}
    (hpkgU : pkg ∈ U) {db : PackageDB} (hdb : DBInv U db) :
    AddInv U pkg (treeInsert pkg db.tree) := by
  obtain ⟨hS, hG, hV, hF⟩ := hdb
  have hpkgGood : GoodElem U pkg := Or.inl ⟨hU.1 pkg hpkgU, hpkgU⟩
  cases hget : treeGet pkg db.tree with
  | none =>
    obtain ⟨l1, l2, hts, hres⟩ := treeInsert_fresh (treeGet_none hget)
    rw [hres]
    have hsub : ∀ {x : Package}, x ∈ db.tree → x ∈ l1 ++ pkg :: l2 := by
      intro x hx
      rw [hts] at hx
      rcases List.mem_append.mp hx with h | h
      · exact List.mem_append_left _ h
      · exact List.mem_append_right _ (List.mem_cons_of_mem _ h)
    have hback : ∀ {x : Package}, x ∈ l1 ++ pkg :: l2 → x = pkg ∨ x ∈ db.tree := by
      intro x hx
      rcases List.mem_append.mp hx with h | h
      · exact Or.inr (by rw [hts]; exact List.mem_append_left _ h)
      · rcases List.mem_cons.mp h with h | h
        · exact Or.inl h
        · exact Or.inr (by rw [hts]; exact List.mem_append_right _ h)
    refine ⟨?_, ?_, ?_, ?_, List.mem_append_right _ (List.mem_cons_self _ _)⟩
    · rw [← hres]
      exact treeInsert_sorted hU hpkgGood hG hS
    · intro x hx
      rcases hback hx with rfl | h
      · exact hpkgGood
      · exact hG x h
    · intro w hw hwv
      rcases hback hw with rfl | hwt
      · rw [hU.1 w hpkgU] at hwv
        exact Bool.noConfusion hwv
      · obtain ⟨hne, hmem, hded⟩ := hV w hwt hwv
        refine ⟨hne, ?_, hded⟩
        intro q hq
        obtain ⟨hqT, hqc, rel1, hrel1, possi1, hpossi1, hk1⟩ := hmem q hq
        exact ⟨hsub hqT, hqc, rel1, hrel1, possi1, hpossi1, hk1⟩
    · intro p hp hpc hppkg rel1 hrel1 possi1 hpossi1
      have hpt : p ∈ db.tree := by
        rcases hback hp with rfl | h
        · exact absurd rfl hppkg
        · exact h
      obtain ⟨w, hwT, hwv, hwk, hpw⟩ := hF p hpt hpc rel1 hrel1 possi1 hpossi1
      exact ⟨w, hsub hwT, hwv, hwk, hpw⟩
  | some x =>
    obtain ⟨hxT, hpx⟩ := treeGet_some hget
    have hxeq : x = pkg := goodEqPkg hU hpkgU (hG x hxT) hpx
    subst hxeq
    obtain ⟨l1, l2, hts, hres⟩ := treeInsert_replace hS hxT (fun y => rfl)
    rw [hres, ← hts]
    exact ⟨hS, hG, hV,
      fun p hp hpc _ rel1 hrel1 possi1 hpossi1 => hF p hp hpc rel1 hrel1 possi1 hpossi1,
      hxT⟩

/-- Folding `addPackageProvides` over possibilities drawn from the
package's `Provides` preserves the add invariant and records a provider
fact for each processed possibility. -/
theorem addProvides_fold {U : List Package} (hU : GoodUniverse U) {pkg : Package}
    (hpkgU : pkg ∈ U) :
    ∀ (ps : List Possibility) {t : List Package},
      (∀ possi ∈ ps, ∃ rel ∈ pkg.provides.relations, possi ∈ rel.possibilities) →
      AddInv U pkg t →
      AddInv U pkg (ps.foldl (addPackageProvides pkg) t) ∧
      (∀ possi ∈ ps, EFact pkg possi (ps.foldl (addPackageProvides pkg) t)) ∧
      (∀ possi0, EFact pkg possi0 t →
        EFact pkg possi0 (ps.foldl (addPackageProvides pkg) t)) := by
  intro ps
  induction ps with
  | nil =>
    intro t _ hinv
    exact ⟨hinv, fun possi h => absurd h (List.not_mem_nil _), fun _ h => h⟩
  | cons p rest ih =>
    intro t hall hinv
    obtain ⟨rel0, hrel0, hpossi0⟩ := hall p (List.mem_cons_self _ _)
    obtain ⟨hinv1, hfact1, hpers1⟩ := addProvides_step hU hpkgU hrel0 hpossi0 hinv
    obtain ⟨hinv2, hfacts2, hpers2⟩ :=
      ih (fun q hq => hall q (List.mem_cons_of_mem _ hq)) hinv1
    rw [List.foldl_cons]
    refine ⟨hinv2, ?_, fun possi0 h => hpers2 possi0 (hpers1 possi0 h)⟩
    intro q hq
    rcases List.mem_cons.mp hq with rfl | hq
    · exact hpers2 q hfact1
    · exact hfacts2 q hq

/-- `Add` of a universe package preserves the database invariant. -/
theorem add_dbinv {U : List Package} (hU : GoodUniverse U) {pkg : Package}
    (hpkgU : pkg ∈ U) {db : PackageDB} (hdb : DBInv U db) :
    DBInv U (db.Add pkg) := by
  have h0 := insert_pkg_addinv hU hpkgU hdb
  have hall : ∀ possi ∈ (pkg.provides.relations.map Relation.possibilities).flatten,
      ∃ rel ∈ pkg.provides.relations, possi ∈ rel.possibilities :=
    fun possi h => mem_join_possis.mp h
  obtain ⟨hinv, hfacts, _⟩ := addProvides_fold hU hpkgU _ hall h0
  obtain ⟨hS, hG, hV, hF, hpkgT⟩ := hinv
  have hT : (db.Add pkg).tree =
      ((pkg.provides.relations.map Relation.possibilities).flatten).foldl
        (addPackageProvides pkg) (treeInsert pkg db.tree) :=
    nestedFold_join (addPackageProvides pkg) pkg.provides.relations (treeInsert pkg db.tree)
  refine ⟨?_, ?_, ?_, ?_⟩
  · rw [hT]
    exact hS
  · rw [hT]
    exact hG
  · rw [hT]
    exact hV
  · rw [hT]
    intro p hp hpc rel1 hrel1 possi1 hpossi1
    by_cases hppkg : p = pkg
    · subst hppkg
      exact hfacts possi1 (mem_join_possis.mpr ⟨rel1, hrel1, hpossi1⟩)
    · exact hF p hp hpc hppkg rel1 hrel1 possi1 hpossi1

/-- `removePackageProvides` when no virtual entry matches. -/
theorem removePackageProvides_none {pkg : Package} {t : List Package} {possi : Possibility}
    (hget : treeGet (virtualKeyOf possi) t = none) :
    removePackageProvides pkg t possi = t := by
  rw [removePackageProvides, hget]

/-- `removePackageProvides` when the virtual entry is found. -/
theorem removePackageProvides_found {pkg : Package} {t : List Package} {possi : Possibility}
    {v : Package} (hget : treeGet (virtualKeyOf possi) t = some v) :
    removePackageProvides pkg t possi =
      if (v.providers.filter
          (fun provider => !(provider.Compare pkg = .eq : Bool))).isEmpty
      then treeDelete v t
      else treeInsert (v.setProviders (v.providers.filter
        (fun provider => !(provider.Compare pkg = .eq : Bool)))) t := by
  rw [removePackageProvides, hget]

/-- In a sorted tree of good elements at most one entry matches a
virtual key. -/
theorem sortedKeyUnique {U : List Package} (hU : GoodUniverse U) {pkg : Package}
    (hpkgU : pkg ∈ U) {rel : Relation} (hrel : rel ∈ pkg.provides.relations)
    {possi : Possibility} (hpossi : possi ∈ rel.possibilities)
    {t : List Package} (hS : List.Pairwise (fun a b => a.Compare b = .lt) t)
    (hG : ∀ x ∈ t, GoodElem U x) {x y : Package} (hx : x ∈ t) (hy : y ∈ t)
    (hkx : (virtualKeyOf possi).Compare x = .eq)
    (hky : (virtualKeyOf possi).Compare y = .eq) : x = y := by
  have hc := goodCompareEqCongr hU (virtualKeyOf_good hpkgU hrel hpossi) (hG x hx) hkx
  have hxy : x.Compare y = .eq := by
    rw [← hc]
    exact hky
  exact sorted_eq_unique hS hx hy hxy

/-- Deleting a universe package from an invariant database establishes
the remove invariant with every possibility of its `Provides` still
pending. -/
theorem delete_pkg_reminv {U : List Package} (hU : GoodUniverse U) {pkg : Package}
    (hpkgU : pkg ∈ U) {db : PackageDB} (hdb : DBInv U db) :
    RemInv U pkg ((pkg.provides.relations.map Relation.possibilities).flatten)
      (treeDelete pkg db.tree) := by
  obtain ⟨hS, hG, hV, hF⟩ := hdb
  rcases treeDelete_parts pkg db.tree with ⟨heq, hnone⟩ | ⟨l1, r, l2, hts, hpr, hdel⟩
  · rw [heq]
    refine ⟨hS, hG, ?_, hF, ?_⟩
    · intro v hv hvv
      obtain ⟨hne, hmem, hded⟩ := hV v hv hvv
      refine ⟨hne, ?_, hded⟩
      intro q hq
      obtain ⟨hqT, hqc, rel1, hrel1, possi1, hpossi1, hk1⟩ := hmem q hq
      exact Or.inr ⟨hqT, hqc, rel1, hrel1, possi1, hpossi1, hk1⟩
    · intro hmem
      exact hnone pkg hmem (packageCompareRefl pkg)
  · have hrT : r ∈ db.tree := by
      rw [hts]
      exact List.mem_append_right _ (List.mem_cons_self _ _)
    have hreq : r = pkg := goodEqPkg hU hpkgU (hG r hrT) hpr
    subst hreq
    rw [hdel]
    have hSsplit : List.Pairwise (fun a b => a.Compare b = .lt) (l1 ++ r :: l2) := by
      rw [← hts]
      exact hS
    obtain ⟨hnot1, hnot2⟩ := sorted_middle_notMem hSsplit
    have hrnot : r ∉ l1 ++ l2 := by
      intro h
      rcases List.mem_append.mp h with h | h
      · exact hnot1 h
      · exact hnot2 h
    have hsub : ∀ {x : Package}, x ∈ l1 ++ l2 → x ∈ db.tree := by
      intro x hx
      rw [hts]
      rcases List.mem_append.mp hx with h | h
      · exact List.mem_append_left _ h
      · exact List.mem_append_right _ (List.mem_cons_of_mem _ h)
    have hsplit : ∀ {x : Package}, x ∈ db.tree → x = r ∨ x ∈ l1 ++ l2 := by
      intro x hx
      rw [hts] at hx
      rcases List.mem_append.mp hx with h | h
      · exact Or.inr (List.mem_append_left _ h)
      · rcases List.mem_cons.mp h with h | h
        · exact Or.inl h
        · exact Or.inr (List.mem_append_right _ h)
    have hrconc : r.isVirtual = false := hU.1 r hpkgU
    refine ⟨?_, ?_, ?_, ?_, hrnot⟩
    · rw [← hdel]
      exact treeDelete_sorted hS
    · intro x hx
      exact hG x (hsub hx)
    · intro v hv hvv
      obtain ⟨hne, hmem, hded⟩ := hV v (hsub hv) hvv
      refine ⟨hne, ?_, hded⟩
      intro q hq
      obtain ⟨hqT, hqc, rel1, hrel1, possi1, hpossi1, hk1⟩ := hmem q hq
      rcases hsplit hqT with rfl | hqL
      · exact Or.inl ⟨rfl, possi1, mem_join_possis.mpr ⟨rel1, hrel1, hpossi1⟩, hk1⟩
      · exact Or.inr ⟨hqL, hqc, rel1, hrel1, possi1, hpossi1, hk1⟩
    · intro p hp hpc rel1 hrel1 possi1 hpossi1
      obtain ⟨w, hwT, hwv, hwk, hpw⟩ := hF p (hsub hp) hpc rel1 hrel1 possi1 hpossi1
      rcases hsplit hwT with rfl | hwL
      · rw [hrconc] at hwv
        exact Bool.noConfusion hwv
      · exact ⟨w, hwL, hwv, hwk, hpw⟩

/-- One `removePackageProvides` step discharges the processed
possibility from the remove invariant. -/
theorem removeProvides_step {U : List Package} (hU : GoodUniverse U) {pkg : Package}
    (hpkgU : pkg ∈ U) {rel0 : Relation} (hrel0 : rel0 ∈ pkg.provides.relations)
    {possi : Possibility} (hpossi0 : possi ∈ rel0.possibilities)
    {rest : List Possibility} {t : List Package}
    (hinv : RemInv U pkg (possi :: rest) t) :
    RemInv U pkg rest (removePackageProvides pkg t possi) := by
  obtain ⟨hS, hG, hV, hF, hnotin⟩ := hinv
  have hpkgConc : pkg.isVirtual = false := hU.1 pkg hpkgU
  cases hget : treeGet (virtualKeyOf possi) t with
  | none =>
    rw [removePackageProvides_none hget]
    refine ⟨hS, hG, ?_, hF, hnotin⟩
    intro v hv hvv
    obtain ⟨hne, hmem, hded⟩ := hV v hv hvv
    refine ⟨hne, ?_, hded⟩
    intro q hq
    rcases hmem q hq with ⟨rfl, possiq, hposmem, hkq⟩ | hr
    · rcases List.mem_cons.mp hposmem with rfl | hposrest
      · exact absurd hkq (treeGet_none hget v hv)
      · exact Or.inl ⟨rfl, possiq, hposrest, hkq⟩
    · exact Or.inr hr
  | some v =>
    obtain ⟨hvT, hKv⟩ := treeGet_some hget
    have hvVirt : v.isVirtual = true :=
      goodKeyEq_virtual hU (hG v hvT) hpkgU hrel0 hpossi0 hKv
    obtain ⟨hvne, hvmem, hvded⟩ := hV v hvT hvVirt
    rw [removePackageProvides_found hget]
    by_cases hemp : (v.providers.filter (fun provider => !(provider.Compare pkg = .eq : Bool))).isEmpty = true
    · rw [if_pos hemp]
      have hallpkg : ∀ q ∈ v.providers, q.Compare pkg = .eq := by
        intro q hq
        have hh := List.filter_eq_nil_iff.mp (List.isEmpty_iff.mp hemp) q hq
        simpa using hh
      obtain ⟨l1, l2, hts, hdel⟩ := treeDelete_replace hS hvT (fun y => rfl)
      rw [hdel]
      have hSsplit : List.Pairwise (fun a b => a.Compare b = .lt) (l1 ++ v :: l2) := by
        rw [← hts]
        exact hS
      obtain ⟨hn1, hn2⟩ := sorted_middle_notMem hSsplit
      have hvnotLL : v ∉ l1 ++ l2 := by
        intro h
        rcases List.mem_append.mp h with h | h
        · exact hn1 h
        · exact hn2 h
      have hsub : ∀ {x : Package}, x ∈ l1 ++ l2 → x ∈ t := by
        intro x hx
        rw [hts]
        rcases List.mem_append.mp hx with h | h
        · exact List.mem_append_left _ h
        · exact List.mem_append_right _ (List.mem_cons_of_mem _ h)
      have hsplit : ∀ {x : Package}, x ∈ t → x = v ∨ x ∈ l1 ++ l2 := by
        intro x hx
        rw [hts] at hx
        rcases List.mem_append.mp hx with h | h
        · exact Or.inr (List.mem_append_left _ h)
        · rcases List.mem_cons.mp h with h | h
          · exact Or.inl h
          · exact Or.inr (List.mem_append_right _ h)
      refine ⟨?_, ?_, ?_, ?_, ?_⟩
      · rw [← hdel]
        exact treeDelete_sorted hS
      · intro x hx
        exact hG x (hsub hx)
      · intro w hw hwv
        have hwT := hsub hw
        have hwnev : w ≠ v := fun h => hvnotLL (h ▸ hw)
        obtain ⟨hne, hmem, hded⟩ := hV w hwT hwv
        refine ⟨hne, ?_, hded⟩
        intro q hq
        rcases hmem q hq with ⟨rfl, possiq, hposmem, hkq⟩ |
          ⟨hqT, hqc, rel1, hrel1, possi1, hpossi1, hk1⟩
        · rcases List.mem_cons.mp hposmem with rfl | hposrest
          · exact absurd
              (sortedKeyUnique hU hpkgU hrel0 hpossi0 hS hG hwT hvT hkq hKv) hwnev
          · exact Or.inl ⟨rfl, possiq, hposrest, hkq⟩
        · have hqnev : q ≠ v := by
            intro h
            rw [h, hvVirt] at hqc
            exact Bool.noConfusion hqc
          rcases hsplit hqT with h | h
          · exact absurd h hqnev
          · exact Or.inr ⟨h, hqc, rel1, hrel1, possi1, hpossi1, hk1⟩
      · intro p hp hpc rel1 hrel1 possi1 hpossi1
        have hpT := hsub hp
        obtain ⟨w, hwT, hwv, hwk, hpw⟩ := hF p hpT hpc rel1 hrel1 possi1 hpossi1
        rcases hsplit hwT with rfl | hwLL
        · exfalso
          have hppkg : p.Compare pkg = .eq := hallpkg p hpw
          have hpU : p ∈ U := goodConcrete_mem (hG p hpT) hpc
          have hpe : p = pkg := hU.2.1 p hpU pkg hpkgU hppkg
          rw [hpe] at hpT
          exact hnotin hpT
        · exact ⟨w, hwLL, hwv, hwk, hpw⟩
      · intro h
        exact hnotin (hsub h)
    · rw [if_neg hemp]
      have hbeh : ∀ y, (v.setProviders (v.providers.filter (fun provider => !(provider.Compare pkg = .eq : Bool)))).Compare y = v.Compare y :=
        fun y => setProviders_compare_left v _ y
      obtain ⟨l1, l2, hts, hres⟩ := treeInsert_replace hS hvT hbeh
      rw [hres]
      have hv2good : GoodElem U (v.setProviders (v.providers.filter (fun provider => !(provider.Compare pkg = .eq : Bool)))) :=
        setProviders_good (hG v hvT) hvVirt _
      have hSsplit : List.Pairwise (fun a b => a.Compare b = .lt) (l1 ++ v :: l2) := by
        rw [← hts]
        exact hS
      obtain ⟨hn1, hn2⟩ := sorted_middle_notMem hSsplit
      have hvnotLL : v ∉ l1 ++ l2 := by
        intro h
        rcases List.mem_append.mp h with h | h
        · exact hn1 h
        · exact hn2 h
      have hsub : ∀ {x : Package}, x ∈ l1 ++ l2 → x ∈ t := by
        intro x hx
        rw [hts]
        rcases List.mem_append.mp hx with h | h
        · exact List.mem_append_left _ h
        · exact List.mem_append_right _ (List.mem_cons_of_mem _ h)
      have hsplitT : ∀ {x : Package}, x ∈ t → x = v ∨ x ∈ l1 ++ l2 := by
        intro x hx
        rw [hts] at hx
        rcases List.mem_append.mp hx with h | h
        · exact Or.inr (List.mem_append_left _ h)
        · rcases List.mem_cons.mp h with h | h
          · exact Or.inl h
          · exact Or.inr (List.mem_append_right _ h)
      have hsplitR : ∀ {x : Package},
          x ∈ l1 ++ v.setProviders (v.providers.filter (fun provider => !(provider.Compare pkg = .eq : Bool))) :: l2 →
          x = v.setProviders (v.providers.filter (fun provider => !(provider.Compare pkg = .eq : Bool))) ∨ x ∈ l1 ++ l2 := by
        intro x hx
        rcases List.mem_append.mp hx with h | h
        · exact Or.inr (List.mem_append_left _ h)
        · rcases List.mem_cons.mp h with h | h
          · exact Or.inl h
          · exact Or.inr (List.mem_append_right _ h)
      have hupR : ∀ {x : Package},
          x ∈ l1 ++ l2 → x ∈ l1 ++ v.setProviders (v.providers.filter (fun provider => !(provider.Compare pkg = .eq : Bool))) :: l2 := by
        intro x hx
        rcases List.mem_append.mp hx with h | h
        · exact List.mem_append_left _ h
        · exact List.mem_append_right _ (List.mem_cons_of_mem _ h)
      have hv2R : v.setProviders (v.providers.filter (fun provider => !(provider.Compare pkg = .eq : Bool))) ∈ l1 ++ v.setProviders (v.providers.filter (fun provider => !(provider.Compare pkg = .eq : Bool))) :: l2 :=
        List.mem_append_right _ (List.mem_cons_self _ _)
      refine ⟨?_, ?_, ?_, ?_, ?_⟩
      · rw [← hres]
        exact treeInsert_sorted hU hv2good hG hS
      · intro x hx
        rcases hsplitR hx with rfl | h
        · exact hv2good
        · exact hG x (hsub h)
      · intro w hw hwv
        rcases hsplitR hw with rfl | hwLL
        · refine ⟨?_, ?_, ?_⟩
          · rw [setProviders_providers]
            intro hnil
            apply hemp
            rw [List.isEmpty_iff]
            exact hnil
          · intro q hq
            rw [setProviders_providers] at hq
            obtain ⟨hqmem, hqpred⟩ := List.mem_filter.mp hq
            have hqne : ¬(q.Compare pkg = .eq) := by simpa using hqpred
            rcases hvmem q hqmem with ⟨heq2, _⟩ |
              ⟨hqT, hqc, rel1, hrel1, possi1, hpossi1, hk1⟩
            · rw [heq2] at hqne
              exact absurd (packageCompareRefl pkg) hqne
            · have hqnev : q ≠ v := by
                intro h
                rw [h, hvVirt] at hqc
                exact Bool.noConfusion hqc
              refine Or.inr ⟨?_, hqc, rel1, hrel1, possi1, hpossi1, ?_⟩
              · rcases hsplitT hqT with h | h
                · exact absurd h hqnev
                · exact hupR h
              · rw [setProviders_compare_right]
                exact hk1
          · intro q1 hq1 q2 hq2 h12
            rw [setProviders_providers] at hq1 hq2
            exact hvded q1 (List.mem_filter.mp hq1).1 q2 (List.mem_filter.mp hq2).1 h12
        · have hwT := hsub hwLL
          have hwnev : w ≠ v := fun h => hvnotLL (h ▸ hwLL)
          obtain ⟨hne, hmem, hded⟩ := hV w hwT hwv
          refine ⟨hne, ?_, hded⟩
          intro q hq
          rcases hmem q hq with ⟨rfl, possiq, hposmem, hkq⟩ |
            ⟨hqT, hqc, rel1, hrel1, possi1, hpossi1, hk1⟩
          · rcases List.mem_cons.mp hposmem with rfl | hposrest
            · exact absurd
                (sortedKeyUnique hU hpkgU hrel0 hpossi0 hS hG hwT hvT hkq hKv) hwnev
            · exact Or.inl ⟨rfl, possiq, hposrest, hkq⟩
          · have hqnev : q ≠ v := by
              intro h
              rw [h, hvVirt] at hqc
              exact Bool.noConfusion hqc
            rcases hsplitT hqT with h | h
            · exact absurd h hqnev
            · exact Or.inr ⟨hupR h, hqc, rel1, hrel1, possi1, hpossi1, hk1⟩
      · intro p hp hpc rel1 hrel1 possi1 hpossi1
        have hpT : p ∈ t := by
          rcases hsplitR hp with heq | h
          · rw [heq, setProviders_isVirtual, hvVirt] at hpc
            exact Bool.noConfusion hpc
          · exact hsub h
        obtain ⟨w, hwT, hwv, hwk, hpw⟩ := hF p hpT hpc rel1 hrel1 possi1 hpossi1
        rcases hsplitT hwT with rfl | hwLL
        · have hpne : ¬(p.Compare pkg = .eq) := by
            intro hppkg
            have hpU : p ∈ U := goodConcrete_mem (hG p hpT) hpc
            have hpe : p = pkg := hU.2.1 p hpU pkg hpkgU hppkg
            rw [hpe] at hpT
            exact hnotin hpT
          refine ⟨_, hv2R, ?_, ?_, ?_⟩
          · rw [setProviders_isVirtual]
            exact hwv
          · rw [setProviders_compare_right]
            exact hwk
          · rw [setProviders_providers]
            exact List.mem_filter.mpr ⟨hpw, by simp [hpne]⟩
        · exact ⟨w, hupR hwLL, hwv, hwk, hpw⟩
      · intro h
        rcases hsplitR h with heq | h2
        · have hpv : pkg.isVirtual = true := by
            rw [heq, setProviders_isVirtual]
            exact hvVirt
          rw [hpkgConc] at hpv
          exact Bool.noConfusion hpv
        · exact hnotin (hsub h2)

/-- Folding `removePackageProvides` over the pending possibilities
discharges them all from the remove invariant. -/
theorem removeProvides_fold {U : List Package} (hU : GoodUniverse U) {pkg : Package}
    (hpkgU : pkg ∈ U) :
    ∀ (ps : List Possibility) {t : List Package},
      (∀ possi ∈ ps, ∃ rel ∈ pkg.provides.relations, possi ∈ rel.possibilities) →
      RemInv U pkg ps t →
      RemInv U pkg [] (ps.foldl (removePackageProvides pkg) t) := by
  intro ps
  induction ps with
  | nil =>
    intro t _ hinv
    exact hinv
  | cons p rest ih =>
    intro t hall hinv
    obtain ⟨rel0, hrel0, hpossi0⟩ := hall p (List.mem_cons_self _ _)
    have hstep := removeProvides_step hU hpkgU hrel0 hpossi0 hinv
    rw [List.foldl_cons]
    exact ih (fun q hq => hall q (List.mem_cons_of_mem _ hq)) hstep

/-- `Remove` of a universe package preserves the database invariant. -/
theorem remove_dbinv {U : List Package} (hU : GoodUniverse U) {pkg : Package}
    (hpkgU : pkg ∈ U) {db : PackageDB} (hdb : DBInv U db) :
    DBInv U (db.Remove pkg) := by
  have h0 := delete_pkg_reminv hU hpkgU hdb
  have hall : ∀ possi ∈ (pkg.provides.relations.map Relation.possibilities).flatten,
      ∃ rel ∈ pkg.provides.relations, possi ∈ rel.possibilities :=
    fun possi h => mem_join_possis.mp h
  obtain ⟨hS, hG, hV, hF, _⟩ := removeProvides_fold hU hpkgU _ hall h0
  have hT : (db.Remove pkg).tree =
      ((pkg.provides.relations.map Relation.possibilities).flatten).foldl
        (removePackageProvides pkg) (treeDelete pkg db.tree) :=
    nestedFold_join (removePackageProvides pkg) pkg.provides.relations
      (treeDelete pkg db.tree)
  refine ⟨?_, ?_, ?_, ?_⟩
  · rw [hT]
    exact hS
  · rw [hT]
    exact hG
  · rw [hT]
    intro v hv hvv
    obtain ⟨hne, hmem, hded⟩ := hV v hv hvv
    refine ⟨hne, ?_, hded⟩
    intro q hq
    rcases hmem q hq with ⟨_, possiq, hposmem, _⟩ | hr
    · exact absurd hposmem (List.not_mem_nil _)
    · exact hr
  · rw [hT]
    exact hF

/-- The empty database satisfies the invariant for any universe. -/
theorem newdb_dbinv (U : List Package) : DBInv U NewPackageDB := by
  refine ⟨List.Pairwise.nil, ?_, ?_, ?_⟩
  · intro x hx
    exact absurd hx (List.not_mem_nil _)
  · intro v hv
    exact absurd hv (List.not_mem_nil _)
  · intro p hp
    exact absurd hp (List.not_mem_nil _)

/-- Any sequence of `Add`/`Remove` operations over universe packages
preserves the database invariant. -/
theorem applyOps_dbinv {U : List Package} (hU : GoodUniverse U) :
    ∀ (ops : List DBOp) {db : PackageDB}, (∀ op ∈ ops, opPkg op ∈ U) →
      DBInv U db → DBInv U (applyOps db ops) := by
  intro ops
  induction ops with
  | nil =>
    intro db _ h
    exact h
  | cons op rest ih =>
    intro db hops hdb
    have h1 : DBInv U (applyOp db op) := by
      cases op with
      | add p => exact add_dbinv hU (hops _ (List.mem_cons_self _ _)) hdb
      | remove p => exact remove_dbinv hU (hops _ (List.mem_cons_self _ _)) hdb
    exact ih (fun o ho => hops o (List.mem_cons_of_mem _ ho)) h1

/-- C2: after any finite sequence of `Add`/`Remove` operations whose
packages are concrete, pairwise `Compare`-distinct, and never
`Compare`-equal to a virtual key, every virtual entry of the resulting
database has a nonempty providers list whose members are concrete
packages currently in the database providing the entry's key, with no
two providers comparing equal; and every provide possibility of a
present concrete package has a matching virtual entry listing it. -/
theorem C2_virtual_invariant {U : List Package} (hU : GoodUniverse U)
    {ops : List DBOp} (hops : ∀ op ∈ ops, opPkg op ∈ U) :
    (∀ v ∈ (applyOps NewPackageDB ops).tree, v.isVirtual = true →
      v.providers ≠ [] ∧
      (∀ q ∈ v.providers, q ∈ (applyOps NewPackageDB ops).tree ∧
        q.isVirtual = false ∧
        ∃ rel ∈ q.provides.relations, ∃ possi ∈ rel.possibilities,
          (virtualKeyOf possi).Compare v = .eq) ∧
      (∀ q1 ∈ v.providers, ∀ q2 ∈ v.providers, q1.Compare q2 = .eq → q1 = q2)) ∧
    (∀ p ∈ (applyOps NewPackageDB ops).tree, p.isVirtual = false →
      ∀ rel ∈ p.provides.relations, ∀ possi ∈ rel.possibilities,
        ∃ v ∈ (applyOps NewPackageDB ops).tree, v.isVirtual = true ∧
          (virtualKeyOf possi).Compare v = .eq ∧ p ∈ v.providers) := by
  obtain ⟨_, _, hV, hF⟩ := applyOps_dbinv hU ops hops (newdb_dbinv U)
  exact ⟨hV, hF⟩

/-- Witness for C2 at a concrete run: adding the provider of `v` yields
the virtual entry with its nonempty providers list. -/
theorem C2_witness :
    cexStaleV.providers ≠ [] ∧
    cexStaleV ∈ (applyOps NewPackageDB [DBOp.add cexProvider]).tree ∧
    cexStaleV.isVirtual = true :=
  ⟨((@C2_virtual_invariant [cexProvider] (by unfold GoodUniverse; decide)
      [DBOp.add cexProvider] (by decide)).1 cexStaleV (by decide) (by decide)).1,
    by decide, by decide⟩

/-- Counterexample to C2 as stated: adding a `Compare`-equal
replacement with an empty Provides replaces the provider but leaves the
virtual entry behind, still listing the replaced package, although no
concrete package in the database provides anything anymore. -/
theorem C2_counterexample :
    (NewPackageDB.Add cexProvider).Add cexReplacement =
      ⟨[cexReplacement, cexStaleV]⟩ ∧
    cexStaleV.isVirtual = true ∧
    cexReplacement.isVirtual = false ∧
    cexReplacement.provides.relations = [] ∧
    cexProvider ∉ (⟨[cexReplacement, cexStaleV]⟩ : PackageDB).tree := by
  decide

end Debby
